import Mathlib

/-!
The package jinzhu/inflection: pluralisation and singularisation of English nouns.

A shallow embedding of `inflections.go`.  The package keeps four rule tables
and two compiled matcher lists in package-level variables; here they are the
fields of `State`, and every exported function takes the state explicitly.

The Go standard library calls used by the package (`regexp.MustCompile`,
`Regexp.MatchString`, `Regexp.ReplaceAllString`, `strings.ToUpper`,
`strings.Title`) are modelled for ASCII patterns in the fragment of the RE2
syntax described at `Regexp.parse`.
-/

namespace Inflection

/-! ## Characters and `strings` -/

/-- ASCII lower-case letter. -/
def isLower (c : Char) : Bool := 97 ≤ c.toNat && c.toNat ≤ 122

/-- ASCII upper-case letter. -/
def isUpper (c : Char) : Bool := 65 ≤ c.toNat && c.toNat ≤ 90

/-- ASCII decimal digit. -/
def isDigit (c : Char) : Bool := 48 ≤ c.toNat && c.toNat ≤ 57

/-- ASCII letter. -/
def isLetter (c : Char) : Bool := isLower c || isUpper c

/-- ASCII character. -/
def isASCII (c : Char) : Bool := c.toNat < 128

/-- The upper-case form of a character (`unicode.ToUpper`, on ASCII). -/
def upperChar (c : Char) : Char := if isLower c then Char.ofNat (c.toNat - 32) else c

/-- The lower-case form of a character (`unicode.ToLower`, on ASCII). -/
def lowerChar (c : Char) : Char := if isUpper c then Char.ofNat (c.toNat + 32) else c

/-- Go `strings.ToUpper` on a list of characters. -/
def upperChars (cs : List Char) : List Char := cs.map upperChar

/-- Go `strings.ToUpper` (exact on ASCII strings). -/
def ToUpper (s : String) : String := ⟨upperChars s.data⟩

/-- Go `isSeparator` of package `strings`: ASCII letters, digits and the
underscore do not separate words, every other ASCII character does. -/
def isSeparator (c : Char) : Bool :=
  if isASCII c then !(isLetter c || isDigit c || c.toNat == 95) else false

/-- Loop of Go `strings.Title`: a character is upper-cased when the character
before it is a separator. -/
def titleChars : Char → List Char → List Char
  | _, [] => []
  | prev, c :: cs => (if isSeparator prev then upperChar c else c) :: titleChars c cs

/-- Go `strings.Title` (exact on ASCII strings): the first letter of every
word is upper-cased; the scan starts as if a space came before the string. -/
def Title (s : String) : String := ⟨titleChars ' ' s.data⟩

/-! ## Regular expressions: syntax -/

/-- A single-character test. -/
inductive Atom where
  /-- a literal character; `fold` is the `(?i)` flag -/
  | lit (c : Char) (fold : Bool)
  /-- a bracket class `[...]` or `[^...]` of inclusive ranges -/
  | cls (neg : Bool) (ranges : List (Char × Char)) (fold : Bool)
  /-- the dot: any character but the newline -/
  | dot
  deriving DecidableEq, Repr

/-- A parsed regular expression. -/
inductive Regexp where
  /-- the empty expression -/
  | empty
  /-- one character -/
  | atom (a : Atom)
  /-- `^`, beginning of text -/
  | bol
  /-- `$`, end of text -/
  | eol
  /-- concatenation -/
  | cat (a b : Regexp)
  /-- alternation, the left branch preferred -/
  | alt (a b : Regexp)
  /-- greedy `?` -/
  | opt (a : Regexp)
  /-- greedy `*` -/
  | star (a : Regexp)
  /-- capturing group number `n` -/
  | group (n : Nat) (a : Regexp)
  deriving DecidableEq, Repr

/-- Representative of the simple case-folding orbit of a character, for the
orbits that contain an ASCII character: `A`..`Z` fold to `a`..`z`, the long s
U+017F folds to `s` and the Kelvin sign U+212A folds to `k`. -/
def foldKey (c : Char) : Char :=
  if isUpper c then Char.ofNat (c.toNat + 32)
  else if c.toNat == 0x17F then 's'
  else if c.toNat == 0x212A then 'k'
  else c

/-- Membership of a character in a list of inclusive ranges. -/
def inRanges (rs : List (Char × Char)) (c : Char) : Bool :=
  rs.any (fun r => r.1.toNat ≤ c.toNat && c.toNat ≤ r.2.toNat)

/-- Whether an atom accepts a character. -/
def Atom.accepts : Atom → Char → Bool
  | .lit c false, x => x == c
  | .lit c true, x => foldKey x == foldKey c
  | .cls neg rs false, x => neg != inRanges rs x
  | .cls neg rs true, x =>
      neg != (inRanges rs x || inRanges rs (foldKey x) || inRanges rs (upperChar (foldKey x)))
  | .dot, x => x != '\n'

/-! ## Regular expressions: matching -/

/-- Submatches recorded so far: `(group, start, end)`, most recent first. -/
abbrev Caps := List (Nat × Nat × Nat)

/-- A point of a match in progress: the position, the text from there on and
the submatches. -/
structure MState where
  pos : Nat
  rest : List Char
  caps : Caps
  deriving DecidableEq, Repr

/-- Greedy iteration of a matcher, each round consuming at least one
character. -/
def starLoop (f : MState → List MState) : Nat → MState → List MState
  | 0, s => [s]
  | fuel + 1, s =>
      ((f s).filter (fun t => decide (s.pos < t.pos))).flatMap (starLoop f fuel) ++ [s]

/-- All ways `re` matches at `s`, in the order a backtracking engine tries
them (leftmost-first semantics of Go's `regexp`). -/
def Regexp.run : Regexp → MState → List MState
  | .empty, s => [s]
  | .atom a, s =>
      match s.rest with
      | [] => []
      | c :: cs => if a.accepts c then [⟨s.pos + 1, cs, s.caps⟩] else []
  | .bol, s => if s.pos = 0 then [s] else []
  | .eol, s => match s.rest with
      | [] => [s]
      | _ :: _ => []
  | .cat a b, s => (a.run s).flatMap b.run
  | .alt a b, s => a.run s ++ b.run s
  | .opt a, s => a.run s ++ [s]
  | .star a, s => starLoop a.run s.rest.length s
  | .group n a, s => (a.run s).map (fun t => ⟨t.pos, t.rest, (n, s.pos, t.pos) :: t.caps⟩)

/-- The preferred match of `re` starting exactly at position `pos`, where
`rest` is the text from `pos` on; group 0 is the whole match. -/
def Regexp.matchAt (re : Regexp) (pos : Nat) (rest : List Char) : Option Caps :=
  match re.run ⟨pos, rest, []⟩ with
  | [] => none
  | t :: _ => some ((0, pos, t.pos) :: t.caps)

/-- Leftmost match at or after `pos`. -/
def Regexp.search (re : Regexp) : Nat → List Char → Option Caps
  | pos, [] => re.matchAt pos []
  | pos, c :: cs =>
      match re.matchAt pos (c :: cs) with
      | some m => some m
      | none => re.search (pos + 1) cs

/-! ## Regular expressions: parsing -/

/-- Why a pattern has no parse: `invalid` is a pattern that Go's
`regexp.Compile` rejects; `unsupported` is a pattern outside the fragment
modelled here, about which nothing is said. -/
inductive ParseError where
  | invalid
  | unsupported
  deriving DecidableEq, Repr

/-- An open group (or the top level) during parsing. -/
structure Frame where
  /-- alternatives completed so far, last first -/
  alts : List Regexp
  /-- items of the current concatenation, last first -/
  items : List Regexp
  /-- capture number of the group, `none` for `(?:` and the top level -/
  cap : Option Nat
  /-- the `(?i)` flag in force outside the group -/
  outerFold : Bool
  /-- whether a repetition operator may follow: `some true` after an
  operand, `some false` at the start of an expression, `none` elsewhere -/
  rep : Option Bool
  deriving DecidableEq, Repr

/-- Where the parser is inside a construct of several characters. -/
inductive Mode where
  | normal
  /-- after `(` -/
  | paren
  /-- after `(?` -/
  | parenQ
  /-- after `(?i` -/
  | parenQi
  /-- after `[` -/
  | clsOpen
  /-- inside a class: ranges so far (last first), a pending first character
  and whether a `-` follows it -/
  | clsBody (neg : Bool) (ranges : List (Char × Char)) (pending : Option Char) (dash : Bool)
  deriving DecidableEq, Repr

/-- Parser state. -/
structure PState where
  stack : List Frame
  cur : Frame
  fold : Bool
  ncap : Nat
  mode : Mode
  deriving DecidableEq, Repr

/-- Concatenation of items given last first. -/
def mkCat : List Regexp → Regexp
  | [] => .empty
  | x :: xs => xs.foldl (fun acc y => .cat y acc) x

/-- Alternation of branches given last first. -/
def mkAlt : List Regexp → Regexp
  | [] => .empty
  | x :: xs => xs.foldl (fun acc y => .alt y acc) x

/-- The expression of a finished frame. -/
def Frame.close (f : Frame) : Regexp :=
  let body := mkAlt (mkCat f.items :: f.alts)
  match f.cap with
  | some n => .group n body
  | none => body

/-- Add an operand to the current concatenation. -/
def PState.push (p : PState) (r : Regexp) (rep : Option Bool) : PState :=
  { p with cur := { p.cur with items := r :: p.cur.items, rep := rep }, mode := .normal }

/-- Whether an expression can match the empty string. -/
def Regexp.nullable : Regexp → Bool
  | .empty => true
  | .atom _ => false
  | .bol => true
  | .eol => true
  | .cat a b => a.nullable && b.nullable
  | .alt a b => a.nullable || b.nullable
  | .opt _ => true
  | .star _ => true
  | .group _ a => a.nullable

/-- Characters with a meaning of their own inside a bracket class. -/
def clsSpecial (c : Char) : Bool :=
  c == '\\' || c == '[' || c == ']' || c == '^' || c == '-'

/-- One character of the pattern. -/
def parseStep (p : PState) (c : Char) : Except ParseError PState :=
  if !isASCII c then .error .unsupported else
  match p.mode with
  | .paren =>
      if c == '?' then .ok { p with mode := .parenQ }
      else
        let q : PState :=
          { stack := p.cur :: p.stack,
            cur := ⟨[], [], some (p.ncap + 1), p.fold, some false⟩,
            fold := p.fold, ncap := p.ncap + 1, mode := .normal }
        parseNormal q c
  | .parenQ =>
      if c == ':' then
        .ok { stack := p.cur :: p.stack, cur := ⟨[], [], none, p.fold, some false⟩,
              fold := p.fold, ncap := p.ncap, mode := .normal }
      else if c == 'i' then .ok { p with mode := .parenQi }
      else .error .unsupported
  | .parenQi =>
      if c == ')' then
        .ok { p with fold := true, mode := .normal,
                     cur := { p.cur with rep := if p.cur.rep == some false then some false else none } }
      else .error .unsupported
  | .clsOpen =>
      if c == '^' then .ok { p with mode := .clsBody true [] none false }
      else if clsSpecial c then .error .unsupported
      else .ok { p with mode := .clsBody false [] (some c) false }
  | .clsBody neg rs pending dash =>
      match pending, dash with
      | none, _ =>
          if c == ']' then
            if rs.isEmpty then .error .unsupported
            else .ok (p.push (.atom (.cls neg rs.reverse p.fold)) (some true))
          else if clsSpecial c then .error .unsupported
          else .ok { p with mode := .clsBody neg rs (some c) false }
      | some a, false =>
          if c == ']' then .ok (p.push (.atom (.cls neg ((a, a) :: rs).reverse p.fold)) (some true))
          else if c == '-' then .ok { p with mode := .clsBody neg rs (some a) true }
          else if clsSpecial c then .error .unsupported
          else .ok { p with mode := .clsBody neg ((a, a) :: rs) (some c) false }
      | some a, true =>
          if clsSpecial c then .error .unsupported
          else if c.toNat < a.toNat then .error .invalid
          else .ok { p with mode := .clsBody neg ((a, c) :: rs) none false }
  | .normal => parseNormal p c
where
  /-- One character outside any construct of several characters. -/
  parseNormal (p : PState) (c : Char) : Except ParseError PState :=
    if c == '(' then .ok { p with mode := .paren }
    else if c == ')' then
      match p.stack with
      | [] => .error .invalid
      | f :: fs =>
          .ok { stack := fs,
                cur := { f with items := p.cur.close :: f.items, rep := some true },
                fold := p.cur.outerFold, ncap := p.ncap, mode := .normal }
    else if c == '|' then
      .ok { p with cur := { p.cur with alts := mkCat p.cur.items :: p.cur.alts, items := [],
                                       rep := some false } }
    else if c == '^' then .ok (p.push .bol none)
    else if c == '$' then .ok (p.push .eol none)
    else if c == '.' then .ok (p.push (.atom .dot) (some true))
    else if c == '[' then .ok { p with mode := .clsOpen }
    else if c == '?' || c == '*' || c == '+' then
      match p.cur.rep, p.cur.items with
      | some false, _ => .error .invalid
      | some true, r :: rs =>
          if c == '?' then
            .ok { p with cur := { p.cur with items := .opt r :: rs, rep := none } }
          else if r.nullable then .error .unsupported
          else if c == '*' then
            .ok { p with cur := { p.cur with items := .star r :: rs, rep := none } }
          else
            .ok { p with cur := { p.cur with items := .cat r (.star r) :: rs, rep := none } }
      | _, _ => .error .unsupported
    else if c == '\\' || c == '{' || c == '}' || c == ']' then .error .unsupported
    else .ok (p.push (.atom (.lit c p.fold)) (some true))

/-- All characters of the pattern, left to right. -/
def parseChars : PState → List Char → Except ParseError PState
  | p, [] => .ok p
  | p, c :: cs =>
      match parseStep p c with
      | .ok q => parseChars q cs
      | .error e => .error e

/-- The parser's initial state. -/
def PState.init : PState :=
  { stack := [], cur := ⟨[], [], none, false, some false⟩, fold := false, ncap := 0,
    mode := .normal }

/-- End of the pattern: every group and class must be closed. -/
def parseFinish (p : PState) : Except ParseError Regexp :=
  match p.mode, p.stack with
  | .normal, [] => .ok p.cur.close
  | .normal, _ :: _ => .error .invalid
  | .paren, _ => .error .invalid
  | .clsBody _ _ _ _, _ => .error .invalid
  | .clsOpen, _ => .error .invalid
  | _, _ => .error .unsupported

/-- Go `regexp.Compile` on the modelled fragment of the RE2 syntax: ASCII
literals, `.`, `^`, `$`, bracket classes of characters and ranges with an
optional leading `^`, capturing groups, `(?:...)`, the flag group `(?i)`,
`|`, and the greedy `?`, `*`, `+` (the last two on operands that cannot match
the empty string).  `^` and `$` are beginning and end of text, a negated
class matches the newline and `.` does not, as under Go's Perl flags. -/
def Regexp.parse (pattern : String) : Except ParseError Regexp :=
  match parseChars PState.init pattern.data with
  | .ok p => parseFinish p
  | .error e => .error e

/-! ## `Regexp.MatchString` and `Regexp.ReplaceAllString` -/

/-- Go `(*Regexp).MatchString`: whether the text contains any match. -/
def Regexp.MatchString (re : Regexp) (str : String) : Bool :=
  (re.search 0 str.data).isSome

/-- The recorded bounds of a group, if it took part in the match. -/
def capOf (m : Caps) (n : Nat) : Option (Nat × Nat) :=
  match m.find? (fun e => e.1 == n) with
  | some e => some e.2
  | none => none

/-- The slice `src[lo:hi]`. -/
def slice (src : List Char) (lo hi : Nat) : List Char := (src.drop lo).take (hi - lo)

/-- Characters of a group name in a template: letter, digit or underscore. -/
def isWordChar (c : Char) : Bool := isLetter c || isDigit c || c == '_'

/-- The number loop of Go `extract`: the value of a name made of digits only
(`none` is Go's `-1`). -/
def nameNum : List Char → Nat → Option Nat
  | [], num => some num
  | c :: cs, num =>
      if !isDigit c || 100000000 ≤ num then none
      else nameNum cs (num * 10 + (c.toNat - 48))

/-- Go `extract` of package `regexp`: the name at the head of a template,
plain or in braces, its number (`none` for a name that is not a number) and
the rest of the template; `none` when the reference is malformed. -/
def extract (str : List Char) : Option (List Char × Option Nat × List Char) :=
  match str with
  | [] => none
  | c0 :: tl =>
      let brace := c0 == '{'
      let str1 := if brace then tl else str
      let name := str1.takeWhile isWordChar
      let after := str1.dropWhile isWordChar
      match name with
      | [] => none
      | n0 :: ns =>
          let num := if n0 == '0' && !ns.isEmpty then none else nameNum name 0
          if brace then
            match after with
            | [] => none
            | c :: rest => if c == '}' then some (name, num, rest) else none
          else some (name, num, after)

/-- Go `(*Regexp).expand`: the template with `$name` and `${name}` replaced
by the submatches and `$$` by `$`.  The modelled fragment has no named
groups, so a name that is not a number expands to nothing. -/
def expand (src : List Char) (m : Caps) : Nat → List Char → List Char
  | 0, template => template
  | fuel + 1, template =>
      let before := template.takeWhile (fun c => c != '$')
      match template.dropWhile (fun c => c != '$') with
      | [] => before
      | _ :: after =>
          before ++
          match after with
          | [] => '$' :: expand src m fuel after
          | c :: t =>
              if c == '$' then '$' :: expand src m fuel t
              else
                match extract after with
                | none => '$' :: expand src m fuel after
                | some (_, num, rest) =>
                    (match num with
                     | some n =>
                         match capOf m n with
                         | some (lo, hi) => slice src lo hi
                         | none => []
                     | none => []) ++ expand src m fuel rest

/-- Start and end of the whole match. -/
def matchBounds (m : Caps) : Nat × Nat :=
  match capOf m 0 with
  | some b => b
  | none => (0, 0)

/-- Loop of Go `(*Regexp).replaceAll`: `searchPos` is where the next search
starts, `lastMatchEnd` the end of the previous match, `buf` the output so
far.  Positions count characters. -/
def replaceAllLoop (re : Regexp) (repl : List Char) (src : List Char) :
    Nat → Nat → Nat → List Char → List Char
  | 0, _, lastMatchEnd, buf => buf ++ src.drop lastMatchEnd
  | fuel + 1, searchPos, lastMatchEnd, buf =>
      if src.length < searchPos then buf ++ src.drop lastMatchEnd
      else
        match re.search searchPos (src.drop searchPos) with
        | none => buf ++ src.drop lastMatchEnd
        | some m =>
            let a := matchBounds m
            let buf1 := buf ++ slice src lastMatchEnd a.1
            let buf2 :=
              if lastMatchEnd < a.2 || a.1 == 0 then buf1 ++ expand src m (repl.length + 1) repl
              else buf1
            let next := if a.2 < searchPos + 1 then searchPos + 1 else a.2
            replaceAllLoop re repl src fuel next a.2 buf2

/-- Go `(*Regexp).ReplaceAllString`. -/
def Regexp.ReplaceAllString (re : Regexp) (src repl : String) : String :=
  ⟨replaceAllLoop re repl.data src.data (src.data.length + 2) 0 0 []⟩

/-! ## The package state -/

/-- A compiled matcher. -/
structure inflection where
  regexp : Regexp
  replace : String
  deriving DecidableEq, Repr

/-- A regular rule. -/
structure Regular where
  find : String
  replace : String
  deriving DecidableEq, Repr

/-- An irregular pair. -/
structure Irregular where
  singular : String
  plural : String
  deriving DecidableEq, Repr

abbrev RegularSlice := List Regular
abbrev IrregularSlice := List Irregular

/-- The package-level variables, each table by its contents.  The backing
arrays that the two tables of rules can share are modelled by `Mem`. -/
structure State where
  pluralInflections : RegularSlice
  singularInflections : RegularSlice
  irregularInflections : IrregularSlice
  uncountableInflections : List String
  compiledPluralMaps : List inflection
  compiledSingularMaps : List inflection
  deriving DecidableEq, Repr

/-- The built-in plural rules. -/
def pluralInflections : RegularSlice := [
  ⟨"([a-z])$", "${1}s"⟩,
  ⟨"s$", "s"⟩,
  ⟨"^(ax|test)is$", "${1}es"⟩,
  ⟨"(octop|vir)us$", "${1}i"⟩,
  ⟨"(octop|vir)i$", "${1}i"⟩,
  ⟨"(alias|status)$", "${1}es"⟩,
  ⟨"(bu)s$", "${1}ses"⟩,
  ⟨"(buffal|tomat)o$", "${1}oes"⟩,
  ⟨"([ti])um$", "${1}a"⟩,
  ⟨"([ti])a$", "${1}a"⟩,
  ⟨"sis$", "ses"⟩,
  ⟨"(?:([^f])fe|([lr])f)$", "${1}${2}ves"⟩,
  ⟨"(hive)$", "${1}s"⟩,
  ⟨"([^aeiouy]|qu)y$", "${1}ies"⟩,
  ⟨"(x|ch|ss|sh)$", "${1}es"⟩,
  ⟨"(matr|vert|ind)(?:ix|ex)$", "${1}ices"⟩,
  ⟨"^(m|l)ouse$", "${1}ice"⟩,
  ⟨"^(m|l)ice$", "${1}ice"⟩,
  ⟨"^(ox)$", "${1}en"⟩,
  ⟨"^(oxen)$", "${1}"⟩,
  ⟨"(quiz)$", "${1}zes"⟩]

/-- The built-in singular rules. -/
def singularInflections : RegularSlice := [
  ⟨"s$", ""⟩,
  ⟨"(ss)$", "${1}"⟩,
  ⟨"(n)ews$", "${1}ews"⟩,
  ⟨"([ti])a$", "${1}um"⟩,
  ⟨"((a)naly|(b)a|(d)iagno|(p)arenthe|(p)rogno|(s)ynop|(t)he)(sis|ses)$", "${1}sis"⟩,
  ⟨"(^analy)(sis|ses)$", "${1}sis"⟩,
  ⟨"([^f])ves$", "${1}fe"⟩,
  ⟨"(hive)s$", "${1}"⟩,
  ⟨"(tive)s$", "${1}"⟩,
  ⟨"([lr])ves$", "${1}f"⟩,
  ⟨"([^aeiouy]|qu)ies$", "${1}y"⟩,
  ⟨"(s)eries$", "${1}eries"⟩,
  ⟨"(m)ovies$", "${1}ovie"⟩,
  ⟨"(c)ookies$", "${1}ookie"⟩,
  ⟨"(x|ch|ss|sh)es$", "${1}"⟩,
  ⟨"^(m|l)ice$", "${1}ouse"⟩,
  ⟨"(bus)(es)?$", "${1}"⟩,
  ⟨"(o)es$", "${1}"⟩,
  ⟨"(shoe)s$", "${1}"⟩,
  ⟨"(cris|test)(is|es)$", "${1}is"⟩,
  ⟨"^(a)x[ie]s$", "${1}xis"⟩,
  ⟨"(octop|vir)(us|i)$", "${1}us"⟩,
  ⟨"(alias|status)(es)?$", "${1}"⟩,
  ⟨"^(ox)en", "${1}"⟩,
  ⟨"(vert|ind)ices$", "${1}ex"⟩,
  ⟨"(matr)ices$", "${1}ix"⟩,
  ⟨"(quiz)zes$", "${1}"⟩,
  ⟨"(database)s$", "${1}"⟩]

/-- The built-in irregular pairs. -/
def irregularInflections : IrregularSlice := [
  ⟨"person", "people"⟩,
  ⟨"man", "men"⟩,
  ⟨"child", "children"⟩,
  ⟨"sex", "sexes"⟩,
  ⟨"move", "moves"⟩,
  ⟨"mombie", "mombies"⟩]

/-- The built-in uncountable words. -/
def uncountableInflections : List String :=
  ["equipment", "information", "rice", "money", "species", "series", "fish", "sheep", "jeans",
   "police"]

/-- The package variables as initialised, before `init` runs. -/
def builtinState : State :=
  { pluralInflections := pluralInflections,
    singularInflections := singularInflections,
    irregularInflections := irregularInflections,
    uncountableInflections := uncountableInflections,
    compiledPluralMaps := [],
    compiledSingularMaps := [] }

/-- How a call that compiles ends. -/
inductive Outcome where
  /-- the call returned, leaving this state -/
  | done (s : State)
  /-- `regexp.MustCompile` panicked, leaving this state -/
  | panic (s : State)
  /-- a table entry lies outside the modelled fragment -/
  | unmodelled
  deriving DecidableEq, Repr

/-- Run `f` on the state of a call that returned. -/
def Outcome.andThen (o : Outcome) (f : State → Outcome) : Outcome :=
  match o with
  | .done s => f s
  | .panic s => .panic s
  | .unmodelled => .unmodelled

/-- The call returned and left a state satisfying `p`. -/
def Outcome.Holds (o : Outcome) (p : State → Prop) : Prop :=
  match o with
  | .done s => p s
  | _ => False

instance Outcome.decidableHolds (o : Outcome) (p : State → Prop) [DecidablePred p] :
    Decidable (o.Holds p) :=
  match o with
  | .done s => inferInstanceAs (Decidable (p s))
  | .panic _ => isFalse (fun h => h)
  | .unmodelled => isFalse (fun h => h)

/-- Whether every character is ASCII. -/
def asciiString (s : String) : Bool := s.data.all isASCII

/-- The matcher of an uncountable word (`compile`, first loop). -/
def uncountableMatchers (uncountable : String) : Except ParseError (List inflection) :=
  match Regexp.parse ("^(?i)(" ++ uncountable ++ ")$") with
  | .ok re => .ok [⟨re, "${1}"⟩]
  | .error e => .error e

/-- The three matchers of a word pair (`compile`, second and third loop):
upper-cased, title-cased and as written, each anchored at the end. -/
def irregularMatchers (src dst : String) : Except ParseError (List inflection) :=
  match Regexp.parse (ToUpper src ++ "$") with
  | .error e => .error e
  | .ok r1 =>
    match Regexp.parse (Title src ++ "$") with
    | .error e => .error e
    | .ok r2 =>
      match Regexp.parse (src ++ "$") with
      | .error e => .error e
      | .ok r3 => .ok [⟨r1, ToUpper dst⟩, ⟨r2, Title dst⟩, ⟨r3, dst⟩]

/-- The three matchers of a regular rule (`compile`, fourth and fifth loop):
upper-cased, as written, and case-insensitive.  A replacement with a
character outside ASCII is outside the model of `strings.ToUpper` and of the
template names. -/
def regularMatchers (value : Regular) : Except ParseError (List inflection) :=
  if !asciiString value.replace then .error .unsupported else
  match Regexp.parse (ToUpper value.find) with
  | .error e => .error e
  | .ok r1 =>
    match Regexp.parse value.find with
    | .error e => .error e
    | .ok r2 =>
      match Regexp.parse ("(?i)" ++ value.find) with
      | .error e => .error e
      | .ok r3 => .ok [⟨r1, ToUpper value.replace⟩, ⟨r2, value.replace⟩, ⟨r3, value.replace⟩]

/-- One `for` loop of `compile`: the matchers of each entry are built and
appended by `add`; a pattern that does not compile ends the loop. -/
def compileEach {α : Type} (mk : α → Except ParseError (List inflection))
    (add : State → List inflection → State) : List α → State → Outcome
  | [], s => .done s
  | x :: xs, s =>
      match mk x with
      | .ok infs => compileEach mk add xs (add s infs)
      | .error .invalid => .panic s
      | .error .unsupported => .unmodelled

/-- Append to `compiledPluralMaps`. -/
def addPlural (s : State) (infs : List inflection) : State :=
  { s with compiledPluralMaps := s.compiledPluralMaps ++ infs }

/-- Append to `compiledSingularMaps`. -/
def addSingular (s : State) (infs : List inflection) : State :=
  { s with compiledSingularMaps := s.compiledSingularMaps ++ infs }

/-- Go `compile`: both compiled lists are emptied and rebuilt from the four
tables. -/
def compile (s : State) : Outcome :=
  let s0 : State := { s with compiledPluralMaps := [], compiledSingularMaps := [] }
  (compileEach uncountableMatchers (fun t infs => addSingular (addPlural t infs) infs)
      s0.uncountableInflections s0).andThen fun s1 =>
  (compileEach (fun v : Irregular => irregularMatchers v.singular v.plural) addPlural
      s1.irregularInflections s1).andThen fun s2 =>
  (compileEach (fun v : Irregular => irregularMatchers v.plural v.singular) addSingular
      s2.irregularInflections s2).andThen fun s3 =>
  (compileEach regularMatchers addPlural s3.pluralInflections.reverse s3).andThen fun s4 =>
  compileEach regularMatchers addSingular s4.singularInflections.reverse s4

/-- Go `init`: the state in which the package is first used. -/
def init : Outcome := compile builtinState

/-- Go `AddPlural`, on the contents of the tables: the rule is appended to
the contents of the plural table.  The write of `append` into a backing
array that the singular table shares is modelled by `Mem.AddPlural`. -/
def AddPlural (s : State) (find replace : String) : Outcome :=
  compile { s with pluralInflections := s.pluralInflections ++ [⟨find, replace⟩] }

/-- Go `AddSingular`, on the contents of the tables: the rule is appended to
the contents of the singular table.  The write of `append` into a backing
array that the plural table shares is modelled by `Mem.AddSingular`. -/
def AddSingular (s : State) (find replace : String) : Outcome :=
  compile { s with singularInflections := s.singularInflections ++ [⟨find, replace⟩] }

/-- Go `AddIrregular`. -/
def AddIrregular (s : State) (singular plural : String) : Outcome :=
  compile { s with irregularInflections := s.irregularInflections ++ [⟨singular, plural⟩] }

/-- Go `AddUncountable`. -/
def AddUncountable (s : State) (value : String) : Outcome :=
  compile { s with uncountableInflections := s.uncountableInflections ++ [value] }

/-- Go `make([]T, n)`: a fresh slice of `n` zero values. -/
def make {α : Type} (zero : α) (n : Nat) : List α := List.replicate n zero

/-- Go `copy(dst, src)`: the first `min(len(dst), len(src))` elements of
`dst` are overwritten with those of `src`; the result is the new content of
`dst`. -/
def copy {α : Type} (dst src : List α) : List α := src.take dst.length ++ dst.drop src.length

/-- Go `GetPlural`: a fresh slice of the length of the table, filled by
`copy`. -/
def GetPlural (s : State) : RegularSlice :=
  copy (make ⟨"", ""⟩ s.pluralInflections.length) s.pluralInflections

/-- Go `GetSingular`: a fresh slice of the length of the table, filled by
`copy`. -/
def GetSingular (s : State) : RegularSlice :=
  copy (make ⟨"", ""⟩ s.singularInflections.length) s.singularInflections

/-- Go `GetIrregular`: a fresh slice of the length of the table, filled by
`copy`. -/
def GetIrregular (s : State) : IrregularSlice :=
  copy (make ⟨"", ""⟩ s.irregularInflections.length) s.irregularInflections

/-- Go `GetUncountable`: a fresh slice of the length of the table, filled by
`copy`. -/
def GetUncountable (s : State) : List String :=
  copy (make "" s.uncountableInflections.length) s.uncountableInflections

/-- Go `SetPlural`. -/
def SetPlural (s : State) (inflections : RegularSlice) : Outcome :=
  compile { s with pluralInflections := inflections }

/-- Go `SetSingular`. -/
def SetSingular (s : State) (inflections : RegularSlice) : Outcome :=
  compile { s with singularInflections := inflections }

/-- Go `SetIrregular`. -/
def SetIrregular (s : State) (inflections : IrregularSlice) : Outcome :=
  compile { s with irregularInflections := inflections }

/-- Go `SetUncountable`. -/
def SetUncountable (s : State) (inflections : List String) : Outcome :=
  compile { s with uncountableInflections := inflections }

/-- The loop shared by `Plural` and `Singular`: the first matcher whose
pattern matches rewrites the word; without one the word is returned. -/
def applyFirst : List inflection → String → String
  | [], str => str
  | inf :: rest, str =>
      if inf.regexp.MatchString str then inf.regexp.ReplaceAllString str inf.replace
      else applyFirst rest str

/-- Go `Plural`. -/
def Plural (s : State) (str : String) : String := applyFirst s.compiledPluralMaps str

/-- Go `Singular`. -/
def Singular (s : State) (str : String) : String := applyFirst s.compiledSingularMaps str

/-- The test corpus `inflections` of `inflections_test.go`: singular and
plural of each entry. -/
def inflections : List (String × String) := [
  ("star", "stars"),
  ("STAR", "STARS"),
  ("STaR", "STaRS"),
  ("Star", "Stars"),
  ("bus", "buses"),
  ("fish", "fish"),
  ("mouse", "mice"),
  ("query", "queries"),
  ("ability", "abilities"),
  ("agency", "agencies"),
  ("movie", "movies"),
  ("archive", "archives"),
  ("index", "indices"),
  ("wife", "wives"),
  ("safe", "saves"),
  ("half", "halves"),
  ("move", "moves"),
  ("salesperson", "salespeople"),
  ("person", "people"),
  ("spokesman", "spokesmen"),
  ("man", "men"),
  ("woman", "women"),
  ("basis", "bases"),
  ("diagnosis", "diagnoses"),
  ("diagnosis_a", "diagnosis_as"),
  ("datum", "data"),
  ("medium", "media"),
  ("stadium", "stadia"),
  ("analysis", "analyses"),
  ("node_child", "node_children"),
  ("child", "children"),
  ("experience", "experiences"),
  ("day", "days"),
  ("comment", "comments"),
  ("foobar", "foobars"),
  ("newsletter", "newsletters"),
  ("old_news", "old_news"),
  ("news", "news"),
  ("series", "series"),
  ("species", "species"),
  ("quiz", "quizzes"),
  ("perspective", "perspectives"),
  ("ox", "oxen"),
  ("photo", "photos"),
  ("buffalo", "buffaloes"),
  ("tomato", "tomatoes"),
  ("dwarf", "dwarves"),
  ("elf", "elves"),
  ("information", "information"),
  ("equipment", "equipment"),
  ("criterion", "criteria")]

/-- The state in which the tests run: `init` of the package, then `init` of
the test file, which registers criterion/criteria. -/
def testInit : Outcome := init.andThen fun s => AddIrregular s "criterion" "criteria"

/-- The state of an outcome (of a call that returned or panicked). -/
def Outcome.state : Outcome → State
  | .done s => s
  | .panic s => s
  | .unmodelled => builtinState

/-- Whether the call returned. -/
def Outcome.isDone : Outcome → Bool
  | .done _ => true
  | _ => false

/-! ## The structure of the compiled lists -/

/-- The matchers of all entries, in order, when every pattern compiles. -/
def collect {α : Type} (mk : α → Except ParseError (List inflection)) :
    List α → Except ParseError (List inflection)
  | [] => .ok []
  | x :: xs =>
      match mk x with
      | .error e => .error e
      | .ok a =>
          match collect mk xs with
          | .error e => .error e
          | .ok b => .ok (a ++ b)

/-! ## Linear paths of an expression without `*` -/

/-- One step of a path: a character test or an anchor. -/
inductive Item where
  | atom (a : Atom)
  | bol
  | eol
  deriving DecidableEq, Repr

/-- One way through an expression: its steps in order and the groups it
passes, as offsets from the start of the match. -/
structure Path where
  items : List Item
  caps : Caps
  deriving DecidableEq, Repr

/-- Number of characters a list of steps consumes. -/
def itemsLen : List Item → Nat
  | [] => 0
  | .atom _ :: is => itemsLen is + 1
  | .bol :: is => itemsLen is
  | .eol :: is => itemsLen is

/-- Run the steps at position `pos` on the text `rest`; the text left over. -/
def checkItems : List Item → Nat → List Char → Option (List Char)
  | [], _, rest => some rest
  | .atom a :: is, pos, rest =>
      match rest with
      | [] => none
      | c :: cs => if a.accepts c then checkItems is (pos + 1) cs else none
  | .bol :: is, pos, rest => if pos = 0 then checkItems is pos rest else none
  | .eol :: is, pos, rest =>
      match rest with
      | [] => checkItems is pos []
      | _ :: _ => none

/-- Move submatches by `d` positions. -/
def shiftCaps (d : Nat) (cs : Caps) : Caps := cs.map (fun e => (e.1, e.2.1 + d, e.2.2 + d))

/-- The match of a path at a point, if its steps succeed. -/
def Path.run (p : Path) (s : MState) : List MState :=
  match checkItems p.items s.pos s.rest with
  | some rest => [⟨s.pos + itemsLen p.items, rest, shiftCaps s.pos p.caps ++ s.caps⟩]
  | none => []

/-- One path after another. -/
def Path.append (p q : Path) : Path :=
  ⟨p.items ++ q.items, shiftCaps (itemsLen p.items) q.caps ++ p.caps⟩

/-- The paths of an expression in order of preference; `none` when it has a
`*`. -/
def Regexp.paths : Regexp → Option (List Path)
  | .empty => some [⟨[], []⟩]
  | .atom a => some [⟨[.atom a], []⟩]
  | .bol => some [⟨[.bol], []⟩]
  | .eol => some [⟨[.eol], []⟩]
  | .cat a b =>
      match a.paths, b.paths with
      | some pa, some pb => some (pa.flatMap fun p => pb.map fun q => p.append q)
      | _, _ => none
  | .alt a b =>
      match a.paths, b.paths with
      | some pa, some pb => some (pa ++ pb)
      | _, _ => none
  | .opt a =>
      match a.paths with
      | some pa => some (pa ++ [⟨[], []⟩])
      | none => none
  | .star _ => none
  | .group n a =>
      match a.paths with
      | some pa => some (pa.map fun p => ⟨p.items, (n, 0, itemsLen p.items) :: p.caps⟩)
      | none => none

/-- A path anchored at the end of the text: an optional `^`, one or more
character tests (kept last first) and `$`. -/
structure TPath where
  bol : Bool
  atomsRev : List Atom
  caps : Caps
  deriving DecidableEq, Repr

/-- The steps of an end-anchored path. -/
def TPath.items (t : TPath) : List Item :=
  (if t.bol then [Item.bol] else []) ++ (t.atomsRev.reverse.map Item.atom ++ [Item.eol])

/-- The end-anchored path as a general path. -/
def TPath.toPath (t : TPath) : Path := ⟨t.items, t.caps⟩

/-- Read character tests followed by a final `$`; the tests, last first. -/
def atomsThenEol : List Item → List Atom → Option (List Atom)
  | [], _ => none
  | .atom a :: is, acc => atomsThenEol is (a :: acc)
  | .eol :: is, acc => if is.isEmpty then some acc else none
  | .bol :: _, _ => none

/-- Whether the steps start with `^`. -/
def startsWithBol : List Item → Bool
  | .bol :: _ => true
  | _ => false

/-- Recognise an end-anchored path. -/
def Path.toTail (p : Path) : Option TPath :=
  let b := startsWithBol p.items
  match atomsThenEol (if b then p.items.tail else p.items) [] with
  | some (a :: as) => some ⟨b, a :: as, p.caps⟩
  | _ => none

/-- Recognise a list of end-anchored paths. -/
def allTail : List Path → Option (List TPath)
  | [] => some []
  | p :: ps =>
      match p.toTail, allTail ps with
      | some t, some ts => some (t :: ts)
      | _, _ => none

/-- Whether the tests accept the first characters of the text, one each. -/
def acceptsAll : List Atom → List Char → Bool
  | [], _ => true
  | _ :: _, [] => false
  | a :: as, c :: cs => a.accepts c && acceptsAll as cs

/-- Whether an end-anchored path matches a word, given reversed, of length
`n`: its tests accept the last characters and, with `^`, it spans the word. -/
def TPath.hit (t : TPath) (wr : List Char) (n : Nat) : Bool :=
  acceptsAll t.atomsRev wr && (!t.bol || t.atomsRev.length == n)

/-- The longest of the paths satisfying `ok`, the earliest among equals. -/
def best (ok : TPath → Bool) : List TPath → Option TPath
  | [] => none
  | t :: ts =>
      match best ok ts with
      | none => if ok t then some t else none
      | some b => if ok t && b.atomsRev.length ≤ t.atomsRev.length then some t else some b

/-- The submatches of an end-anchored path on a word of length `n`. -/
def TPath.capsAt (t : TPath) (n : Nat) : Caps :=
  (0, n - t.atomsRev.length, n) :: shiftCaps (n - t.atomsRev.length) t.caps

/-- The leftmost match of a list of end-anchored paths in a word. -/
def tailSearch (ts : List TPath) (w : List Char) : Option Caps :=
  (best (fun t => t.hit w.reverse w.length) ts).map fun t => t.capsAt w.length

/-! ### Exact acceptance and begin-anchored paths -/

/-- The tests accept the text exactly, one character each. -/
def acceptsExact : List Atom → List Char → Bool
  | [], [] => true
  | a :: as, c :: cs => a.accepts c && acceptsExact as cs
  | _, _ => false

/-- Whether an end-anchored path matches at position `pos`, `rest` being the
text from there on. -/
def TPath.okAt (t : TPath) (pos : Nat) (rest : List Char) : Bool :=
  (!t.bol || pos == 0) && acceptsExact t.atomsRev.reverse rest

/-- A path anchored at the beginning of the text only: `^` and one or more
character tests. -/
structure HPath where
  atoms : List Atom
  caps : Caps
  deriving DecidableEq, Repr

/-- The begin-anchored path as a general path. -/
def HPath.toPath (h : HPath) : Path := ⟨Item.bol :: h.atoms.map Item.atom, h.caps⟩

/-- Read character tests up to the end of the steps. -/
def atomsOnly : List Item → Option (List Atom)
  | [] => some []
  | .atom a :: is =>
      match atomsOnly is with
      | some as => some (a :: as)
      | none => none
  | .bol :: _ => none
  | .eol :: _ => none

/-- Recognise a begin-anchored path. -/
def Path.toHead (p : Path) : Option HPath :=
  match p.items with
  | .bol :: is =>
      match atomsOnly is with
      | some (a :: as) => some ⟨a :: as, p.caps⟩
      | _ => none
  | _ => none

/-- Recognise a list of begin-anchored paths. -/
def allHead : List Path → Option (List HPath)
  | [] => some []
  | p :: ps =>
      match p.toHead, allHead ps with
      | some h, some hs => some (h :: hs)
      | _, _ => none

/-- The match of a list of begin-anchored paths in a word: the first path
whose tests accept the beginning of the word. -/
def headSearch (hs : List HPath) (w : List Char) : Option Caps :=
  (hs.find? fun h => acceptsAll h.atoms w).map fun h => (0, 0, h.atoms.length) :: h.caps

/-- How the paths of a compiled pattern are anchored. -/
inductive Shape where
  /-- every path ends with `$` -/
  | tail (ts : List TPath)
  /-- every path starts with `^` and has no `$` -/
  | head (hs : List HPath)
  deriving DecidableEq, Repr

/-- The shape of an expression, when it has one. -/
def Regexp.shape (r : Regexp) : Option Shape :=
  match r.paths with
  | none => none
  | some ps =>
      match allTail ps with
      | some ts => some (.tail ts)
      | none =>
          match allHead ps with
          | some hs => some (.head hs)
          | none => none

/-- The leftmost match according to the shape. -/
def Shape.search : Shape → List Char → Option Caps
  | .tail ts, w => tailSearch ts w
  | .head hs, w => headSearch hs w

/-- Description of a compiled matcher along its paths. -/
structure Spec where
  shape : Shape
  replace : List Char
  deriving DecidableEq, Repr

/-- The description of a compiled matcher, when its pattern has a shape. -/
def inflection.spec (m : inflection) : Option Spec :=
  match m.regexp.shape with
  | some sh => some ⟨sh, m.replace.data⟩
  | none => none

/-- The descriptions of a list of compiled matchers. -/
def specs : List inflection → Option (List Spec)
  | [] => some []
  | m :: ms =>
      match m.spec, specs ms with
      | some sp, some sps => some (sp :: sps)
      | _, _ => none

/-- The word rewritten by a matcher, if it matches. -/
def Spec.apply (sp : Spec) (w : List Char) : Option (List Char) :=
  match sp.shape.search w with
  | none => none
  | some m =>
      some (slice w 0 (matchBounds m).1 ++ expand w m (sp.replace.length + 1) sp.replace ++
        w.drop (matchBounds m).2)

/-- The word rewritten by the first matcher that matches. -/
def specApply : List Spec → List Char → List Char
  | [], w => w
  | sp :: sps, w =>
      match sp.apply w with
      | some r => r
      | none => specApply sps w

/-! ## Checks evaluated along the paths -/

/-- Whether the call returned with a state whose list `pick` rewrites every
input of `tests` to the expected word, evaluated along the paths. -/
def rewritesAll (o : Outcome) (pick : State → List inflection) (tests : List (String × String)) :
    Bool :=
  match o with
  | .done s =>
      match specs (pick s) with
      | some sps => tests.all fun e => specApply sps e.1.data == e.2.data
      | none => false
  | _ => false

/-- The three case forms of every entry of a corpus: as written, upper-cased
and title-cased. -/
def caseForms (corpus : List (String × String)) : List (String × String) :=
  corpus.flatMap fun e => [(e.1, e.2), (ToUpper e.1, ToUpper e.2), (Title e.1, Title e.2)]

/-- The corpus with singular and plural exchanged. -/
def swapped (corpus : List (String × String)) : List (String × String) :=
  corpus.map fun e => (e.2, e.1)

/-! ## Locality: suffixes that decide the scan -/

/-- Whether the verdict of an end-anchored path on every word ending in a
suffix is the verdict on the suffix alone (`sr` is the suffix reversed, `m`
its length): the path fits into the suffix, or the suffix refutes it. -/
def TPath.stable (t : TPath) (sr : List Char) (m : Nat) : Bool :=
  if t.atomsRev.length < m then true
  else if t.atomsRev.length == m then !t.bol || !acceptsAll t.atomsRev sr
  else !acceptsAll (t.atomsRev.take m) sr

/-- Whether a matcher decides every word ending in the suffix as it decides
the suffix. -/
def Spec.stable (sp : Spec) (sfx : List Char) : Bool :=
  match sp.shape with
  | .tail ts => ts.all fun t => t.stable sfx.reverse sfx.length
  | .head _ => false

/-- Whether the scan of the matchers is decided by the suffix, up to and
including the first matcher that matches it. -/
def stableUpTo : List Spec → List Char → Bool
  | [], _ => true
  | sp :: sps, sfx => sp.stable sfx && ((sp.apply sfx).isSome || stableUpTo sps sfx)

/-- Whether the call returned with a state whose list `pick` rewrites every
word ending in an input of `tests` by replacing that ending with the expected
word, evaluated along the paths. -/
def rewritesEnding (o : Outcome) (pick : State → List inflection)
    (tests : List (String × String)) : Bool :=
  match o with
  | .done s =>
      match specs (pick s) with
      | some sps =>
          tests.all fun e => stableUpTo sps e.1.data && specApply sps e.1.data == e.2.data
      | none => false
  | _ => false

/-! ## Patterns built from plain words -/

/-- The built-in irregular pairs as (singular, plural). -/
def irregularPairs : List (String × String) :=
  irregularInflections.map fun e => (e.singular, e.plural)

/-- Whether every character is an ASCII letter. -/
def lettersOnly (cs : List Char) : Bool := cs.all isLetter

/-- The parser state after a `(` that opens a capturing group. -/
def PState.openGroup (p : PState) : PState :=
  { stack := p.cur :: p.stack,
    cur := ⟨[], [], some (p.ncap + 1), p.fold, some false⟩,
    fold := p.fold, ncap := p.ncap + 1, mode := .normal }

/-- The parser state after a run of literal characters. -/
def PState.pushLits (p : PState) (cs : List Char) : PState :=
  { p with cur := { p.cur with
                    items := cs.reverse.map (fun c => Regexp.atom (.lit c p.fold)) ++ p.cur.items,
                    rep := if cs.isEmpty then p.cur.rep else some true } }

/-- A chain of literal characters. -/
def litAtoms (fold : Bool) (cs : List Char) : List Atom := cs.map fun c => Atom.lit c fold

/-- The expression of a word followed by `$`. -/
def wordRe (cs : List Char) : Regexp :=
  (cs.reverse.map fun c => Regexp.atom (.lit c false)).foldl (fun acc y => .cat y acc) .eol

/-- The expression of `^(?i)(word)$`. -/
def uncountableRe (cs : List Char) : Regexp :=
  .cat .bol (.cat (.group 1 (mkCat (cs.reverse.map fun c => Regexp.atom (.lit c true)))) .eol)

/-- The description of the matcher `word$` with replacement `dst`. -/
def wordSpec (src dst : List Char) : Spec :=
  ⟨.tail [⟨false, (litAtoms false src).reverse, []⟩], dst⟩

/-- The description of the matcher `^(?i)(word)$` with replacement `${1}`. -/
def uncountableSpec (cs : List Char) : Spec :=
  ⟨.tail [⟨true, (litAtoms true cs).reverse, [(1, 0, cs.length)]⟩], "${1}".data⟩

/-- Equality up to the simple case folding of `(?i)`. -/
def FoldEq (w cs : List Char) : Prop := List.Forall₂ (fun x c => foldKey x = foldKey c) w cs

/-- A matcher that leaves every word it matches as it is. -/
def inflection.Identity (m : inflection) : Prop :=
  ∀ w : String, m.regexp.MatchString w = true → m.regexp.ReplaceAllString w m.replace = w

/-- The three matchers `compile` builds for a pair of words of letters. -/
def wordMatchers (src dst : String) : List inflection :=
  [⟨wordRe (upperChars src.data), ToUpper dst⟩, ⟨wordRe (titleChars ' ' src.data), Title dst⟩,
   ⟨wordRe src.data, dst⟩]

/-- Whether every character is an ASCII lower-case letter. -/
def lowerOnly (cs : List Char) : Bool := cs.all isLower

/-! ## Upper-casing: matchers that agree letter by letter -/

/-- Two character tests give the same verdict on every pair of characters. -/
def Atom.agree (pairs : List (Char × Char)) (a b : Atom) : Bool :=
  pairs.all fun p => a.accepts p.1 == b.accepts p.2

/-- Two lists are related element by element. -/
def listAgree {α : Type} (r : α → α → Bool) : List α → List α → Bool
  | [], [] => true
  | a :: as, b :: bs => r a b && listAgree r as bs
  | _, _ => false

/-- Two end-anchored paths with the same anchors and groups whose tests
agree on the pairs. -/
def TPath.agree (pairs : List (Char × Char)) (s t : TPath) : Bool :=
  s.bol == t.bol && s.caps == t.caps && listAgree (Atom.agree pairs) s.atomsRev t.atomsRev

/-- Two begin-anchored paths with the same groups whose tests agree on the
pairs. -/
def HPath.agree (pairs : List (Char × Char)) (s t : HPath) : Bool :=
  s.caps == t.caps && listAgree (Atom.agree pairs) s.atoms t.atoms

/-- Two shapes whose paths agree one by one. -/
def Shape.agree (pairs : List (Char × Char)) : Shape → Shape → Bool
  | .tail a, .tail b => listAgree (TPath.agree pairs) a b
  | .head a, .head b => listAgree (HPath.agree pairs) a b
  | _, _ => false

/-- Two words related character by character through the pairs. -/
def Related (pairs : List (Char × Char)) (v w : List Char) : Prop :=
  List.Forall₂ (fun c d => (c, d) ∈ pairs) v w

/-- A character test that rejects every character of the alphabet. -/
def Atom.rejectsAll (alphabet : List Char) (a : Atom) : Bool :=
  alphabet.all fun c => !a.accepts c

/-- A shape none of whose paths can match a word over the alphabet. -/
def Shape.dead (alphabet : List Char) : Shape → Bool
  | .tail ts => ts.all fun t => t.atomsRev.any (Atom.rejectsAll alphabet)
  | .head hs => hs.all fun h => h.atoms.any (Atom.rejectsAll alphabet)

/-- The ASCII lower-case letters. -/
def lowerLetters : List Char := (List.range 26).map fun i => Char.ofNat (97 + i)

/-- The ASCII upper-case letters. -/
def upperLetters : List Char := lowerLetters.map upperChar

/-- Every character of the alphabet paired with itself. -/
def selfPairs (alphabet : List Char) : List (Char × Char) := alphabet.map fun c => (c, c)

/-- Every upper-case letter paired with its lower-case letter. -/
def upperPairs : List (Char × Char) := lowerLetters.map fun c => (upperChar c, c)

/-- The matchers that can be the first to match a word over the alphabet:
a matcher that is dead on the alphabet is dropped, and so is a matcher that
agrees on the alphabet with the matcher kept before it. -/
def prune (alphabet : List Char) : Option Spec → List Spec → List Spec
  | _, [] => []
  | prev, sp :: sps =>
      if sp.shape.dead alphabet then prune alphabet prev sps
      else
        match prev with
        | some p =>
            if sp.shape.agree (selfPairs alphabet) p.shape then prune alphabet prev sps
            else sp :: prune alphabet (some sp) sps
        | none => sp :: prune alphabet (some sp) sps

/-- Whether a matcher is the upper-case counterpart of another: the same
paths on corresponding letters, and the replacement upper-cased. -/
def Spec.upperOf (up lo : Spec) : Bool :=
  up.shape.agree upperPairs lo.shape && up.replace == upperChars lo.replace

/-- Whether the matchers that can fire on upper-case words are, one by one,
the upper-case counterparts of those that can fire on lower-case words. -/
def upperCheck (sps : List Spec) : Bool :=
  listAgree Spec.upperOf (prune upperLetters none sps) (prune lowerLetters none sps)

/-- Whether the call returned with a state whose list `pick` passes
`upperCheck`. -/
def commutesUpper (o : Outcome) (pick : State → List inflection) : Bool :=
  match o with
  | .done s =>
      match specs (pick s) with
      | some sps => upperCheck sps
      | none => false
  | _ => false

/-! ## Title-casing: paths that reach the first letter -/

/-- Whether an end-anchored path cannot tell the first letter `c` of a word
from `d`: it does not span the whole word, or it rejects the word with
either first letter (`vr` is the rest of the word, reversed). -/
def TPath.blind (t : TPath) (c d : Char) (vr : List Char) : Bool :=
  t.atomsRev.length != vr.length + 1 ||
    (!acceptsAll t.atomsRev (vr ++ [c]) && !acceptsAll t.atomsRev (vr ++ [d]))

/-- Whether a begin-anchored path rejects the word with either first
letter. -/
def HPath.blind (h : HPath) (c d : Char) (v : List Char) : Bool :=
  !acceptsAll h.atoms (c :: v) && !acceptsAll h.atoms (d :: v)

/-- Whether no path of the shape can tell the first letter `c` of the word
`c :: v` from `d`. -/
def Shape.blind : Shape → Char → Char → List Char → Bool
  | .tail ts, c, d, v => ts.all fun t => t.blind c d v.reverse
  | .head hs, c, d, v => hs.all fun h => h.blind c d v

/-- Whether the literal text of the replacement consists of letters. -/
def Spec.lettersOut (sp : Spec) : Bool :=
  lettersOnly (expand [] [] (sp.replace.length + 1) sp.replace)

/-- The lower-case words a chain of tests accepts, one letter for each
test. -/
def enumAll : List Atom → List (List Char)
  | [] => [[]]
  | a :: as => (lowerLetters.filter a.accepts).flatMap fun x => (enumAll as).map fun v => x :: v

/-- The lower-case words that a chain of tests accepts as they are or with
the first letter in upper case. -/
def enumWord : List Atom → List (List Char)
  | [] => []
  | a :: as =>
      (lowerLetters.filter fun c => a.accepts c || a.accepts (upperChar c)).flatMap fun c =>
        (enumAll as).map fun v => c :: v

/-- The lower-case words an end-anchored path of the shape can span, as they
are or with the first letter in upper case. -/
def Shape.tailSpanned : Shape → List (List Char)
  | .tail ts => ts.flatMap fun t => enumWord t.atomsRev.reverse
  | .head _ => []

/-- The lower-case beginnings of words a begin-anchored path of the shape can
span, as they are or with the first letter in upper case. -/
def Shape.headSpanned : Shape → List (List Char)
  | .tail _ => []
  | .head hs => hs.flatMap fun h => enumWord h.atoms

/-- Whether every begin-anchored path has a first test. -/
def Shape.proper : Shape → Bool
  | .tail _ => true
  | .head hs => hs.all fun h => h.atoms != []

/-- The part of `Shape.blind` about end-anchored paths. -/
def Shape.tailBlind : Shape → Char → Char → List Char → Bool
  | .tail ts, c, d, v => ts.all fun t => t.blind c d v.reverse
  | .head _, _, _, _ => true

/-- Whether a begin-anchored path and its groups lie within the first `n`
characters. -/
def HPath.within (h : HPath) (n : Nat) : Bool :=
  decide (h.atoms.length ≤ n) && h.caps.all fun e => decide (e.2.2 ≤ n)

/-- Scan of the matchers on a word that begins with `c :: p` and on the same
word with the first letter in upper case, as far as the begin-anchored
matchers decide it: `pend` holds the rest of the rewritten beginning once a
matcher has rewritten the lower-case word while the other word is still
unmatched.  The scan succeeds when both words are rewritten alike up to the
case of the first letter. -/
def headWalk (c : Char) (p : List Char) : Option (List Char) → List Spec → Bool
  | pend, [] => pend.isNone
  | pend, sp :: sps =>
      match sp.shape with
      | .tail _ => pend.isNone && headWalk c p none sps
      | .head hs =>
          hs.all (fun h => h.within (p.length + 1)) &&
          match pend with
          | some r =>
              match sp.apply (upperChar c :: p) with
              | some r2 => r2 == upperChar c :: r
              | none => headWalk c p (some r) sps
          | none =>
              match sp.apply (c :: p), sp.apply (upperChar c :: p) with
              | none, none => headWalk c p none sps
              | some (x :: r), some r2 => x == c && r2 == upperChar c :: r
              | some (x :: r), none => x == c && headWalk c p (some r) sps
              | _, _ => false

/-- Whether rewriting commutes with `Title` on a word. -/
def titleHolds (sps : List Spec) (w : List Char) : Bool :=
  specApply sps (titleChars ' ' w) == titleChars ' ' (specApply sps w)

/-- Whether rewriting commutes with `Title` on every non-empty lower-case
word outside `excl`: the replacements are made of letters, every word that
an end-anchored path can span is checked, and so is every beginning that a
begin-anchored path can span. -/
def titleCheck (sps : List Spec) (excl : List String) : Bool :=
  sps.all Spec.lettersOut && sps.all (fun sp => sp.shape.proper) &&
  (sps.flatMap fun sp => sp.shape.tailSpanned).dedup.all
    (fun w => excl.contains (String.mk w) || titleHolds sps w) &&
  (sps.flatMap fun sp => sp.shape.headSpanned).all fun w =>
    match w with
    | c :: p => headWalk c p none sps
    | [] => false

/-- Whether the call returned with a state whose list `pick` commutes with
`Title` on the non-empty lower-case words outside `excl`, and on none of the
words of `excl`. -/
def commutesTitle (o : Outcome) (pick : State → List inflection) (excl : List String) : Bool :=
  match o with
  | .done s =>
      match specs (pick s) with
      | some sps => titleCheck sps excl && excl.all fun w => !titleHolds sps w.data
      | none => false
  | _ => false

/-- The non-empty lower-case words on which `Plural` does not commute with
`Title`: every single letter but "s", and eight longer words. -/
def pluralTitleExceptions : List String :=
  ["a", "b", "c", "d", "e", "f", "g", "h", "i", "j", "k", "l", "m", "n", "o", "p", "q", "r",
   "t", "u", "v", "w", "x", "y", "z", "ay", "ey", "iy", "oy", "uy", "yy", "ffe", "sis"]

/-- The non-empty lower-case words on which `Singular` does not commute with
`Title`. -/
def singularTitleExceptions : List String :=
  ["aies", "eies", "iies", "oies", "uies", "yies", "fves"]

/-- The test of the upper-cased pattern: the characters of a literal or of a
class, upper-cased. -/
def Atom.upper : Atom → Atom
  | .lit c fold => .lit (upperChar c) fold
  | .cls neg rs fold => .cls neg (rs.map fun r => (upperChar r.1, upperChar r.2)) fold
  | .dot => .dot

/-- The test under `(?i)`. -/
def Atom.folded : Atom → Atom
  | .lit c _ => .lit c true
  | .cls neg rs _ => .cls neg rs true
  | .dot => .dot

/-- A shape with every test replaced. -/
def Shape.mapAtoms (f : Atom → Atom) : Shape → Shape
  | .tail ts => .tail (ts.map fun t => ⟨t.bol, t.atomsRev.map f, t.caps⟩)
  | .head hs => .head (hs.map fun h => ⟨h.atoms.map f, h.caps⟩)

/-- The descriptions of the three matchers `compile` builds for a regular
rule, from the description of the plain one: the upper-cased pattern with the
upper-cased replacement, the plain pattern, and the pattern under `(?i)`. -/
def ruleSpecs (p : Spec) : List Spec :=
  [⟨p.shape.mapAtoms Atom.upper, upperChars p.replace⟩, p,
   ⟨p.shape.mapAtoms Atom.folded, p.replace⟩]

/-- The descriptions of the three matchers `compile` builds for an irregular
pair. -/
def wordSpecs (src dst : String) : List Spec :=
  [wordSpec (upperChars src.data) (ToUpper dst).data,
   wordSpec (titleChars ' ' src.data) (Title dst).data, wordSpec src.data dst.data]

/-- The descriptions of a compiled list: the uncountable words, the irregular
pairs as (matched, replacement), and the plain matchers of the regular rules
in compiled order. -/
def describe (unc : List String) (pairs : List (String × String)) (rules : List Spec) :
    List Spec :=
  unc.map (fun u => uncountableSpec u.data) ++ pairs.flatMap (fun e => wordSpecs e.1 e.2) ++
    rules.flatMap ruleSpecs

/-- The descriptions of the plain matchers of the built-in plural rules, in the
order `compile` reaches them (the table backwards); the tests of a path run from the
end of the word backwards. -/
def pluralRuleSpecs : List Spec := [
  ⟨.tail [⟨false, litAtoms false "ziuq".data, [(1, 0, 4)]⟩], "${1}zes".data⟩,
  ⟨.tail [⟨true, litAtoms false "nexo".data, [(1, 0, 4)]⟩], "${1}".data⟩,
  ⟨.tail [⟨true, litAtoms false "xo".data, [(1, 0, 2)]⟩], "${1}en".data⟩,
  ⟨.tail [⟨true, litAtoms false "ecim".data, [(1, 0, 1)]⟩,
      ⟨true, litAtoms false "ecil".data, [(1, 0, 1)]⟩], "${1}ice".data⟩,
  ⟨.tail [⟨true, litAtoms false "esuom".data, [(1, 0, 1)]⟩,
      ⟨true, litAtoms false "esuol".data, [(1, 0, 1)]⟩], "${1}ice".data⟩,
  ⟨.tail [⟨false, litAtoms false "xirtam".data, [(1, 0, 4)]⟩,
      ⟨false, litAtoms false "xertam".data, [(1, 0, 4)]⟩,
      ⟨false, litAtoms false "xitrev".data, [(1, 0, 4)]⟩,
      ⟨false, litAtoms false "xetrev".data, [(1, 0, 4)]⟩,
      ⟨false, litAtoms false "xidni".data, [(1, 0, 3)]⟩,
      ⟨false, litAtoms false "xedni".data, [(1, 0, 3)]⟩], "${1}ices".data⟩,
  ⟨.tail [⟨false, litAtoms false "x".data, [(1, 0, 1)]⟩,
      ⟨false, litAtoms false "hc".data, [(1, 0, 2)]⟩,
      ⟨false, litAtoms false "ss".data, [(1, 0, 2)]⟩,
      ⟨false, litAtoms false "hs".data, [(1, 0, 2)]⟩], "${1}es".data⟩,
  ⟨.tail [⟨false, litAtoms false "y".data ++
      [.cls true [('a', 'a'), ('e', 'e'), ('i', 'i'), ('o', 'o'), ('u', 'u'), ('y', 'y')] false],
          [(1, 0, 1)]⟩,
      ⟨false, litAtoms false "yuq".data, [(1, 0, 2)]⟩], "${1}ies".data⟩,
  ⟨.tail [⟨false, litAtoms false "evih".data, [(1, 0, 4)]⟩], "${1}s".data⟩,
  ⟨.tail [⟨false, litAtoms false "ef".data ++ [.cls true [('f', 'f')] false], [(1, 0, 1)]⟩,
      ⟨false, litAtoms false "f".data ++
          [.cls false [('l', 'l'), ('r', 'r')] false], [(2, 0, 1)]⟩], "${1}${2}ves".data⟩,
  ⟨.tail [⟨false, litAtoms false "sis".data, []⟩], "ses".data⟩,
  ⟨.tail [⟨false, litAtoms false "a".data ++
      [.cls false [('t', 't'), ('i', 'i')] false], [(1, 0, 1)]⟩], "${1}a".data⟩,
  ⟨.tail [⟨false, litAtoms false "mu".data ++
      [.cls false [('t', 't'), ('i', 'i')] false], [(1, 0, 1)]⟩], "${1}a".data⟩,
  ⟨.tail [⟨false, litAtoms false "olaffub".data, [(1, 0, 6)]⟩,
      ⟨false, litAtoms false "otamot".data, [(1, 0, 5)]⟩], "${1}oes".data⟩,
  ⟨.tail [⟨false, litAtoms false "sub".data, [(1, 0, 2)]⟩], "${1}ses".data⟩,
  ⟨.tail [⟨false, litAtoms false "saila".data, [(1, 0, 5)]⟩,
      ⟨false, litAtoms false "sutats".data, [(1, 0, 6)]⟩], "${1}es".data⟩,
  ⟨.tail [⟨false, litAtoms false "ipotco".data, [(1, 0, 5)]⟩,
      ⟨false, litAtoms false "iriv".data, [(1, 0, 3)]⟩], "${1}i".data⟩,
  ⟨.tail [⟨false, litAtoms false "supotco".data, [(1, 0, 5)]⟩,
      ⟨false, litAtoms false "suriv".data, [(1, 0, 3)]⟩], "${1}i".data⟩,
  ⟨.tail [⟨true, litAtoms false "sixa".data, [(1, 0, 2)]⟩,
      ⟨true, litAtoms false "sitset".data, [(1, 0, 4)]⟩], "${1}es".data⟩,
  ⟨.tail [⟨false, litAtoms false "s".data, []⟩], "s".data⟩,
  ⟨.tail [⟨false, [.cls false [('a', 'z')] false], [(1, 0, 1)]⟩], "${1}s".data⟩]

/-- The descriptions of the plain matchers of the built-in singular rules, in the
order `compile` reaches them (the table backwards). -/
def singularRuleSpecs : List Spec := [
  ⟨.tail [⟨false, litAtoms false "sesabatad".data, [(1, 0, 8)]⟩], "${1}".data⟩,
  ⟨.tail [⟨false, litAtoms false "sezziuq".data, [(1, 0, 4)]⟩], "${1}".data⟩,
  ⟨.tail [⟨false, litAtoms false "secirtam".data, [(1, 0, 4)]⟩], "${1}ix".data⟩,
  ⟨.tail [⟨false, litAtoms false "secitrev".data, [(1, 0, 4)]⟩,
      ⟨false, litAtoms false "secidni".data, [(1, 0, 3)]⟩], "${1}ex".data⟩,
  ⟨.head [⟨litAtoms false "oxen".data, [(1, 0, 2)]⟩], "${1}".data⟩,
  ⟨.tail [⟨false, litAtoms false "sesaila".data, [(2, 5, 7), (1, 0, 5)]⟩,
      ⟨false, litAtoms false "saila".data, [(1, 0, 5)]⟩,
      ⟨false, litAtoms false "sesutats".data, [(2, 6, 8), (1, 0, 6)]⟩,
      ⟨false, litAtoms false "sutats".data, [(1, 0, 6)]⟩], "${1}".data⟩,
  ⟨.tail [⟨false, litAtoms false "supotco".data, [(2, 5, 7), (1, 0, 5)]⟩,
      ⟨false, litAtoms false "ipotco".data, [(2, 5, 6), (1, 0, 5)]⟩,
      ⟨false, litAtoms false "suriv".data, [(2, 3, 5), (1, 0, 3)]⟩,
      ⟨false, litAtoms false "iriv".data, [(2, 3, 4), (1, 0, 3)]⟩], "${1}us".data⟩,
  ⟨.tail [⟨true, litAtoms false "s".data ++ [.cls false [('i', 'i'), ('e', 'e')] false] ++
      litAtoms false "xa".data, [(1, 0, 1)]⟩], "${1}xis".data⟩,
  ⟨.tail [⟨false, litAtoms false "sisirc".data, [(2, 4, 6), (1, 0, 4)]⟩,
      ⟨false, litAtoms false "sesirc".data, [(2, 4, 6), (1, 0, 4)]⟩,
      ⟨false, litAtoms false "sitset".data, [(2, 4, 6), (1, 0, 4)]⟩,
      ⟨false, litAtoms false "setset".data, [(2, 4, 6), (1, 0, 4)]⟩], "${1}is".data⟩,
  ⟨.tail [⟨false, litAtoms false "seohs".data, [(1, 0, 4)]⟩], "${1}".data⟩,
  ⟨.tail [⟨false, litAtoms false "seo".data, [(1, 0, 1)]⟩], "${1}".data⟩,
  ⟨.tail [⟨false, litAtoms false "sesub".data, [(2, 3, 5), (1, 0, 3)]⟩,
      ⟨false, litAtoms false "sub".data, [(1, 0, 3)]⟩], "${1}".data⟩,
  ⟨.tail [⟨true, litAtoms false "ecim".data, [(1, 0, 1)]⟩,
      ⟨true, litAtoms false "ecil".data, [(1, 0, 1)]⟩], "${1}ouse".data⟩,
  ⟨.tail [⟨false, litAtoms false "sex".data, [(1, 0, 1)]⟩,
      ⟨false, litAtoms false "sehc".data, [(1, 0, 2)]⟩,
      ⟨false, litAtoms false "sess".data, [(1, 0, 2)]⟩,
      ⟨false, litAtoms false "sehs".data, [(1, 0, 2)]⟩], "${1}".data⟩,
  ⟨.tail [⟨false, litAtoms false "seikooc".data, [(1, 0, 1)]⟩], "${1}ookie".data⟩,
  ⟨.tail [⟨false, litAtoms false "seivom".data, [(1, 0, 1)]⟩], "${1}ovie".data⟩,
  ⟨.tail [⟨false, litAtoms false "seires".data, [(1, 0, 1)]⟩], "${1}eries".data⟩,
  ⟨.tail [⟨false, litAtoms false "sei".data ++
      [.cls true [('a', 'a'), ('e', 'e'), ('i', 'i'), ('o', 'o'), ('u', 'u'), ('y', 'y')] false],
          [(1, 0, 1)]⟩,
      ⟨false, litAtoms false "seiuq".data, [(1, 0, 2)]⟩], "${1}y".data⟩,
  ⟨.tail [⟨false, litAtoms false "sev".data ++
      [.cls false [('l', 'l'), ('r', 'r')] false], [(1, 0, 1)]⟩], "${1}f".data⟩,
  ⟨.tail [⟨false, litAtoms false "sevit".data, [(1, 0, 4)]⟩], "${1}".data⟩,
  ⟨.tail [⟨false, litAtoms false "sevih".data, [(1, 0, 4)]⟩], "${1}".data⟩,
  ⟨.tail [⟨false, litAtoms false "sev".data ++
      [.cls true [('f', 'f')] false], [(1, 0, 1)]⟩], "${1}fe".data⟩,
  ⟨.tail [⟨true, litAtoms false "sisylana".data, [(2, 5, 8), (1, 0, 5)]⟩,
      ⟨true, litAtoms false "sesylana".data, [(2, 5, 8), (1, 0, 5)]⟩], "${1}sis".data⟩,
  ⟨.tail [⟨false, litAtoms false "sisylana".data, [(9, 5, 8), (1, 0, 5), (2, 0, 1)]⟩,
      ⟨false, litAtoms false "sesylana".data, [(9, 5, 8), (1, 0, 5), (2, 0, 1)]⟩,
      ⟨false, litAtoms false "sisab".data, [(9, 2, 5), (1, 0, 2), (3, 0, 1)]⟩,
      ⟨false, litAtoms false "sesab".data, [(9, 2, 5), (1, 0, 2), (3, 0, 1)]⟩,
      ⟨false, litAtoms false "sisongaid".data, [(9, 6, 9), (1, 0, 6), (4, 0, 1)]⟩,
      ⟨false, litAtoms false "sesongaid".data, [(9, 6, 9), (1, 0, 6), (4, 0, 1)]⟩,
      ⟨false, litAtoms false "sisehtnerap".data, [(9, 8, 11), (1, 0, 8), (5, 0, 1)]⟩,
      ⟨false, litAtoms false "sesehtnerap".data, [(9, 8, 11), (1, 0, 8), (5, 0, 1)]⟩,
      ⟨false, litAtoms false "sisongorp".data, [(9, 6, 9), (1, 0, 6), (6, 0, 1)]⟩,
      ⟨false, litAtoms false "sesongorp".data, [(9, 6, 9), (1, 0, 6), (6, 0, 1)]⟩,
      ⟨false, litAtoms false "sisponys".data, [(9, 5, 8), (1, 0, 5), (7, 0, 1)]⟩,
      ⟨false, litAtoms false "sesponys".data, [(9, 5, 8), (1, 0, 5), (7, 0, 1)]⟩,
      ⟨false, litAtoms false "siseht".data, [(9, 3, 6), (1, 0, 3), (8, 0, 1)]⟩,
      ⟨false, litAtoms false "seseht".data, [(9, 3, 6), (1, 0, 3), (8, 0, 1)]⟩], "${1}sis".data⟩,
  ⟨.tail [⟨false, litAtoms false "a".data ++
      [.cls false [('t', 't'), ('i', 'i')] false], [(1, 0, 1)]⟩], "${1}um".data⟩,
  ⟨.tail [⟨false, litAtoms false "swen".data, [(1, 0, 1)]⟩], "${1}ews".data⟩,
  ⟨.tail [⟨false, litAtoms false "ss".data, [(1, 0, 2)]⟩], "${1}".data⟩,
  ⟨.tail [⟨false, litAtoms false "s".data, []⟩], "".data⟩]

/-- The descriptions of the compiled plural list of the initial state. -/
def pluralSpecs : List Spec := describe uncountableInflections irregularPairs pluralRuleSpecs

/-- The descriptions of the compiled singular list of the initial state. -/
def singularSpecs : List Spec :=
  describe uncountableInflections (swapped irregularPairs) singularRuleSpecs

/-- The descriptions of the compiled plural list of the test state. -/
def testPluralSpecs : List Spec :=
  describe uncountableInflections (irregularPairs ++ [("criterion", "criteria")]) pluralRuleSpecs

/-- The descriptions of the compiled singular list of the test state. -/
def testSingularSpecs : List Spec :=
  describe uncountableInflections (swapped (irregularPairs ++ [("criterion", "criteria")]))
    singularRuleSpecs

/-- Whether a list of matchers rewrites the first word to the second. -/
def rewrites (sps : List Spec) (e : String × String) : Bool :=
  specApply sps e.1.data == e.2.data

/-- Whether every item of the `i`-th run of `k` items of the list passes. -/
def allChunk {α : Type} (p : α → Bool) (l : List α) (k i : Nat) : Bool :=
  ((l.drop (k * i)).take k).all p

/-- Whether the ending `e.1` decides the scan of the matchers and is
rewritten to `e.2`. -/
def rewritesEnd (sps : List Spec) (e : String × String) : Bool :=
  stableUpTo sps e.1.data && specApply sps e.1.data == e.2.data

/-- The word rewritten by the first matcher that matches, if any does. -/
def specFirst : List Spec → List Char → Option (List Char)
  | [], _ => none
  | sp :: sps, w =>
      match sp.apply w with
      | some r => some r
      | none => specFirst sps w

/-- A list of matchers that rewrites the upper-case form of a lower-case
word to the upper-case form of the rewritten word, and matches the one when
it matches the other. -/
def UpperCommutes (l : List Spec) : Prop :=
  ∀ w, lowerOnly w = true → specFirst l (upperChars w) = (specFirst l w).map upperChars

/-- Whether rewriting commutes with `Title` on every word outside `excl`
that an end-anchored path of the matchers `b` can span. -/
def titleTail (sps : List Spec) (excl : List String) (b : List Spec) : Bool :=
  (b.flatMap fun sp => sp.shape.tailSpanned).dedup.all
    fun w => excl.contains (String.mk w) || titleHolds sps w

/-- Whether `headWalk` succeeds on every beginning that a begin-anchored path
of the matchers can span. -/
def titleHead (sps : List Spec) : Bool :=
  (sps.flatMap fun sp => sp.shape.headSpanned).all fun w =>
    match w with
    | c :: p => headWalk c p none sps
    | [] => false

/-- Whether the regular rules compile and their matchers, in the order
`compile` builds them, have the descriptions `ruleSpecs` of the plain
descriptions. -/
def regularCheck (rules : List Regular) (plain : List Spec) : Bool :=
  match collect regularMatchers rules.reverse with
  | .ok ms => specs ms == some (plain.flatMap ruleSpecs)
  | .error _ => false

/-- Whether a word is non-empty and made of ASCII letters. -/
def plainWord (v : String) : Bool := lettersOnly v.data && !v.data.isEmpty

/-! ## Scanning only the matchers that accept the last character -/

/-- Whether an end-anchored path of the shape accepts `x` as the last
character of a word; a begin-anchored shape does not look at it. -/
def Shape.mayEnd (x : Char) : Shape → Bool
  | .tail ts => ts.any fun t =>
      match t.atomsRev with
      | a :: _ => a.accepts x
      | [] => true
  | .head _ => true

/-- The matchers that can match a word whose last character is `x`. -/
def lastFilter (sps : List Spec) (x : Char) : List Spec := sps.filter fun sp => sp.shape.mayEnd x

/-- The word rewritten by the first matcher that matches, looked for among
the matchers that can match a word with this last character. -/
def quickApply (sps : List Spec) (w : List Char) : List Char :=
  match w.reverse with
  | [] => specApply sps w
  | x :: _ => specApply (lastFilter sps x) w

/-- The check `rewrites`, by `quickApply`. -/
def rewritesQuick (sps : List Spec) (e : String × String) : Bool :=
  quickApply sps e.1.data == e.2.data

/-- The check `titleHolds`, by `quickApply`. -/
def titleHoldsQuick (sps : List Spec) (w : List Char) : Bool :=
  quickApply sps (titleChars ' ' w) == titleChars ' ' (quickApply sps w)

/-- Whether rewriting commutes with `Title` on every word outside `excl`
that an end-anchored path of the matchers `b` can span, by `quickApply`. -/
def titleTailQuick (sps : List Spec) (excl : List String) (b : List Spec) : Bool :=
  (b.flatMap fun sp => sp.shape.tailSpanned).all
    fun w => excl.contains (String.mk w) || titleHoldsQuick sps w

/-! ## The compiled lists as written patterns; valid tables -/

/-- The pattern and replacement that `compile` writes for an uncountable
word. -/
def writtenUncountable (u : String) : List (String × String) :=
  [("^(?i)(" ++ u ++ ")$", "${1}")]

/-- The three patterns and replacements of a word pair: upper-cased,
title-cased and as written, each anchored at the end. -/
def writtenWord (src dst : String) : List (String × String) :=
  [(ToUpper src ++ "$", ToUpper dst), (Title src ++ "$", Title dst), (src ++ "$", dst)]

/-- The three patterns and replacements of a regular rule: upper-cased, as
written and case-insensitive. -/
def writtenRule (v : Regular) : List (String × String) :=
  [(ToUpper v.find, ToUpper v.replace), (v.find, v.replace), ("(?i)" ++ v.find, v.replace)]

/-- The plural list as described: the uncountable words in table order, the
irregular pairs in table order, the plural rules in reverse table order. -/
def writtenPlural (s : State) : List (String × String) :=
  s.uncountableInflections.flatMap writtenUncountable ++
    s.irregularInflections.flatMap (fun v => writtenWord v.singular v.plural) ++
    s.pluralInflections.reverse.flatMap writtenRule

/-- The singular list as described: the uncountable words, the irregular
pairs from plural to singular, the singular rules in reverse table order. -/
def writtenSingular (s : State) : List (String × String) :=
  s.uncountableInflections.flatMap writtenUncountable ++
    s.irregularInflections.flatMap (fun v => writtenWord v.plural v.singular) ++
    s.singularInflections.reverse.flatMap writtenRule

/-- The matcher is the compiled form of a pattern and carries its
replacement. -/
def Compiled (m : inflection) (e : String × String) : Prop :=
  Regexp.parse e.1 = .ok m.regexp ∧ m.replace = e.2

/-- Whether a step of `compile` built its matchers. -/
def isOk {α : Type} : Except ParseError α → Bool
  | .ok _ => true
  | .error _ => false

/-- Whether every pattern that `compile` builds from the four tables
compiles. -/
def State.valid (s : State) : Bool :=
  s.uncountableInflections.all (fun u => isOk (uncountableMatchers u)) &&
  s.irregularInflections.all (fun v => isOk (irregularMatchers v.singular v.plural)) &&
  s.irregularInflections.all (fun v => isOk (irregularMatchers v.plural v.singular)) &&
  s.pluralInflections.all (fun v => isOk (regularMatchers v)) &&
  s.singularInflections.all (fun v => isOk (regularMatchers v))

/-- The compiled lists are those that `compile` builds from the four tables
alone. -/
def State.current (s : State) : Prop :=
  compile ⟨s.pluralInflections, s.singularInflections, s.irregularInflections,
    s.uncountableInflections, [], []⟩ = .done s

/-! ## Matchers that need a final letter -/

/-- Whether a character test accepts only ASCII letters and the characters
that case folding equates with one. -/
def Atom.letterOnly : Atom → Bool
  | .lit c _ => isLetter (foldKey c)
  | .cls false rs _ => rs.all fun r => (isLower r.1 && isLower r.2) || (isUpper r.1 && isUpper r.2)
  | _ => false

/-- Whether every path of the shape ends with `$` and tests the last
character of the word for a letter. -/
def Shape.endsInLetter : Shape → Bool
  | .tail ts => ts.all fun t =>
      match t.atomsRev with
      | a :: _ => a.letterOnly
      | [] => false
  | .head _ => false

/-- Whether the tests are literal characters that spell the word `p`, in
some letter case. -/
def spellsAtoms : List Atom → List Char → Bool
  | [], [] => true
  | .lit d _ :: as, c :: cs => foldKey d == c && spellsAtoms as cs
  | _, _ => false

/-- Whether the shape is anchored at the beginning only and every path
spells the word `p`, in some letter case. -/
def Shape.spells (p : List Char) : Shape → Bool
  | .head hs => hs.all fun h => spellsAtoms h.atoms p
  | .tail _ => false

/-! ## Slices of rules and their backing arrays -/

/-- A Go slice of rules: the number of its backing array, the offset of its
first element in that array, its length and its capacity. -/
structure Slice where
  arr : Nat
  off : Nat
  len : Nat
  cap : Nat
  deriving DecidableEq, Repr

/-- The backing arrays of the slices of rules, by number. -/
abbrev Heap := List (List Regular)

/-- The elements of a slice. -/
def readSlice (h : Heap) (s : Slice) : RegularSlice := ((h.getD s.arr []).drop s.off).take s.len

/-- Go `s[lo:hi]`: the same backing array, seen from `lo`. -/
def Slice.slice (s : Slice) (lo hi : Nat) : Slice := ⟨s.arr, s.off + lo, hi - lo, s.cap - lo⟩

/-- Go `append(s, v)`.  With spare capacity the element is written into the
backing array, in the slot after the last element; otherwise a new array is
allocated for the elements, `v` and spare slots.  The language leaves the new
capacity to the implementation: it is `grow` of the old one, and at least
`len + 1`. -/
def appendSlice (grow : Nat → Nat) (h : Heap) (s : Slice) (v : Regular) : Heap × Slice :=
  if s.len < s.cap then
    (h.set s.arr ((h.getD s.arr []).set (s.off + s.len) v), { s with len := s.len + 1 })
  else
    (h ++ [readSlice h s ++ v :: make ⟨"", ""⟩ (max (s.len + 1) (grow s.cap) - (s.len + 1))],
      ⟨h.length, 0, s.len + 1, max (s.len + 1) (grow s.cap)⟩)

/-- The package-level variables with the two tables of rules as slices of
backing arrays, which the caller and the other table may share. -/
structure Mem where
  heap : Heap
  plural : Slice
  singular : Slice
  irregularInflections : IrregularSlice
  uncountableInflections : List String
  compiledPluralMaps : List inflection
  compiledSingularMaps : List inflection
  deriving DecidableEq, Repr

/-- The package-level variables by their contents. -/
def Mem.state (m : Mem) : State :=
  ⟨readSlice m.heap m.plural, readSlice m.heap m.singular, m.irregularInflections,
    m.uncountableInflections, m.compiledPluralMaps, m.compiledSingularMaps⟩

/-- How a call that compiles ends, with the backing arrays. -/
inductive MemOutcome where
  /-- the call returned -/
  | done (m : Mem)
  /-- `regexp.MustCompile` panicked -/
  | panic (m : Mem)
  /-- a table entry lies outside the modelled fragment -/
  | unmodelled
  deriving DecidableEq, Repr

/-- Store the compiled lists of `t`. -/
def Mem.put (m : Mem) (t : State) : Mem :=
  { m with compiledPluralMaps := t.compiledPluralMaps,
           compiledSingularMaps := t.compiledSingularMaps }

/-- Go `compile` on the variables with their backing arrays: it reads the
elements of the tables and assigns the two compiled lists. -/
def Mem.compile (m : Mem) : MemOutcome :=
  match Inflection.compile m.state with
  | .done t => .done (m.put t)
  | .panic t => .panic (m.put t)
  | .unmodelled => .unmodelled

/-- The variables as the package declares them: each table of rules a
composite literal, of full capacity. -/
def Mem.builtin : Mem :=
  ⟨[pluralInflections, singularInflections],
    ⟨0, 0, pluralInflections.length, pluralInflections.length⟩,
    ⟨1, 0, singularInflections.length, singularInflections.length⟩,
    Inflection.irregularInflections, Inflection.uncountableInflections, [], []⟩

/-- Go `init` with the backing arrays. -/
def Mem.init : MemOutcome := Mem.compile Mem.builtin

/-- Go `AddPlural` with the backing arrays: `append` to the slice, then
`compile`. -/
def Mem.AddPlural (grow : Nat → Nat) (m : Mem) (find replace : String) : MemOutcome :=
  Mem.compile { m with heap := (appendSlice grow m.heap m.plural ⟨find, replace⟩).1,
                       plural := (appendSlice grow m.heap m.plural ⟨find, replace⟩).2 }

/-- Go `AddSingular` with the backing arrays. -/
def Mem.AddSingular (grow : Nat → Nat) (m : Mem) (find replace : String) : MemOutcome :=
  Mem.compile { m with heap := (appendSlice grow m.heap m.singular ⟨find, replace⟩).1,
                       singular := (appendSlice grow m.heap m.singular ⟨find, replace⟩).2 }

/-- Go `GetPlural` with the backing arrays: the slice returned has an array
of its own. -/
def Mem.GetPlural (m : Mem) : Slice × Mem :=
  (⟨m.heap.length, 0, m.plural.len, m.plural.len⟩,
    { m with heap := m.heap ++ [copy (make ⟨"", ""⟩ m.plural.len) (readSlice m.heap m.plural)] })

/-- Go `GetSingular` with the backing arrays: the slice returned has an
array of its own. -/
def Mem.GetSingular (m : Mem) : Slice × Mem :=
  (⟨m.heap.length, 0, m.singular.len, m.singular.len⟩,
    { m with heap := m.heap ++
        [copy (make ⟨"", ""⟩ m.singular.len) (readSlice m.heap m.singular)] })

/-- Go `SetPlural` with the backing arrays: the slice of the caller is
stored as it is. -/
def Mem.SetPlural (m : Mem) (inflections : Slice) : MemOutcome :=
  Mem.compile { m with plural := inflections }

/-- Go `SetSingular` with the backing arrays: the slice of the caller is
stored as it is. -/
def Mem.SetSingular (m : Mem) (inflections : Slice) : MemOutcome :=
  Mem.compile { m with singular := inflections }

/-- Go `Plural` on the variables with their backing arrays. -/
def Mem.Plural (m : Mem) (str : String) : String := Inflection.Plural m.state str

/-- Go `Singular` on the variables with their backing arrays. -/
def Mem.Singular (m : Mem) (str : String) : String := Inflection.Singular m.state str

/-- Whether a slice lies within its backing array. -/
def Slice.fits (h : Heap) (s : Slice) : Bool :=
  s.len ≤ s.cap && s.off + s.cap ≤ (h.getD s.arr []).length

/-- Whether the slot that `append` to `a` writes in place is none of the
elements of `b`: `a` has no spare capacity, or the two have different
backing arrays, or the slot after the last element of `a` lies outside
`b`. -/
def Slice.clear (a b : Slice) : Bool :=
  !(a.len < a.cap && a.arr == b.arr && b.off ≤ a.off + a.len && a.off + a.len < b.off + b.len)

/-- The rule `("s$", "")`, described along its paths. -/
def sRuleSpec : Spec := ⟨.tail [⟨false, [.lit 's' false], []⟩], []⟩

/-- The rule `("x$", "y")`, described along its paths. -/
def xRuleSpec : Spec := ⟨.tail [⟨false, [.lit 'x' false], []⟩], ['y']⟩

/-- The rule `("(ss)$", "${1}")`, described along its paths. -/
def ssRuleSpec : Spec :=
  ⟨.tail [⟨false, [.lit 's' false, .lit 's' false], [(1, 0, 2)]⟩], ['$', '{', '1', '}']⟩

/-- The rule `("(bu)s$", "${1}ses")`, described along its paths. -/
def buRuleSpec : Spec :=
  ⟨.tail [⟨false, [.lit 's' false, .lit 'u' false, .lit 'b' false], [(1, 0, 2)]⟩],
    ['$', '{', '1', '}', 's', 'e', 's']⟩

/-! # Theorems -/

/-! ## Outcomes, `collect` and `compile` -/

theorem Outcome.eq_done_of_isDone {o : Outcome} (h : o.isDone = true) : o = .done o.state := by
  cases o <;> simp_all [Outcome.isDone, Outcome.state]

theorem Outcome.holds_iff {o : Outcome} {p : State → Prop} :
    o.Holds p ↔ ∃ s, o = .done s ∧ p s := by
  cases o <;> simp [Outcome.Holds]

theorem Outcome.andThen_eq_done {o : Outcome} {f : State → Outcome} {t : State} :
    o.andThen f = .done t ↔ ∃ s, o = .done s ∧ f s = .done t := by
  cases o <;> simp [Outcome.andThen]

theorem collect_append {α : Type} (mk : α → Except ParseError (List inflection))
    (xs ys : List α) (a b : List inflection)
    (ha : collect mk xs = .ok a) (hb : collect mk ys = .ok b) :
    collect mk (xs ++ ys) = .ok (a ++ b) := by
  induction xs generalizing a with
  | nil => simp [collect] at ha; subst ha; simpa using hb
  | cons x xs ih =>
    simp only [collect, List.cons_append] at ha ⊢
    cases hx : mk x with
    | error e => simp [hx] at ha
    | ok u =>
      simp only [hx] at ha ⊢
      cases hxs : collect mk xs with
      | error e => simp [hxs] at ha
      | ok v =>
        simp only [hxs, Except.ok.injEq] at ha
        subst ha
        simp [ih v hxs, List.append_assoc]

theorem collect_append_inv {α : Type} (mk : α → Except ParseError (List inflection))
    (xs ys : List α) (c : List inflection) (h : collect mk (xs ++ ys) = .ok c) :
    ∃ a b, collect mk xs = .ok a ∧ collect mk ys = .ok b ∧ c = a ++ b := by
  induction xs generalizing c with
  | nil => exact ⟨[], c, rfl, by simpa using h, rfl⟩
  | cons x xs ih =>
    simp only [collect, List.cons_append] at h ⊢
    cases hx : mk x with
    | error e => simp [hx] at h
    | ok u =>
      simp only [hx] at h ⊢
      cases hxs : collect mk (xs ++ ys) with
      | error e => simp [hxs] at h
      | ok v =>
        simp only [List.append_eq, hxs, Except.ok.injEq] at h
        obtain ⟨a, b, ha, hb, hv⟩ := ih v hxs
        refine ⟨u ++ a, b, ?_, hb, ?_⟩
        · simp [ha]
        · simp [← h, hv, List.append_assoc]

theorem collect_singleton {α : Type} (mk : α → Except ParseError (List inflection)) (x : α)
    (a : List inflection) : collect mk [x] = .ok a ↔ mk x = .ok a := by
  simp only [collect]
  cases mk x <;> simp

/-- A loop of `compile` returns exactly when every pattern compiles, and then
it has appended the collected matchers. -/
theorem compileEach_eq_done {α : Type} (mk : α → Except ParseError (List inflection))
    (add : State → List inflection → State)
    (hnil : ∀ s, add s [] = s) (happ : ∀ s a b, add (add s a) b = add s (a ++ b))
    (xs : List α) (s t : State) :
    compileEach mk add xs s = .done t ↔ ∃ c, collect mk xs = .ok c ∧ t = add s c := by
  induction xs generalizing s with
  | nil => simp [compileEach, collect, hnil, eq_comm]
  | cons x xs ih =>
    simp only [compileEach, collect]
    cases hx : mk x with
    | error e => cases e <;> simp
    | ok u =>
      simp only [ih]
      constructor
      · rintro ⟨c, hc, rfl⟩
        exact ⟨u ++ c, by simp [hc], happ s u c⟩
      · rintro ⟨c, hc, rfl⟩
        cases hxs : collect mk xs with
        | error e => simp [hxs] at hc
        | ok v =>
          simp only [hxs, Except.ok.injEq] at hc
          subst hc
          exact ⟨v, rfl, (happ s u v).symm⟩

/-- What `compile` leaves when it returns: the tables unchanged, and the two
compiled lists made of the uncountable matchers, the irregular matchers and
the matchers of the regular rules in reverse table order. -/
theorem compile_eq_done (s t : State) :
    compile s = .done t ↔
      ∃ u ip is rp rs,
        collect uncountableMatchers s.uncountableInflections = .ok u ∧
        collect (fun v : Irregular => irregularMatchers v.singular v.plural)
          s.irregularInflections = .ok ip ∧
        collect (fun v : Irregular => irregularMatchers v.plural v.singular)
          s.irregularInflections = .ok is ∧
        collect regularMatchers s.pluralInflections.reverse = .ok rp ∧
        collect regularMatchers s.singularInflections.reverse = .ok rs ∧
        t = { s with compiledPluralMaps := u ++ ip ++ rp,
                     compiledSingularMaps := u ++ is ++ rs } := by
  have h1 := compileEach_eq_done uncountableMatchers
    (fun t infs => addSingular (addPlural t infs) infs)
    (by intro s; simp [addPlural, addSingular])
    (by intro s a b; simp [addPlural, addSingular])
  have h2 := fun mk => compileEach_eq_done (α := Irregular) mk addPlural
    (by intro s; simp [addPlural]) (by intro s a b; simp [addPlural])
  have h3 := fun mk => compileEach_eq_done (α := Irregular) mk addSingular
    (by intro s; simp [addSingular]) (by intro s a b; simp [addSingular])
  have h4 := compileEach_eq_done regularMatchers addPlural
    (by intro s; simp [addPlural]) (by intro s a b; simp [addPlural])
  have h5 := compileEach_eq_done regularMatchers addSingular
    (by intro s; simp [addSingular]) (by intro s a b; simp [addSingular])
  simp only [compile, Outcome.andThen_eq_done, h1, h2, h3, h4, h5]
  constructor
  · rintro ⟨s1, ⟨u, hu, rfl⟩, s2, ⟨ip, hip, rfl⟩, s3, ⟨is, his, rfl⟩, s4, ⟨rp, hrp, rfl⟩,
      rs, hrs, rfl⟩
    exact ⟨u, ip, is, rp, rs, hu, hip, his, hrp, hrs, by simp [addPlural, addSingular]⟩
  · rintro ⟨u, ip, is, rp, rs, hu, hip, his, hrp, hrs, rfl⟩
    exact ⟨_, ⟨u, hu, rfl⟩, _, ⟨ip, hip, rfl⟩, _, ⟨is, his, rfl⟩, _, ⟨rp, hrp, rfl⟩, rs, hrs,
      by simp [addPlural, addSingular]⟩

/-! ## The scan `applyFirst` -/

/-- The first matcher that matches decides the result of `applyFirst`. -/
theorem applyFirst_eq_find (l : List inflection) (w : String) :
    applyFirst l w =
      match l.find? (fun m => m.regexp.MatchString w) with
      | none => w
      | some m => m.regexp.ReplaceAllString w m.replace := by
  induction l with
  | nil => rfl
  | cons m l ih =>
    simp only [applyFirst, List.find?]
    cases h : m.regexp.MatchString w <;> simp [ih]

theorem applyFirst_append_of_none (l r : List inflection) (w : String)
    (h : ∀ m ∈ l, m.regexp.MatchString w = false) : applyFirst (l ++ r) w = applyFirst r w := by
  induction l with
  | nil => rfl
  | cons m l ih =>
    have hm := h m (List.mem_cons_self _ _)
    simp only [List.cons_append, applyFirst, hm]
    exact ih (fun x hx => h x (List.mem_cons_of_mem _ hx))

theorem applyFirst_append_of_some (l r : List inflection) (w : String)
    (h : ∃ m ∈ l, m.regexp.MatchString w = true) : applyFirst (l ++ r) w = applyFirst l w := by
  induction l with
  | nil => simp at h
  | cons m l ih =>
    simp only [List.cons_append, applyFirst]
    cases hm : m.regexp.MatchString w with
    | true => simp
    | false =>
      simp only [Bool.false_eq_true, ↓reduceIte]
      apply ih
      obtain ⟨x, hx, hxw⟩ := h
      rcases List.mem_cons.mp hx with rfl | hx
      · simp [hm] at hxw
      · exact ⟨x, hx, hxw⟩

theorem applyFirst_cons_of_match (m : inflection) (r : List inflection) (w : String)
    (h : m.regexp.MatchString w = true) :
    applyFirst (m :: r) w = m.regexp.ReplaceAllString w m.replace := by
  simp [applyFirst, h]

/-! ## `Regexp.run` along the linear paths -/

theorem shiftCaps_zero (cs : Caps) : shiftCaps 0 cs = cs := by
  simp [shiftCaps]

theorem shiftCaps_append (d : Nat) (a b : Caps) :
    shiftCaps d (a ++ b) = shiftCaps d a ++ shiftCaps d b := by
  simp [shiftCaps]

theorem shiftCaps_shiftCaps (d e : Nat) (cs : Caps) :
    shiftCaps d (shiftCaps e cs) = shiftCaps (e + d) cs := by
  simp [shiftCaps, Nat.add_assoc]

theorem itemsLen_append (a b : List Item) : itemsLen (a ++ b) = itemsLen a + itemsLen b := by
  induction a with
  | nil => simp [itemsLen]
  | cons x a ih => cases x <;> simp [itemsLen, ih]; omega

theorem checkItems_append (a b : List Item) (pos : Nat) (rest : List Char) :
    checkItems (a ++ b) pos rest =
      (checkItems a pos rest).bind fun r => checkItems b (pos + itemsLen a) r := by
  induction a generalizing pos rest with
  | nil => simp [checkItems, itemsLen]
  | cons x a ih =>
    cases x with
    | atom t =>
      cases rest with
      | nil => simp [checkItems]
      | cons c cs =>
        simp only [List.cons_append, checkItems, itemsLen, List.append_eq]
        split
        · rw [ih]; congr 1; funext r; congr 1; omega
        · rfl
    | bol =>
      simp only [List.cons_append, checkItems, itemsLen, List.append_eq]
      split
      · rw [ih]
      · rfl
    | eol =>
      cases rest with
      | nil => simp only [List.cons_append, checkItems, itemsLen, List.append_eq]; rw [ih]
      | cons c cs => simp [checkItems]

theorem Path.run_append (p q : Path) (s : MState) :
    (p.append q).run s = (p.run s).flatMap q.run := by
  simp only [Path.run, Path.append, checkItems_append]
  cases h : checkItems p.items s.pos s.rest with
  | none => simp
  | some r =>
    simp only [Option.some_bind, List.flatMap_cons, List.flatMap_nil, List.append_nil]
    cases h2 : checkItems q.items (s.pos + itemsLen p.items) r with
    | none => simp [Path.run, h2]
    | some r2 =>
      simp [Path.run, h2, itemsLen_append, shiftCaps_append, shiftCaps_shiftCaps, Nat.add_assoc,
        Nat.add_comm]

theorem Path.run_length_le (p : Path) (s : MState) : (p.run s).length ≤ 1 := by
  simp only [Path.run]
  split <;> simp

/-- Lemma P: an expression without `*` matches exactly along its paths, in
their order. -/
theorem Regexp.run_eq_paths (r : Regexp) (ps : List Path) (h : r.paths = some ps) (s : MState) :
    r.run s = ps.flatMap fun p => p.run s := by
  induction r generalizing ps s with
  | empty =>
    simp only [Regexp.paths, Option.some.injEq] at h
    subst h
    simp [Regexp.run, Path.run, checkItems, itemsLen, shiftCaps]
  | atom a =>
    simp only [Regexp.paths, Option.some.injEq] at h
    subst h
    simp only [Regexp.run, Path.run, checkItems, itemsLen, List.flatMap_cons, List.flatMap_nil,
      List.append_nil]
    cases hr : s.rest with
    | nil => simp
    | cons c cs =>
      simp only []
      split <;> simp [shiftCaps]
  | bol =>
    simp only [Regexp.paths, Option.some.injEq] at h
    subst h
    simp only [Regexp.run, Path.run, checkItems, itemsLen, List.flatMap_cons, List.flatMap_nil,
      List.append_nil]
    split <;> simp [shiftCaps]
  | eol =>
    simp only [Regexp.paths, Option.some.injEq] at h
    subst h
    simp only [Regexp.run, Path.run, checkItems, itemsLen, List.flatMap_cons, List.flatMap_nil,
      List.append_nil]
    cases hr : s.rest with
    | nil => cases s; simp_all [shiftCaps]
    | cons c cs => simp
  | cat a b iha ihb =>
    simp only [Regexp.paths] at h
    cases ha : a.paths with
    | none => simp [ha] at h
    | some pa =>
      cases hb : b.paths with
      | none => simp [ha, hb] at h
      | some pb =>
        simp only [ha, hb, Option.some.injEq] at h
        subst h
        simp only [Regexp.run, iha pa ha, List.flatMap_assoc, List.flatMap_map]
        congr 1
        funext p
        simp only [Path.run_append]
        have hl := Path.run_length_le p s
        cases hp : p.run s with
        | nil => simp
        | cons t ts =>
          cases ts with
          | nil => simp [ihb pb hb]
          | cons t2 ts => simp [hp] at hl
  | alt a b iha ihb =>
    simp only [Regexp.paths] at h
    cases ha : a.paths with
    | none => simp [ha] at h
    | some pa =>
      cases hb : b.paths with
      | none => simp [ha, hb] at h
      | some pb =>
        simp only [ha, hb, Option.some.injEq] at h
        subst h
        simp [Regexp.run, iha pa ha, ihb pb hb]
  | opt a iha =>
    simp only [Regexp.paths] at h
    cases ha : a.paths with
    | none => simp [ha] at h
    | some pa =>
      simp only [ha, Option.some.injEq] at h
      subst h
      simp [Regexp.run, iha pa ha, Path.run, checkItems, itemsLen, shiftCaps]
  | star a _ => simp [Regexp.paths] at h
  | group n a iha =>
    simp only [Regexp.paths] at h
    cases ha : a.paths with
    | none => simp [ha] at h
    | some pa =>
      simp only [ha, Option.some.injEq] at h
      subst h
      simp only [Regexp.run, iha pa ha, List.map_flatMap, List.flatMap_map]
      congr 1
      funext p
      simp only [Path.run]
      split <;> simp [shiftCaps, Nat.add_comm]

/-! ### Correctness of `tailSearch` -/

theorem atomsThenEol_spec (is : List Item) (acc r : List Atom) (h : atomsThenEol is acc = some r) :
    ∃ as : List Atom, is = as.map Item.atom ++ [Item.eol] ∧ r = as.reverse ++ acc := by
  induction is generalizing acc with
  | nil => simp [atomsThenEol] at h
  | cons x is ih =>
    cases x with
    | atom a =>
      simp only [atomsThenEol] at h
      obtain ⟨as, h1, h2⟩ := ih _ h
      exact ⟨a :: as, by simp [h1], by simp [h2]⟩
    | bol => simp [atomsThenEol] at h
    | eol =>
      simp only [atomsThenEol] at h
      split at h
      · rename_i hempty
        simp only [Option.some.injEq] at h
        refine ⟨[], ?_, by simp [h]⟩
        simpa using hempty
      · simp at h

theorem Path.toTail_spec (p : Path) (t : TPath) (h : p.toTail = some t) :
    p = t.toPath ∧ t.atomsRev ≠ [] := by
  obtain ⟨items, caps⟩ := p
  simp only [Path.toTail] at h
  split at h
  · rename_i a as hh
    simp only [Option.some.injEq] at h
    obtain ⟨l, h1, h2⟩ := atomsThenEol_spec _ _ _ hh
    subst h
    simp only [List.append_nil] at h2
    have hl : l = (a :: as).reverse := by rw [h2]; simp
    subst hl
    clear h2
    refine ⟨?_, by simp⟩
    cases items with
    | nil => simp [startsWithBol] at h1
    | cons x is =>
      cases x with
      | bol =>
        simp only [startsWithBol, ↓reduceIte, List.tail_cons] at h1
        simp [TPath.toPath, TPath.items, startsWithBol, h1]
      | atom a =>
        simp only [startsWithBol, Bool.false_eq_true, ↓reduceIte] at h1
        simp [TPath.toPath, TPath.items, startsWithBol, h1]
      | eol =>
        simp only [startsWithBol, Bool.false_eq_true, ↓reduceIte] at h1
        simp [TPath.toPath, TPath.items, startsWithBol, h1]
  · simp at h

theorem allTail_spec (ps : List Path) (ts : List TPath) (h : allTail ps = some ts) :
    ps = ts.map TPath.toPath ∧ ∀ t ∈ ts, t.atomsRev ≠ [] := by
  induction ps generalizing ts with
  | nil =>
    simp only [allTail, Option.some.injEq] at h
    subst h
    simp
  | cons p ps ih =>
    simp only [allTail] at h
    split at h
    · rename_i t ts2 h1 h2
      simp only [Option.some.injEq] at h
      subst h
      obtain ⟨e1, e2⟩ := Path.toTail_spec p t h1
      obtain ⟨e3, e4⟩ := ih ts2 h2
      refine ⟨by simp [e1, ← e3], ?_⟩
      intro x hx
      rcases List.mem_cons.mp hx with rfl | hx
      · exact e2
      · exact e4 x hx
    · simp at h

theorem acceptsExact_iff (as : List Atom) (cs : List Char) :
    acceptsExact as cs = true ↔ List.Forall₂ (fun a c => a.accepts c = true) as cs := by
  induction as generalizing cs with
  | nil => cases cs <;> simp [acceptsExact]
  | cons a as ih => cases cs <;> simp [acceptsExact, ih]

theorem acceptsAll_iff (as : List Atom) (cs : List Char) :
    acceptsAll as cs = true ↔
      as.length ≤ cs.length ∧ List.Forall₂ (fun a c => a.accepts c = true) as (cs.take as.length) := by
  induction as generalizing cs with
  | nil => simp [acceptsAll]
  | cons a as ih => cases cs <;> simp [acceptsAll, ih]; tauto

theorem checkItems_atoms_eol (as : List Atom) (pos : Nat) (rest : List Char) :
    checkItems (as.map Item.atom ++ [Item.eol]) pos rest =
      if acceptsExact as rest then some [] else none := by
  induction as generalizing pos rest with
  | nil => cases rest <;> simp [checkItems, acceptsExact]
  | cons a as ih =>
    cases rest with
    | nil => simp [checkItems, acceptsExact]
    | cons c cs =>
      simp only [List.map_cons, List.cons_append, checkItems, acceptsExact, List.append_eq]
      by_cases h : a.accepts c = true <;> simp [h, ih]

theorem itemsLen_atoms (as : List Atom) : itemsLen (as.map Item.atom) = as.length := by
  induction as with
  | nil => rfl
  | cons a as ih => simp [itemsLen, ih]

theorem TPath.itemsLen_items (t : TPath) : itemsLen t.items = t.atomsRev.length := by
  simp only [TPath.items, itemsLen_append, itemsLen_atoms]
  cases t.bol <;> simp [itemsLen]

theorem TPath.checkItems_items (t : TPath) (pos : Nat) (rest : List Char) :
    checkItems t.items pos rest = if t.okAt pos rest then some [] else none := by
  obtain ⟨b, ar, caps⟩ := t
  cases b with
  | false => simp [TPath.items, TPath.okAt, checkItems_atoms_eol, -List.map_reverse]
  | true =>
    by_cases hp : pos = 0
    · simp [TPath.items, TPath.okAt, checkItems, checkItems_atoms_eol, hp, -List.map_reverse]
    · simp [TPath.items, TPath.okAt, checkItems, hp]

theorem TPath.run_toPath (t : TPath) (s : MState) :
    t.toPath.run s =
      if t.okAt s.pos s.rest then
        [⟨s.pos + t.atomsRev.length, [], shiftCaps s.pos t.caps ++ s.caps⟩]
      else [] := by
  simp only [Path.run, TPath.toPath, TPath.itemsLen_items, TPath.checkItems_items]
  by_cases h : t.okAt s.pos s.rest = true <;> simp [h]

theorem head_flatMap_ite {α β : Type} (l : List α) (c : α → Bool) (f : α → β) :
    (l.flatMap fun x => if c x then [f x] else []).head? = (l.find? c).map f := by
  induction l with
  | nil => rfl
  | cons x l ih =>
    simp only [List.flatMap_cons, List.find?]
    cases c x <;> simp [ih]

theorem Regexp.matchAt_eq_head (r : Regexp) (pos : Nat) (rest : List Char) :
    r.matchAt pos rest = (r.run ⟨pos, rest, []⟩).head?.map fun t => (0, pos, t.pos) :: t.caps := by
  simp only [Regexp.matchAt]
  split <;> simp_all

/-- The preferred match at one position, along end-anchored paths. -/
theorem Regexp.matchAt_tail (r : Regexp) (ps : List Path) (ts : List TPath)
    (hp : r.paths = some ps) (ht : allTail ps = some ts) (pos : Nat) (rest : List Char) :
    r.matchAt pos rest =
      (ts.find? fun t => t.okAt pos rest).map fun t =>
        (0, pos, pos + t.atomsRev.length) :: shiftCaps pos t.caps := by
  obtain ⟨hps, _⟩ := allTail_spec ps ts ht
  rw [Regexp.matchAt_eq_head, Regexp.run_eq_paths r ps hp, hps, List.flatMap_map]
  simp only [TPath.run_toPath]
  rw [head_flatMap_ite]
  simp [Option.map_map, Function.comp_def]

theorem best_congr (f g : TPath → Bool) (ts : List TPath) (h : ∀ t ∈ ts, f t = g t) :
    best f ts = best g ts := by
  induction ts with
  | nil => rfl
  | cons t ts ih =>
    simp only [best]
    rw [ih (fun x hx => h x (List.mem_cons_of_mem _ hx)), h t (List.mem_cons_self _ _)]

theorem best_eq_none (f : TPath → Bool) (ts : List TPath) (h : ∀ t ∈ ts, f t = false) :
    best f ts = none := by
  induction ts with
  | nil => rfl
  | cons t ts ih =>
    simp only [best]
    rw [ih (fun x hx => h x (List.mem_cons_of_mem _ hx)), h t (List.mem_cons_self _ _)]
    simp

/-- If every path satisfying `f` has at most `m` tests, the first one with
exactly `m` tests is the best. -/
theorem best_of_find (f : TPath → Bool) (m : Nat) (ts : List TPath) (t0 : TPath)
    (hle : ∀ t ∈ ts, f t = true → t.atomsRev.length ≤ m)
    (hfind : ts.find? (fun t => f t && t.atomsRev.length == m) = some t0) :
    best f ts = some t0 := by
  induction ts with
  | nil => simp at hfind
  | cons t ts ih =>
    simp only [List.find?] at hfind
    simp only [best]
    cases hc : (f t && t.atomsRev.length == m) with
    | true =>
      simp only [hc, Option.some.injEq] at hfind
      subst hfind
      simp only [Bool.and_eq_true, beq_iff_eq] at hc
      cases hb : best f ts with
      | none => simp [hc.1]
      | some b =>
        have hbm : b.atomsRev.length ≤ m := by
          have : ∀ (l : List TPath) (b : TPath), best f l = some b → b ∈ l ∧ f b = true := by
            intro l
            induction l with
            | nil => intro b hb; simp [best] at hb
            | cons x l ihl =>
              intro b hb
              simp only [best] at hb
              cases hbl : best f l with
              | none =>
                simp only [hbl] at hb
                split at hb
                · simp only [Option.some.injEq] at hb; subst hb; simp_all
                · simp at hb
              | some b2 =>
                simp only [hbl] at hb
                split at hb
                · rename_i hx
                  simp only [Option.some.injEq] at hb; subst hb
                  simp only [Bool.and_eq_true] at hx
                  simp [hx.1]
                · simp only [Option.some.injEq] at hb; subst hb
                  have := ihl b2 hbl
                  simp [this.1, this.2]
          obtain ⟨hmem, hfb⟩ := this ts b hb
          exact hle b (List.mem_cons_of_mem _ hmem) hfb
        simp [hc.1, hc.2, hbm]
    | false =>
      simp only [hc] at hfind
      have ih2 := ih (fun x hx => hle x (List.mem_cons_of_mem _ hx)) hfind
      simp only [ih2]
      have ht0 : t0.atomsRev.length = m := by
        have := List.find?_some hfind
        simp only [Bool.and_eq_true, beq_iff_eq] at this
        exact this.2
      have : (f t && decide (t0.atomsRev.length ≤ t.atomsRev.length)) = false := by
        cases hft : f t with
        | false => simp
        | true =>
          simp only [Bool.true_and, decide_eq_false_iff_not, Nat.not_le]
          have h1 := hle t (List.mem_cons_self _ _) hft
          simp only [hft, Bool.true_and, beq_eq_false_iff_ne, ne_eq] at hc
          omega
      simp [this]

theorem acceptsAll_length (as : List Atom) (cs : List Char) (h : acceptsAll as cs = true) :
    as.length ≤ cs.length := ((acceptsAll_iff as cs).mp h).1

theorem TPath.okAt_iff (t : TPath) (w : List Char) (p : Nat) (hp : p ≤ w.length) :
    t.okAt p (w.drop p) = true ↔
      t.hit w.reverse w.length = true ∧ t.atomsRev.length + p = w.length := by
  simp only [TPath.okAt, TPath.hit, Bool.and_eq_true, Bool.or_eq_true, Bool.not_eq_true',
    beq_iff_eq, acceptsExact_iff, acceptsAll_iff, List.length_reverse]
  rw [← List.forall₂_reverse_iff, List.reverse_reverse, List.reverse_drop]
  constructor
  · rintro ⟨hb, hf⟩
    have hlen := hf.length_eq
    simp only [List.length_take, List.length_reverse] at hlen
    have hk : t.atomsRev.length = w.length - p := by omega
    refine ⟨⟨⟨by omega, by rw [hk]; exact hf⟩, ?_⟩, by omega⟩
    rcases hb with hb | hb
    · exact Or.inl hb
    · right; omega
  · rintro ⟨⟨⟨hle, hf⟩, hb⟩, hk⟩
    have hk2 : w.length - p = t.atomsRev.length := by omega
    refine ⟨?_, by rw [hk2]; exact hf⟩
    rcases hb with hb | hb
    · exact Or.inl hb
    · right; omega

theorem Regexp.search_tail_aux (r : Regexp) (ps : List Path) (ts : List TPath)
    (hp : r.paths = some ps) (ht : allTail ps = some ts) (w : List Char) :
    ∀ (rest : List Char) (p : Nat), p + rest.length = w.length → rest = w.drop p →
      r.search p rest =
        (best (fun t => t.hit w.reverse w.length && decide (t.atomsRev.length ≤ w.length - p)) ts).map
          fun t => t.capsAt w.length := by
  have hne := (allTail_spec ps ts ht).2
  intro rest
  induction rest with
  | nil =>
    intro p hlen hrest
    simp only [List.length_nil, Nat.add_zero] at hlen
    subst hlen
    simp only [Regexp.search, Regexp.matchAt_tail r ps ts hp ht]
    rw [best_eq_none]
    · rw [List.find?_eq_none.mpr]
      · rfl
      · intro t htm
        have hk : t.atomsRev.length ≠ 0 := by
          intro h0; exact hne t htm (List.length_eq_zero.mp h0)
        have := TPath.okAt_iff t w w.length (Nat.le_refl _)
        rw [← hrest] at this
        simp only [Bool.not_eq_true]
        cases hok : t.okAt w.length [] with
        | false => rfl
        | true => have := (this.mp hok).2; omega
    · intro t htm
      have hk : t.atomsRev.length ≠ 0 := by
        intro h0; exact hne t htm (List.length_eq_zero.mp h0)
      simp only [Nat.sub_self, Nat.le_zero_eq, Bool.and_eq_false_imp, decide_eq_false_iff_not]
      intro _; exact hk
  | cons c cs ih =>
    intro p hlen hrest
    simp only [List.length_cons] at hlen
    have hple : p ≤ w.length := by omega
    have hcs : cs = w.drop (p + 1) := by
      have : (c :: cs).drop 1 = (w.drop p).drop 1 := by rw [hrest]
      simpa [List.drop_drop, Nat.add_comm] using this
    have hpred : (fun t : TPath => t.okAt p (c :: cs)) =
        fun t => (t.hit w.reverse w.length && decide (t.atomsRev.length ≤ w.length - p)) &&
          (t.atomsRev.length == w.length - p) := by
      funext t
      rw [Bool.eq_iff_iff, hrest, TPath.okAt_iff t w p hple]
      simp only [Bool.and_eq_true, decide_eq_true_eq, beq_iff_eq]
      constructor
      · rintro ⟨h1, h2⟩; exact ⟨⟨h1, by omega⟩, by omega⟩
      · rintro ⟨⟨h1, _⟩, h2⟩; exact ⟨h1, by omega⟩
    simp only [Regexp.search, Regexp.matchAt_tail r ps ts hp ht]
    cases hf : ts.find? (fun t => t.okAt p (c :: cs)) with
    | some t0 =>
      simp only [Option.map_some']
      rw [hpred] at hf
      rw [best_of_find _ (w.length - p) ts t0 _ hf]
      · have := List.find?_some hf
        simp only [Bool.and_eq_true, decide_eq_true_eq, beq_iff_eq] at this
        have hk : w.length - t0.atomsRev.length = p := by omega
        simp [TPath.capsAt, hk]
        omega
      · intro t _ h
        simp only [Bool.and_eq_true, decide_eq_true_eq] at h
        exact h.2
    | none =>
      simp only [Option.map_none']
      rw [ih (p + 1) (by omega) hcs]
      congr 1
      apply best_congr
      intro t htm
      have hno := List.find?_eq_none.mp hf t htm
      rw [hpred] at hf
      have hno2 := List.find?_eq_none.mp hf t htm
      simp only [Bool.and_eq_true, decide_eq_true_eq, beq_iff_eq, not_and] at hno2
      rw [Bool.eq_iff_iff]
      simp only [Bool.and_eq_true, decide_eq_true_eq]
      constructor
      · rintro ⟨h1, h2⟩; exact ⟨h1, by omega⟩
      · rintro ⟨h1, h2⟩
        refine ⟨h1, ?_⟩
        have := hno2 ⟨h1, h2⟩
        omega

/-- Theorem B: on an expression whose paths are all end-anchored, the
leftmost-first search is the longest matching path. -/
theorem Regexp.search_tail (r : Regexp) (ps : List Path) (ts : List TPath)
    (hp : r.paths = some ps) (ht : allTail ps = some ts) (w : List Char) :
    r.search 0 w = tailSearch ts w := by
  rw [Regexp.search_tail_aux r ps ts hp ht w w 0 (by simp) (by simp)]
  simp only [tailSearch, Nat.sub_zero]
  congr 1
  apply best_congr
  intro t _
  rw [Bool.eq_iff_iff]
  simp only [Bool.and_eq_true, decide_eq_true_eq, and_iff_left_iff_imp]
  intro h
  simp only [TPath.hit, Bool.and_eq_true] at h
  simpa using acceptsAll_length _ _ h.1

/-- After an end-anchored match nothing more matches at the end of the text. -/
theorem Regexp.search_tail_end (r : Regexp) (ps : List Path) (ts : List TPath)
    (hp : r.paths = some ps) (ht : allTail ps = some ts) (n : Nat) :
    r.search n [] = none := by
  have hne := (allTail_spec ps ts ht).2
  simp only [Regexp.search, Regexp.matchAt_tail r ps ts hp ht]
  rw [List.find?_eq_none.mpr]
  · rfl
  · intro t htm
    have hk := hne t htm
    simp only [TPath.okAt, Bool.and_eq_true, not_and, Bool.not_eq_true]
    intro _
    cases hr : t.atomsRev.reverse with
    | nil => simp at hr; exact absurd hr hk
    | cons a as => simp [acceptsExact]

theorem best_mem (f : TPath → Bool) (l : List TPath) (b : TPath) (hb : best f l = some b) :
    b ∈ l ∧ f b = true := by
  induction l with
  | nil => simp [best] at hb
  | cons x l ihl =>
    simp only [best] at hb
    cases hbl : best f l with
    | none =>
      simp only [hbl] at hb
      split at hb
      · simp only [Option.some.injEq] at hb; subst hb; simp_all
      · simp at hb
    | some b2 =>
      simp only [hbl] at hb
      split at hb
      · rename_i hx
        simp only [Option.some.injEq] at hb; subst hb
        simp only [Bool.and_eq_true] at hx
        simp [hx.1]
      · simp only [Option.some.injEq] at hb; subst hb
        have := ihl hbl
        simp [this.1, this.2]

/-! ### Correctness of `headSearch` -/

theorem atomsOnly_spec (is : List Item) (as : List Atom) (h : atomsOnly is = some as) :
    is = as.map Item.atom := by
  induction is generalizing as with
  | nil => simp [atomsOnly] at h; simp [← h]
  | cons x is ih =>
    cases x with
    | atom a =>
      simp only [atomsOnly] at h
      cases h2 : atomsOnly is with
      | none => simp [h2] at h
      | some l =>
        simp only [h2, Option.some.injEq] at h
        subst h
        simp [ih l h2]
    | bol => simp [atomsOnly] at h
    | eol => simp [atomsOnly] at h

theorem Path.toHead_spec (p : Path) (t : HPath) (h : p.toHead = some t) :
    p = t.toPath ∧ t.atoms ≠ [] := by
  obtain ⟨items, caps⟩ := p
  cases items with
  | nil => simp [Path.toHead] at h
  | cons x is =>
    cases x with
    | atom a => simp [Path.toHead] at h
    | eol => simp [Path.toHead] at h
    | bol =>
      simp only [Path.toHead] at h
      split at h
      · rename_i a as hh
        simp only [Option.some.injEq] at h
        subst h
        exact ⟨by simp [HPath.toPath, atomsOnly_spec _ _ hh], by simp⟩
      · simp at h

theorem allHead_spec (ps : List Path) (hs : List HPath) (h : allHead ps = some hs) :
    ps = hs.map HPath.toPath ∧ ∀ t ∈ hs, t.atoms ≠ [] := by
  induction ps generalizing hs with
  | nil =>
    simp only [allHead, Option.some.injEq] at h
    subst h
    simp
  | cons p ps ih =>
    simp only [allHead] at h
    split at h
    · rename_i t ts2 h1 h2
      simp only [Option.some.injEq] at h
      subst h
      obtain ⟨e1, e2⟩ := Path.toHead_spec p t h1
      obtain ⟨e3, e4⟩ := ih ts2 h2
      refine ⟨by simp [e1, ← e3], ?_⟩
      intro x hx
      rcases List.mem_cons.mp hx with rfl | hx
      · exact e2
      · exact e4 x hx
    · simp at h

theorem checkItems_atoms (as : List Atom) (pos : Nat) (rest : List Char) :
    checkItems (as.map Item.atom) pos rest =
      if acceptsAll as rest then some (rest.drop as.length) else none := by
  induction as generalizing pos rest with
  | nil => simp [checkItems, acceptsAll]
  | cons a as ih =>
    cases rest with
    | nil => simp [checkItems, acceptsAll]
    | cons c cs =>
      simp only [List.map_cons, checkItems, acceptsAll]
      by_cases h : a.accepts c = true <;> simp [h, ih]

theorem HPath.run_head_toPath (h : HPath) (s : MState) :
    h.toPath.run s =
      if s.pos = 0 ∧ acceptsAll h.atoms s.rest = true then
        [⟨s.pos + h.atoms.length, s.rest.drop h.atoms.length, shiftCaps s.pos h.caps ++ s.caps⟩]
      else [] := by
  simp only [Path.run, HPath.toPath, checkItems, itemsLen, itemsLen_atoms, checkItems_atoms]
  by_cases hp : s.pos = 0
  · by_cases ha : acceptsAll h.atoms s.rest = true <;> simp [hp, ha]
  · simp [hp]

theorem Regexp.matchAt_head (r : Regexp) (ps : List Path) (hs : List HPath)
    (hp : r.paths = some ps) (hh : allHead ps = some hs) (pos : Nat) (rest : List Char) :
    r.matchAt pos rest =
      if pos = 0 then headSearch hs rest else none := by
  obtain ⟨hps, _⟩ := allHead_spec ps hs hh
  rw [Regexp.matchAt_eq_head, Regexp.run_eq_paths r ps hp, hps, List.flatMap_map]
  simp only [HPath.run_head_toPath]
  by_cases h0 : pos = 0
  · subst h0
    simp only [true_and, ↓reduceIte, headSearch]
    rw [head_flatMap_ite]
    simp [Option.map_map, Function.comp_def, shiftCaps_zero]
  · simp [h0]

theorem Regexp.search_head_pos (r : Regexp) (ps : List Path) (hs : List HPath)
    (hp : r.paths = some ps) (hh : allHead ps = some hs) (rest : List Char) :
    ∀ pos, 0 < pos → r.search pos rest = none := by
  induction rest with
  | nil =>
    intro pos h
    simp only [Regexp.search, Regexp.matchAt_head r ps hs hp hh]
    simp; omega
  | cons c cs ih =>
    intro pos h
    simp only [Regexp.search, Regexp.matchAt_head r ps hs hp hh]
    have : pos ≠ 0 := by omega
    simp only [this, ↓reduceIte]
    exact ih (pos + 1) (by omega)

/-- On an expression whose paths are all begin-anchored, the search is a
test of the beginning of the word. -/
theorem Regexp.search_head (r : Regexp) (ps : List Path) (hs : List HPath)
    (hp : r.paths = some ps) (hh : allHead ps = some hs) (w : List Char) :
    r.search 0 w = headSearch hs w := by
  cases w with
  | nil => simp [Regexp.search, Regexp.matchAt_head r ps hs hp hh]
  | cons c cs =>
    simp only [Regexp.search, Regexp.matchAt_head r ps hs hp hh, ↓reduceIte]
    cases headSearch hs (c :: cs) with
    | some m => rfl
    | none => exact Regexp.search_head_pos r ps hs hp hh cs 1 (by omega)

theorem Regexp.search_shape (r : Regexp) (sh : Shape) (h : r.shape = some sh) (w : List Char) :
    r.search 0 w = sh.search w := by
  simp only [Regexp.shape] at h
  cases hp : r.paths with
  | none => simp [hp] at h
  | some ps =>
    simp only [hp] at h
    cases ht : allTail ps with
    | some ts =>
      simp only [ht, Option.some.injEq] at h
      subst h
      exact Regexp.search_tail r ps ts hp ht w
    | none =>
      simp only [ht] at h
      cases hh : allHead ps with
      | none => simp [hh] at h
      | some hs =>
        simp only [hh, Option.some.injEq] at h
        subst h
        exact Regexp.search_head r ps hs hp hh w

/-- A match found through the shape spans at least one character, lies in
the word, and no further match follows it. -/
theorem Regexp.shape_bounds (r : Regexp) (sh : Shape) (h : r.shape = some sh) (w : List Char)
    (m : Caps) (hm : sh.search w = some m) :
    1 ≤ (matchBounds m).2 ∧ (matchBounds m).2 ≤ w.length ∧
      r.search (matchBounds m).2 (w.drop (matchBounds m).2) = none := by
  simp only [Regexp.shape] at h
  cases hp : r.paths with
  | none => simp [hp] at h
  | some ps =>
    simp only [hp] at h
    cases ht : allTail ps with
    | some ts =>
      simp only [ht, Option.some.injEq] at h
      subst h
      simp only [Shape.search, tailSearch, Option.map_eq_some'] at hm
      obtain ⟨t, hb, rfl⟩ := hm
      obtain ⟨hmem, hhit⟩ := best_mem _ _ _ hb
      have hne := (allTail_spec ps ts ht).2 t hmem
      have hk : t.atomsRev.length ≠ 0 := fun h0 => hne (List.length_eq_zero.mp h0)
      simp only [TPath.hit, Bool.and_eq_true] at hhit
      have hle := acceptsAll_length _ _ hhit.1
      simp only [List.length_reverse] at hle
      simp only [matchBounds, capOf, TPath.capsAt, List.find?, beq_self_eq_true, List.drop_length]
      exact ⟨by omega, Nat.le_refl _, Regexp.search_tail_end r ps ts hp ht _⟩
    | none =>
      simp only [ht] at h
      cases hh : allHead ps with
      | none => simp [hh] at h
      | some hs =>
        simp only [hh, Option.some.injEq] at h
        subst h
        simp only [Shape.search, headSearch, Option.map_eq_some'] at hm
        obtain ⟨t, hb, rfl⟩ := hm
        have hmem := List.mem_of_find?_eq_some hb
        have hacc := List.find?_some hb
        have hne := (allHead_spec ps hs hh).2 t hmem
        have hk : t.atoms.length ≠ 0 := fun h0 => hne (List.length_eq_zero.mp h0)
        have hle := acceptsAll_length _ _ hacc
        simp only [matchBounds, capOf, List.find?, beq_self_eq_true]
        exact ⟨by omega, hle, Regexp.search_head_pos r ps hs hp hh _ _ (by omega)⟩

/-! ## Matchers and their descriptions -/

/-- Theorem C: when the first match spans at least one character and no match
follows it, `replaceAll` rewrites exactly that match. -/
theorem replaceAllLoop_single (re : Regexp) (repl src : List Char) (m : Caps)
    (h0 : re.search 0 src = some m)
    (h1 : 1 ≤ (matchBounds m).2) (h2 : (matchBounds m).2 ≤ src.length)
    (h3 : re.search (matchBounds m).2 (src.drop (matchBounds m).2) = none) :
    replaceAllLoop re repl src (src.length + 2) 0 0 [] =
      slice src 0 (matchBounds m).1 ++ expand src m (repl.length + 1) repl ++
        src.drop (matchBounds m).2 := by
  rw [show src.length + 2 = (src.length + 1) + 1 from rfl]
  simp only [replaceAllLoop, Nat.not_lt_zero, ↓reduceIte, List.drop_zero, h0, List.nil_append]
  have hc : (decide (0 < (matchBounds m).2) || (matchBounds m).1 == 0) = true := by
    simp; left; omega
  have hn : ¬ (matchBounds m).2 < 0 + 1 := by omega
  have hl : ¬ src.length < (matchBounds m).2 := by omega
  simp only [hc, hn, hl, ↓reduceIte, h3]

theorem inflection.matchString_spec (m : inflection) (sp : Spec) (h : m.spec = some sp)
    (w : String) : m.regexp.MatchString w = (sp.apply w.data).isSome := by
  simp only [inflection.spec] at h
  cases hs : m.regexp.shape with
  | none => simp [hs] at h
  | some sh =>
    simp only [hs, Option.some.injEq] at h
    subst h
    simp only [Regexp.MatchString, Regexp.search_shape _ sh hs, Spec.apply]
    cases sh.search w.data <;> rfl

theorem inflection.replace_spec (m : inflection) (sp : Spec) (h : m.spec = some sp)
    (w : String) (r : List Char) (hr : sp.apply w.data = some r) :
    m.regexp.ReplaceAllString w m.replace = ⟨r⟩ := by
  simp only [inflection.spec] at h
  cases hs : m.regexp.shape with
  | none => simp [hs] at h
  | some sh =>
    simp only [hs, Option.some.injEq] at h
    subst h
    simp only [Spec.apply] at hr
    cases hm : sh.search w.data with
    | none => simp [hm] at hr
    | some c =>
      simp only [hm, Option.some.injEq] at hr
      obtain ⟨b1, b2, b3⟩ := Regexp.shape_bounds _ sh hs w.data c hm
      simp only [Regexp.ReplaceAllString]
      rw [replaceAllLoop_single _ _ _ c (by rw [Regexp.search_shape _ sh hs]; exact hm) b1 b2 b3]
      rw [hr]

/-- The compiled matchers and their descriptions rewrite every word alike. -/
theorem applyFirst_eq_specApply (l : List inflection) (sps : List Spec) (h : specs l = some sps)
    (w : String) : applyFirst l w = ⟨specApply sps w.data⟩ := by
  induction l generalizing sps with
  | nil =>
    simp only [specs, Option.some.injEq] at h
    subst h
    rfl
  | cons m ms ih =>
    simp only [specs] at h
    split at h
    · rename_i sp sps2 h1 h2
      simp only [Option.some.injEq] at h
      subst h
      simp only [applyFirst, specApply, inflection.matchString_spec m sp h1]
      cases hr : sp.apply w.data with
      | none => simpa using ih sps2 h2
      | some r => simpa using inflection.replace_spec m sp h1 w r hr
    · simp at h

theorem rewritesAll_sound (o : Outcome) (pick : State → List inflection)
    (tests : List (String × String)) (h : rewritesAll o pick tests = true) :
    o.Holds fun s => ∀ e ∈ tests, applyFirst (pick s) e.1 = e.2 := by
  cases o with
  | done s =>
    simp only [rewritesAll] at h
    cases hs : specs (pick s) with
    | none => simp [hs] at h
    | some sps =>
      simp only [hs, List.all_eq_true, beq_iff_eq] at h
      intro e he
      rw [applyFirst_eq_specApply _ sps hs, h e he]
  | panic s => simp [rewritesAll] at h
  | unmodelled => simp [rewritesAll] at h

theorem caseForms_holds (o : Outcome) (pick : State → List inflection)
    (corpus : List (String × String))
    (h : o.Holds fun s => ∀ e ∈ caseForms corpus, applyFirst (pick s) e.1 = e.2) :
    o.Holds fun s => ∀ e ∈ corpus,
      applyFirst (pick s) e.1 = e.2 ∧ applyFirst (pick s) (ToUpper e.1) = ToUpper e.2 ∧
        applyFirst (pick s) (Title e.1) = Title e.2 := by
  cases o with
  | done s =>
    intro e he
    have hm : ∀ x ∈ [(e.1, e.2), (ToUpper e.1, ToUpper e.2), (Title e.1, Title e.2)],
        x ∈ caseForms corpus := by
      intro x hx
      exact List.mem_flatMap.mpr ⟨e, he, hx⟩
    exact ⟨h (e.1, e.2) (hm _ (by simp)), h (ToUpper e.1, ToUpper e.2) (hm _ (by simp)),
      h (Title e.1, Title e.2) (hm _ (by simp))⟩
  | panic s => exact h
  | unmodelled => exact h

/-! ## C1 and C2: the test corpus -/

/-! ## C3: the first matcher that matches decides -/

/-- C3. First hit wins, and no match means no change: in every state and for
every word, `Plural` returns the word when no matcher of the compiled plural
list matches it, and otherwise the substitution of the first matcher of the
list that matches, whatever follows that matcher in the list; the same holds
for `Singular` and the compiled singular list. -/
theorem first_hit_wins (s : State) (w : String) :
    (Plural s w =
        match s.compiledPluralMaps.find? (fun m => m.regexp.MatchString w) with
        | none => w
        | some m => m.regexp.ReplaceAllString w m.replace) ∧
    (Singular s w =
        match s.compiledSingularMaps.find? (fun m => m.regexp.MatchString w) with
        | none => w
        | some m => m.regexp.ReplaceAllString w m.replace) ∧
    ((∀ m ∈ s.compiledPluralMaps, m.regexp.MatchString w = false) → Plural s w = w) ∧
    ((∀ m ∈ s.compiledSingularMaps, m.regexp.MatchString w = false) → Singular s w = w) ∧
    (∀ before m after, s.compiledPluralMaps = before ++ m :: after →
        (∀ x ∈ before, x.regexp.MatchString w = false) → m.regexp.MatchString w = true →
        Plural s w = m.regexp.ReplaceAllString w m.replace ∧
          ∀ other, Plural { s with compiledPluralMaps := before ++ m :: other } w = Plural s w) ∧
    (∀ before m after, s.compiledSingularMaps = before ++ m :: after →
        (∀ x ∈ before, x.regexp.MatchString w = false) → m.regexp.MatchString w = true →
        Singular s w = m.regexp.ReplaceAllString w m.replace ∧
          ∀ other, Singular { s with compiledSingularMaps := before ++ m :: other } w =
            Singular s w) := by
  have key : ∀ (before : List inflection) (m : inflection) (after : List inflection),
      (∀ x ∈ before, x.regexp.MatchString w = false) → m.regexp.MatchString w = true →
      applyFirst (before ++ m :: after) w = m.regexp.ReplaceAllString w m.replace := by
    intro before m after hb hm
    rw [applyFirst_append_of_none _ _ _ hb, applyFirst_cons_of_match _ _ _ hm]
  refine ⟨applyFirst_eq_find _ _, applyFirst_eq_find _ _, ?_, ?_, ?_, ?_⟩
  · intro h
    simpa using applyFirst_append_of_none s.compiledPluralMaps [] w h
  · intro h
    simpa using applyFirst_append_of_none s.compiledSingularMaps [] w h
  · intro before m after hl hb hm
    simp only [Plural, hl]
    exact ⟨key before m after hb hm, fun other => by rw [key _ _ other hb hm, key _ _ after hb hm]⟩
  · intro before m after hl hb hm
    simp only [Singular, hl]
    exact ⟨key before m after hb hm, fun other => by rw [key _ _ other hb hm, key _ _ after hb hm]⟩

/-! ## C10: the rule added last is tried first -/

theorem regularMatchers_eq_ok (v : Regular) (l : List inflection) :
    regularMatchers v = .ok l ↔
      ∃ r1 r2 r3, asciiString v.replace = true ∧ Regexp.parse (ToUpper v.find) = .ok r1 ∧
        Regexp.parse v.find = .ok r2 ∧ Regexp.parse ("(?i)" ++ v.find) = .ok r3 ∧
        l = [⟨r1, ToUpper v.replace⟩, ⟨r2, v.replace⟩, ⟨r3, v.replace⟩] := by
  simp only [regularMatchers]
  cases asciiString v.replace with
  | false => simp
  | true =>
    simp only [Bool.not_true, Bool.false_eq_true, ↓reduceIte, true_and]
    cases Regexp.parse (ToUpper v.find) with
    | error e => simp
    | ok r1 =>
      cases Regexp.parse v.find with
      | error e => simp
      | ok r2 =>
        cases Regexp.parse ("(?i)" ++ v.find) with
        | error e => simp
        | ok r3 => simp [eq_comm]

theorem irregularMatchers_eq_ok (src dst : String) (l : List inflection) :
    irregularMatchers src dst = .ok l ↔
      ∃ r1 r2 r3, Regexp.parse (ToUpper src ++ "$") = .ok r1 ∧
        Regexp.parse (Title src ++ "$") = .ok r2 ∧ Regexp.parse (src ++ "$") = .ok r3 ∧
        l = [⟨r1, ToUpper dst⟩, ⟨r2, Title dst⟩, ⟨r3, dst⟩] := by
  simp only [irregularMatchers]
  cases Regexp.parse (ToUpper src ++ "$") with
  | error e => simp
  | ok r1 =>
    cases Regexp.parse (Title src ++ "$") with
    | error e => simp
    | ok r2 =>
      cases Regexp.parse (src ++ "$") with
      | error e => simp
      | ok r3 => simp [eq_comm]

theorem uncountableMatchers_eq_ok (u : String) (l : List inflection) :
    uncountableMatchers u = .ok l ↔
      ∃ r, Regexp.parse ("^(?i)(" ++ u ++ ")$") = .ok r ∧ l = [⟨r, "${1}"⟩] := by
  simp only [uncountableMatchers]
  cases Regexp.parse ("^(?i)(" ++ u ++ ")$") with
  | error e => simp
  | ok r => simp [eq_comm]

/-- The compiled list after a rule was appended to a regular table: the new
rule's matchers come first among the regular ones. -/
theorem collect_reverse_snoc (xs : List Regular) (v : Regular) (c : List inflection) :
    collect regularMatchers (xs ++ [v]).reverse = .ok c ↔
      ∃ n old, regularMatchers v = .ok n ∧ collect regularMatchers xs.reverse = .ok old ∧
        c = n ++ old := by
  simp only [List.reverse_append, List.reverse_cons, List.reverse_nil, List.nil_append,
    List.singleton_append, collect]
  cases regularMatchers v with
  | error e => simp
  | ok n =>
    cases collect regularMatchers xs.reverse with
    | error e => simp
    | ok old => simp [eq_comm]

/-- C10. Override ordering of regular rules: in every state, when
`AddPlural(find, replace)` returns, the compiled plural list is the
uncountable matchers, then the irregular matchers, then the three case
variants of the new rule, then the matchers of the rules registered before,
in the order `compile` gave them before the call; so a word that no
uncountable or irregular matcher matches and that a variant of the new rule
matches is rewritten by the new rule, whatever the older rules say.  The same
holds for `AddSingular` and `Singular`. -/
theorem add_rule_overrides (s : State) (find replace : String) :
    (∀ t, AddPlural s find replace = .done t →
      ∃ u ip old r1 r2 r3,
        collect uncountableMatchers s.uncountableInflections = .ok u ∧
        collect (fun v : Irregular => irregularMatchers v.singular v.plural)
          s.irregularInflections = .ok ip ∧
        collect regularMatchers s.pluralInflections.reverse = .ok old ∧
        Regexp.parse (ToUpper find) = .ok r1 ∧ Regexp.parse find = .ok r2 ∧
        Regexp.parse ("(?i)" ++ find) = .ok r3 ∧
        t.compiledPluralMaps =
          u ++ ip ++ [⟨r1, ToUpper replace⟩, ⟨r2, replace⟩, ⟨r3, replace⟩] ++ old ∧
        t.pluralInflections = s.pluralInflections ++ [⟨find, replace⟩] ∧
        (∀ s0, compile s = .done s0 → s0.compiledPluralMaps = u ++ ip ++ old) ∧
        ∀ w, (∀ m ∈ u ++ ip, m.regexp.MatchString w = false) →
          (∃ m ∈ [(⟨r1, ToUpper replace⟩ : inflection), ⟨r2, replace⟩, ⟨r3, replace⟩],
            m.regexp.MatchString w = true) →
          Plural t w = applyFirst [⟨r1, ToUpper replace⟩, ⟨r2, replace⟩, ⟨r3, replace⟩] w) ∧
    (∀ t, AddSingular s find replace = .done t →
      ∃ u is old r1 r2 r3,
        collect uncountableMatchers s.uncountableInflections = .ok u ∧
        collect (fun v : Irregular => irregularMatchers v.plural v.singular)
          s.irregularInflections = .ok is ∧
        collect regularMatchers s.singularInflections.reverse = .ok old ∧
        Regexp.parse (ToUpper find) = .ok r1 ∧ Regexp.parse find = .ok r2 ∧
        Regexp.parse ("(?i)" ++ find) = .ok r3 ∧
        t.compiledSingularMaps =
          u ++ is ++ [⟨r1, ToUpper replace⟩, ⟨r2, replace⟩, ⟨r3, replace⟩] ++ old ∧
        t.singularInflections = s.singularInflections ++ [⟨find, replace⟩] ∧
        (∀ s0, compile s = .done s0 → s0.compiledSingularMaps = u ++ is ++ old) ∧
        ∀ w, (∀ m ∈ u ++ is, m.regexp.MatchString w = false) →
          (∃ m ∈ [(⟨r1, ToUpper replace⟩ : inflection), ⟨r2, replace⟩, ⟨r3, replace⟩],
            m.regexp.MatchString w = true) →
          Singular t w = applyFirst [⟨r1, ToUpper replace⟩, ⟨r2, replace⟩, ⟨r3, replace⟩] w) := by
  constructor
  · intro t ht
    simp only [AddPlural, compile_eq_done] at ht
    obtain ⟨u, ip, is, rp, rs, hu, hip, his, hrp, hrs, rfl⟩ := ht
    obtain ⟨n, old, hn, hold, rfl⟩ := (collect_reverse_snoc _ _ _).mp hrp
    obtain ⟨r1, r2, r3, _, h1, h2, h3, rfl⟩ := (regularMatchers_eq_ok _ _).mp hn
    refine ⟨u, ip, old, r1, r2, r3, hu, hip, hold, h1, h2, h3, ?_, rfl, ?_, ?_⟩
    · simp [List.append_assoc]
    · intro s0 hs0
      obtain ⟨u', ip', is', rp', rs', hu', hip', his', hrp', hrs', rfl⟩ :=
        (compile_eq_done _ _).mp hs0
      rw [hu] at hu'; rw [hip] at hip'; rw [hold] at hrp'
      simp only [Except.ok.injEq] at hu' hip' hrp'
      simp [hu', hip', hrp']
    · intro w hnone hsome
      simp only [Plural, ← List.append_assoc]
      rw [List.append_assoc (u ++ ip), applyFirst_append_of_none _ _ _ hnone,
        applyFirst_append_of_some _ _ _ hsome]
  · intro t ht
    simp only [AddSingular, compile_eq_done] at ht
    obtain ⟨u, ip, is, rp, rs, hu, hip, his, hrp, hrs, rfl⟩ := ht
    obtain ⟨n, old, hn, hold, rfl⟩ := (collect_reverse_snoc _ _ _).mp hrs
    obtain ⟨r1, r2, r3, _, h1, h2, h3, rfl⟩ := (regularMatchers_eq_ok _ _).mp hn
    refine ⟨u, is, old, r1, r2, r3, hu, his, hold, h1, h2, h3, ?_, rfl, ?_, ?_⟩
    · simp [List.append_assoc]
    · intro s0 hs0
      obtain ⟨u', ip', is', rp', rs', hu', hip', his', hrp', hrs', rfl⟩ :=
        (compile_eq_done _ _).mp hs0
      rw [hu] at hu'; rw [his] at his'; rw [hold] at hrs'
      simp only [Except.ok.injEq] at hu' his' hrs'
      simp [hu', his', hrs']
    · intro w hnone hsome
      simp only [Singular, ← List.append_assoc]
      rw [List.append_assoc (u ++ is), applyFirst_append_of_none _ _ _ hnone,
        applyFirst_append_of_some _ _ _ hsome]

theorem Outcome.holds_state (o : Outcome) (p : State → Prop) (h : o.Holds p) :
    o = .done o.state ∧ p o.state := by
  cases o with
  | done s => exact ⟨rfl, h⟩
  | panic s => exact absurd h (by simp [Outcome.Holds])
  | unmodelled => exact absurd h (by simp [Outcome.Holds])

/-! ## C4: irregular pairs as suffixes -/

theorem acceptsAll_append_of_le (as : List Atom) (sr xr : List Char)
    (h : as.length ≤ sr.length) : acceptsAll as (sr ++ xr) = acceptsAll as sr := by
  induction as generalizing sr with
  | nil => simp [acceptsAll]
  | cons a as ih =>
    cases sr with
    | nil => simp at h
    | cons c cs =>
      simp only [List.cons_append, acceptsAll, List.append_eq]
      rw [ih cs (by simpa using h)]

theorem acceptsAll_take_of_append (as : List Atom) (sr xr : List Char)
    (h : acceptsAll as (sr ++ xr) = true) : acceptsAll (as.take sr.length) sr = true := by
  induction as generalizing sr with
  | nil => simp [acceptsAll]
  | cons a as ih =>
    cases sr with
    | nil => simp [acceptsAll]
    | cons c cs =>
      simp only [List.cons_append, acceptsAll, Bool.and_eq_true, List.append_eq] at h
      simp only [List.length_cons, List.take_succ_cons, acceptsAll, Bool.and_eq_true]
      exact ⟨h.1, ih cs h.2⟩

theorem acceptsAll_false_of_short (as : List Atom) (sr : List Char)
    (h : sr.length < as.length) : acceptsAll as sr = false := by
  cases hb : acceptsAll as sr with
  | false => rfl
  | true => have := acceptsAll_length _ _ hb; omega

theorem TPath.hit_append (t : TPath) (sr xr : List Char) (h : t.stable sr sr.length = true) :
    t.hit (sr ++ xr) (sr.length + xr.length) = t.hit sr sr.length := by
  simp only [TPath.stable] at h
  simp only [TPath.hit]
  by_cases h1 : t.atomsRev.length < sr.length
  · rw [acceptsAll_append_of_le _ _ _ (by omega)]
    have e1 : (t.atomsRev.length == sr.length + xr.length) = false := by
      simp; omega
    have e2 : (t.atomsRev.length == sr.length) = false := by
      simp; omega
    rw [e1, e2]
  · simp only [h1, ↓reduceIte] at h
    by_cases h2 : t.atomsRev.length = sr.length
    · simp only [h2, beq_self_eq_true, ↓reduceIte, Bool.or_eq_true, Bool.not_eq_true'] at h
      rw [acceptsAll_append_of_le _ _ _ (by omega)]
      rcases h with h | h
      · simp [h]
      · simp [h]
    · have h3 : (t.atomsRev.length == sr.length) = false := by simpa using h2
      simp only [h3, Bool.false_eq_true, ↓reduceIte, Bool.not_eq_true'] at h
      have e1 : acceptsAll t.atomsRev sr = false := acceptsAll_false_of_short _ _ (by omega)
      have e2 : acceptsAll t.atomsRev (sr ++ xr) = false := by
        cases hb : acceptsAll t.atomsRev (sr ++ xr) with
        | false => rfl
        | true => rw [acceptsAll_take_of_append _ _ _ hb] at h; simp at h
      simp [e1, e2]

theorem capOf_shiftCaps (d : Nat) (m : Caps) (n : Nat) :
    capOf (shiftCaps d m) n = (capOf m n).map fun b => (b.1 + d, b.2 + d) := by
  induction m with
  | nil => rfl
  | cons e m ih =>
    simp only [capOf, shiftCaps, List.map_cons, List.find?] at ih ⊢
    by_cases h : e.1 = n
    · simp [h]
    · have : (e.1 == n) = false := by simpa using h
      simp only [this]
      exact ih

theorem slice_append_shift (x s : List Char) (lo hi : Nat) :
    slice (x ++ s) (lo + x.length) (hi + x.length) = slice s lo hi := by
  simp only [slice]
  rw [show lo + x.length = x.length + lo by omega, ← List.drop_drop, List.drop_left]
  congr 1
  omega

theorem expand_shift (x s : List Char) (m : Caps) (fuel : Nat) (tmpl : List Char) :
    expand (x ++ s) (shiftCaps x.length m) fuel tmpl = expand s m fuel tmpl := by
  induction fuel generalizing tmpl with
  | zero => rfl
  | succ fuel ih =>
    simp only [expand]
    split
    · rfl
    · rename_i after _
      congr 1
      split
      · rw [ih]
      · rename_i c t
        split
        · rw [ih]
        · split
          · rw [ih]
          · rename_i num rest _
            rw [ih]
            congr 1
            cases num with
            | none => rfl
            | some n =>
              simp only [capOf_shiftCaps]
              cases capOf m n with
              | none => rfl
              | some b => simp [slice_append_shift]

theorem tailSearch_append (ts : List TPath) (x s : List Char)
    (h : ts.all (fun t => t.stable s.reverse s.length) = true) :
    tailSearch ts (x ++ s) = (tailSearch ts s).map (shiftCaps x.length) := by
  simp only [tailSearch, List.reverse_append, List.length_append]
  have hb : best (fun t => t.hit (s.reverse ++ x.reverse) (x.length + s.length)) ts =
      best (fun t => t.hit s.reverse s.length) ts := by
    apply best_congr
    intro t ht
    have hs := List.all_eq_true.mp h t ht
    have := TPath.hit_append t s.reverse x.reverse (by simpa using hs)
    simpa [Nat.add_comm] using this
  rw [hb]
  cases hbest : best (fun t => t.hit s.reverse s.length) ts with
  | none => rfl
  | some t =>
    obtain ⟨_, hhit⟩ := best_mem _ _ _ hbest
    simp only [TPath.hit, Bool.and_eq_true] at hhit
    have hle := acceptsAll_length _ _ hhit.1
    simp only [List.length_reverse] at hle
    simp only [Option.map_some', TPath.capsAt, shiftCaps, List.map_cons, List.map_map,
      Option.some.injEq, List.cons.injEq, Prod.mk.injEq, true_and]
    refine ⟨⟨by omega, by omega⟩, ?_⟩
    apply List.map_congr_left
    intro e _
    simp only [Function.comp_apply, Prod.mk.injEq, true_and]
    constructor <;> omega

theorem matchBounds_shiftCaps (d : Nat) (m : Caps) (b : Nat × Nat) (h : capOf m 0 = some b) :
    matchBounds (shiftCaps d m) = ((matchBounds m).1 + d, (matchBounds m).2 + d) := by
  simp [matchBounds, capOf_shiftCaps, h]

theorem tailSearch_capOf (ts : List TPath) (w : List Char) (m : Caps)
    (h : tailSearch ts w = some m) : ∃ b, capOf m 0 = some b := by
  simp only [tailSearch, Option.map_eq_some'] at h
  obtain ⟨t, _, rfl⟩ := h
  exact ⟨(w.length - t.atomsRev.length, w.length), by simp [TPath.capsAt, capOf]⟩

/-- Locality, one matcher: a matcher stable on a suffix rewrites every word
ending in the suffix by rewriting the suffix. -/
theorem Spec.apply_append (sp : Spec) (x s : List Char) (h : sp.stable s = true) :
    sp.apply (x ++ s) = (sp.apply s).map fun r => x ++ r := by
  obtain ⟨shape, repl⟩ := sp
  cases shape with
  | head hs => simp [Spec.stable] at h
  | tail ts =>
    simp only [Spec.stable] at h
    simp only [Spec.apply, Shape.search, tailSearch_append ts x s h]
    cases hm : tailSearch ts s with
    | none => rfl
    | some m =>
      obtain ⟨b, hb⟩ := tailSearch_capOf ts s m hm
      simp only [Option.map_some', matchBounds_shiftCaps _ _ _ hb, expand_shift,
        Option.some.injEq]
      have e1 : slice (x ++ s) 0 ((matchBounds m).1 + x.length) = x ++ slice s 0 (matchBounds m).1 := by
        simp only [slice, List.drop_zero, Nat.sub_zero]
        rw [Nat.add_comm, List.take_append]
      have e2 : List.drop ((matchBounds m).2 + x.length) (x ++ s) = List.drop (matchBounds m).2 s := by
        rw [Nat.add_comm, ← List.drop_drop, List.drop_left]
      rw [e1, e2]
      simp [List.append_assoc]

/-- Locality: when the scan is decided by a suffix, every word ending in the
suffix is rewritten by rewriting the suffix. -/
theorem specApply_append (sps : List Spec) (x s : List Char) (h : stableUpTo sps s = true) :
    specApply sps (x ++ s) = x ++ specApply sps s := by
  induction sps with
  | nil => rfl
  | cons sp sps ih =>
    simp only [stableUpTo, Bool.and_eq_true, Bool.or_eq_true] at h
    simp only [specApply, Spec.apply_append sp x s h.1]
    cases hs : sp.apply s with
    | some r => rfl
    | none =>
      simp only [Option.map_none']
      apply ih
      rcases h.2 with h2 | h2
      · simp [hs] at h2
      · exact h2

theorem rewritesEnding_sound (o : Outcome) (pick : State → List inflection)
    (tests : List (String × String)) (h : rewritesEnding o pick tests = true) :
    o.Holds fun s => ∀ e ∈ tests, ∀ x : String, applyFirst (pick s) (x ++ e.1) = x ++ e.2 := by
  cases o with
  | done s =>
    simp only [rewritesEnding] at h
    cases hs : specs (pick s) with
    | none => simp [hs] at h
    | some sps =>
      simp only [hs, List.all_eq_true, Bool.and_eq_true, beq_iff_eq] at h
      intro e he x
      obtain ⟨h1, h2⟩ := h e he
      rw [applyFirst_eq_specApply _ sps hs, String.data_append, specApply_append sps _ _ h1, h2]
      rfl
  | panic s => simp [rewritesEnding] at h
  | unmodelled => simp [rewritesEnding] at h

theorem caseForms_mem (corpus : List (String × String)) (e : String × String) (he : e ∈ corpus) :
    (e.1, e.2) ∈ caseForms corpus ∧ (ToUpper e.1, ToUpper e.2) ∈ caseForms corpus ∧
      (Title e.1, Title e.2) ∈ caseForms corpus := by
  refine ⟨?_, ?_, ?_⟩ <;> exact List.mem_flatMap.mpr ⟨e, he, by simp⟩

/-! ## Parsing the patterns of plain words -/

theorem isLetter_toNat (c : Char) (h : isLetter c = true) :
    (65 ≤ c.toNat ∧ c.toNat ≤ 90) ∨ (97 ≤ c.toNat ∧ c.toNat ≤ 122) := by
  simp only [isLetter, isLower, isUpper, Bool.or_eq_true, Bool.and_eq_true, decide_eq_true_eq] at h
  omega

theorem beq_false_of_toNat (c d : Char) (h : c.toNat ≠ d.toNat) : (c == d) = false := by
  simp only [beq_eq_false_iff_ne, ne_eq]
  intro e
  exact h (by rw [e])

theorem parseNormal_letter (p : PState) (c : Char) (h : isLetter c = true) :
    parseStep.parseNormal p c =
      .ok { p with cur := { p.cur with items := .atom (.lit c p.fold) :: p.cur.items,
                                        rep := some true },
                   mode := .normal } := by
  have hn := isLetter_toNat c h
  have e : ∀ d : Char, (d.toNat < 65 ∨ (90 < d.toNat ∧ d.toNat < 97) ∨ 122 < d.toNat) →
      (c == d) = false := by
    intro d hd
    apply beq_false_of_toNat
    omega
  simp only [parseStep.parseNormal, PState.push,
    e '(' (by decide), e ')' (by decide), e '|' (by decide), e '^' (by decide),
    e '$' (by decide), e '.' (by decide), e '[' (by decide), e '?' (by decide),
    e '*' (by decide), e '+' (by decide), e '\\' (by decide), e '{' (by decide),
    e '}' (by decide), e ']' (by decide), Bool.false_eq_true, ↓reduceIte, Bool.or_self]

theorem isASCII_of_isLetter (c : Char) (h : isLetter c = true) : isASCII c = true := by
  have hn := isLetter_toNat c h
  simp only [isASCII, decide_eq_true_eq]
  omega

theorem parseStep_letter (p : PState) (c : Char) (h : isLetter c = true)
    (hm : p.mode = .normal) :
    parseStep p c = .ok (p.pushLits [c]) := by
  simp only [parseStep, isASCII_of_isLetter c h, hm, parseNormal_letter p c h]
  simp [PState.pushLits, hm]

theorem PState.pushLits_pushLits (p : PState) (a b : List Char) :
    (p.pushLits a).pushLits b = p.pushLits (a ++ b) := by
  simp only [PState.pushLits, List.reverse_append, List.map_append, List.append_assoc]
  cases a <;> cases b <;> simp

theorem parseChars_letters (p : PState) (cs : List Char) (h : lettersOnly cs = true)
    (hm : p.mode = .normal) : parseChars p cs = .ok (p.pushLits cs) := by
  induction cs generalizing p with
  | nil => simp [parseChars, PState.pushLits]
  | cons c cs ih =>
    simp only [lettersOnly, List.all_cons, Bool.and_eq_true] at h
    simp only [parseChars, parseStep_letter p c h.1 hm]
    rw [ih _ h.2 (by simp [PState.pushLits, hm]), PState.pushLits_pushLits]
    rfl

theorem parseChars_append (p : PState) (a b : List Char) :
    parseChars p (a ++ b) =
      match parseChars p a with
      | .ok q => parseChars q b
      | .error e => .error e := by
  induction a generalizing p with
  | nil => simp [parseChars]
  | cons c cs ih =>
    simp only [List.cons_append, parseChars]
    cases parseStep p c with
    | error e => rfl
    | ok q => exact ih q

theorem parseStep_paren_letter (p : PState) (c : Char) (h : isLetter c = true)
    (hm : p.mode = .paren) :
    parseStep p c = .ok (p.openGroup.pushLits [c]) := by
  have hq : (c == '?') = false := by
    apply beq_false_of_toNat
    have := isLetter_toNat c h
    have : '?'.toNat = 63 := by decide
    omega
  simp only [parseStep, isASCII_of_isLetter c h, hm, hq, Bool.not_true, Bool.false_eq_true,
    ↓reduceIte]
  exact (parseNormal_letter p.openGroup c h).trans (by simp [PState.pushLits, PState.openGroup])

theorem mkCat_paths_aux (as : List Atom) (r : Regexp) (items : List Item)
    (hr : r.paths = some [⟨items, []⟩]) :
    ((as.map Regexp.atom).foldl (fun acc y => Regexp.cat y acc) r).paths =
      some [⟨as.reverse.map Item.atom ++ items, []⟩] := by
  induction as generalizing r items with
  | nil => simpa using hr
  | cons a as ih =>
    simp only [List.map_cons, List.foldl_cons]
    rw [ih (.cat (.atom a) r) (Item.atom a :: items)]
    · simp
    · simp [Regexp.paths, hr, Path.append, shiftCaps]

theorem parse_word (cs : List Char) (h : lettersOnly cs = true) :
    Regexp.parse ⟨cs ++ ['$']⟩ = .ok (wordRe cs) := by
  simp only [Regexp.parse, parseChars_append, parseChars_letters PState.init cs h rfl]
  simp [parseChars, parseStep, parseStep.parseNormal, PState.pushLits, PState.init, PState.push,
    parseFinish, Frame.close, mkAlt, mkCat, wordRe, isASCII]

theorem parse_uncountable (cs : List Char) (h : lettersOnly cs = true) (hne : cs ≠ []) :
    Regexp.parse ⟨['^', '(', '?', 'i', ')', '('] ++ cs ++ [')', '$']⟩ =
      .ok (uncountableRe cs) := by
  cases cs with
  | nil => exact absurd rfl hne
  | cons c cs =>
    simp only [lettersOnly, List.all_cons, Bool.and_eq_true] at h
    have h0 : parseChars PState.init ['^', '(', '?', 'i', ')', '('] =
        .ok { stack := [], cur := ⟨[], [.bol], none, false, none⟩, fold := true, ncap := 0,
              mode := .paren } := by
      simp [parseChars, parseStep, parseStep.parseNormal, PState.init, PState.push, isASCII]
    have e : ['^', '(', '?', 'i', ')', '('] ++ c :: cs ++ [')', '$'] =
        ['^', '(', '?', 'i', ')', '('] ++ ([c] ++ (cs ++ [')', '$'])) := by simp
    simp only [Regexp.parse]
    rw [e, parseChars_append, h0]
    simp only []
    rw [parseChars_append]
    simp only [parseChars]
    rw [parseStep_paren_letter _ c h.1 rfl]
    simp only []
    rw [parseChars_append, parseChars_letters _ cs h.2 rfl]
    simp [parseChars, parseStep, parseStep.parseNormal, PState.pushLits, PState.openGroup,
      PState.push, parseFinish, Frame.close, mkAlt, mkCat, uncountableRe, isASCII]

theorem mkCat_lits_paths (as : List Atom) (h : as ≠ []) :
    (mkCat (as.reverse.map Regexp.atom)).paths = some [⟨as.map Item.atom, []⟩] := by
  cases hr : as.reverse with
  | nil => simp at hr; exact absurd hr h
  | cons x xs =>
    have has : as = xs.reverse ++ [x] := by
      have := congrArg List.reverse hr
      simpa using this
    simp only [List.map_cons, mkCat]
    rw [mkCat_paths_aux xs (.atom x) [Item.atom x] (by simp [Regexp.paths])]
    simp [has]

theorem atomsThenEol_atoms (as acc : List Atom) :
    atomsThenEol (as.map Item.atom ++ [Item.eol]) acc = some (as.reverse ++ acc) := by
  induction as generalizing acc with
  | nil => simp [atomsThenEol]
  | cons a as ih => simp [atomsThenEol, ih]

theorem startsWithBol_atoms (as : List Atom) (tl : List Item) :
    startsWithBol (as.map Item.atom ++ Item.eol :: tl) = false := by
  cases as <;> simp [startsWithBol]

theorem wordRe_shape (cs : List Char) (hne : cs ≠ []) :
    (wordRe cs).shape = some (.tail [⟨false, (litAtoms false cs).reverse, []⟩]) := by
  have hp : (wordRe cs).paths = some [⟨(litAtoms false cs).map Item.atom ++ [Item.eol], []⟩] := by
    have := mkCat_paths_aux (litAtoms false cs).reverse .eol [Item.eol] (by simp [Regexp.paths])
    simpa [wordRe, litAtoms, List.map_reverse] using this
  have hl : (litAtoms false cs).reverse ≠ [] := by simpa [litAtoms] using hne
  simp only [Regexp.shape, hp, allTail, Path.toTail, startsWithBol_atoms, Bool.false_eq_true,
    ↓reduceIte, atomsThenEol_atoms, List.append_nil]
  cases hr : (litAtoms false cs).reverse with
  | nil => exact absurd hr hl
  | cons a as => rfl

theorem uncountableRe_shape (cs : List Char) (hne : cs ≠ []) :
    (uncountableRe cs).shape =
      some (.tail [⟨true, (litAtoms true cs).reverse, [(1, 0, cs.length)]⟩]) := by
  have hl : litAtoms true cs ≠ [] := by simpa [litAtoms] using hne
  have hp : (uncountableRe cs).paths =
      some [⟨Item.bol :: ((litAtoms true cs).map Item.atom ++ [Item.eol]), [(1, 0, cs.length)]⟩] := by
    have e : cs.reverse.map (fun c => Regexp.atom (.lit c true)) =
        (litAtoms true cs).reverse.map Regexp.atom := by
      simp [litAtoms, Function.comp_def]
    have hlen : itemsLen ((litAtoms true cs).map Item.atom) = cs.length := by
      rw [itemsLen_atoms]; simp [litAtoms]
    simp only [uncountableRe, e, Regexp.paths, mkCat_lits_paths _ hl]
    simp [Path.append, shiftCaps, itemsLen, hlen]
  have hl2 : (litAtoms true cs).reverse ≠ [] := by simpa using hl
  simp only [Regexp.shape, hp, allTail, Path.toTail, startsWithBol, ↓reduceIte, List.tail_cons,
    atomsThenEol_atoms, List.append_nil]
  cases hr : (litAtoms true cs).reverse with
  | nil => exact absurd hr hl2
  | cons a as => rfl

theorem acceptsAll_lits_iff (cs xs : List Char) :
    acceptsAll (litAtoms false cs) xs = true ↔ cs <+: xs := by
  induction cs generalizing xs with
  | nil => simp [litAtoms, acceptsAll]
  | cons c cs ih =>
    cases xs with
    | nil => simp [litAtoms, acceptsAll]
    | cons x xs =>
      have ih' := ih xs
      simp only [litAtoms] at ih'
      simp only [litAtoms, List.map_cons, acceptsAll, Atom.accepts, Bool.and_eq_true, beq_iff_eq,
        ih', List.cons_prefix_cons]
      constructor
      · rintro ⟨h1, h2⟩; exact ⟨h1.symm, h2⟩
      · rintro ⟨h1, h2⟩; exact ⟨h1.symm, h2⟩

theorem best_singleton (f : TPath → Bool) (t : TPath) :
    best f [t] = if f t then some t else none := by
  simp [best]

theorem expand_plain (src : List Char) (m : Caps) (fuel : Nat) (tmpl : List Char)
    (h : '$' ∉ tmpl) : expand src m (fuel + 1) tmpl = tmpl := by
  have h1 : tmpl.takeWhile (fun c => c != '$') = tmpl := by
    rw [List.takeWhile_eq_self_iff]
    intro c hc
    simp only [bne_iff_ne, ne_eq]
    intro e; exact h (e ▸ hc)
  have h2 : tmpl.dropWhile (fun c => c != '$') = [] := by
    rw [List.dropWhile_eq_nil_iff]
    intro c hc
    simp only [bne_iff_ne, ne_eq]
    intro e; exact h (e ▸ hc)
  simp only [expand, h1, h2]

theorem litAtoms_length (fold : Bool) (cs : List Char) : (litAtoms fold cs).length = cs.length := by
  simp [litAtoms]

theorem litAtoms_reverse (fold : Bool) (cs : List Char) :
    (litAtoms fold cs).reverse = litAtoms fold cs.reverse := by
  simp [litAtoms]

/-- The matcher `word$` matches exactly the words ending in the word. -/
theorem wordSpec_apply_isSome (src dst w : List Char) :
    ((wordSpec src dst).apply w).isSome = true ↔ src <:+ w := by
  simp only [wordSpec, Spec.apply, Shape.search, tailSearch, best_singleton, TPath.hit,
    litAtoms_reverse, Bool.not_false, Bool.true_or, Bool.and_true]
  by_cases h : acceptsAll (litAtoms false src.reverse) w.reverse = true
  · simp only [h, ↓reduceIte, Option.map_some', Option.isSome_some, true_iff]
    have := (acceptsAll_lits_iff _ _).mp h
    exact List.reverse_prefix.mp this
  · simp only [h, Bool.false_eq_true, ↓reduceIte, Option.map_none', Option.isSome_none,
      false_iff]
    intro hs
    exact h ((acceptsAll_lits_iff _ _).mpr (List.reverse_prefix.mpr hs))

/-- The matcher `word$` with a replacement free of `$` replaces the ending. -/
theorem wordSpec_apply_append (src dst pre : List Char) (hd : '$' ∉ dst) :
    (wordSpec src dst).apply (pre ++ src) = some (pre ++ dst) := by
  have hs : src <:+ pre ++ src := List.suffix_append _ _
  have h : acceptsAll (litAtoms false src.reverse) (pre ++ src).reverse = true :=
    (acceptsAll_lits_iff _ _).mpr (List.reverse_prefix.mpr hs)
  simp only [wordSpec, Spec.apply, Shape.search, tailSearch, best_singleton, TPath.hit,
    litAtoms_reverse, h, Bool.not_false, Bool.true_or, Bool.and_true, ↓reduceIte,
    Option.map_some', TPath.capsAt, shiftCaps, List.map_nil, matchBounds, capOf, List.find?,
    beq_self_eq_true, litAtoms_length, List.length_reverse, List.length_append,
    Nat.add_sub_cancel, expand_plain _ _ _ _ hd, Option.some.injEq]
  simp [slice]

theorem foldEq_iff_acceptsExact (w cs : List Char) :
    acceptsExact (litAtoms true cs) w = true ↔ FoldEq w cs := by
  induction cs generalizing w with
  | nil => cases w <;> simp [litAtoms, acceptsExact, FoldEq]
  | cons c cs ih =>
    cases w with
    | nil => simp [litAtoms, acceptsExact, FoldEq]
    | cons x xs =>
      have ih' := ih xs
      simp only [litAtoms, FoldEq] at ih'
      simp [litAtoms, acceptsExact, Atom.accepts, FoldEq, ih']

theorem acceptsExact_eq (as : List Atom) (cs : List Char) :
    acceptsExact as cs = (acceptsAll as cs && (as.length == cs.length)) := by
  induction as generalizing cs with
  | nil => cases cs <;> simp [acceptsExact, acceptsAll]
  | cons a as ih =>
    cases cs with
    | nil => simp [acceptsExact, acceptsAll]
    | cons c cs => simp [acceptsExact, acceptsAll, ih, Bool.and_assoc]

theorem uncountable_hit_iff (cs w : List Char) :
    (⟨true, (litAtoms true cs).reverse, [(1, 0, cs.length)]⟩ : TPath).hit w.reverse w.length = true ↔
      FoldEq w cs := by
  rw [← foldEq_iff_acceptsExact, acceptsExact_iff, ← List.forall₂_reverse_iff, ← acceptsExact_iff,
    acceptsExact_eq]
  simp [TPath.hit]

theorem FoldEq.length_eq {w cs : List Char} (h : FoldEq w cs) : w.length = cs.length :=
  List.Forall₂.length_eq h

theorem expand_group_one (w : List Char) :
    expand w [(0, 0, w.length), (1, 0, w.length)] 5 ['$', '{', '1', '}'] = w := by
  have e1 : ('$' != '$') = false := by decide
  have e2 : ('{' == '$') = false := by decide
  have e3 : ('{' == '{') = true := by decide
  have e4 : isWordChar '1' = true := by decide
  have e5 : isWordChar '}' = false := by decide
  have e6 : ('}' == '}') = true := by decide
  have e7 : ('1' == '0') = false := by decide
  have e8 : isDigit '1' = true := by decide
  have e9 : '1'.toNat - 48 = 1 := by decide
  simp [expand, extract, List.takeWhile, List.dropWhile, e1, e2, e3, e4, e5, e6, e7, e8, e9,
    nameNum, capOf, slice]

/-- The matcher `^(?i)(word)$` matches the words equal to the word up to
case folding, and leaves them as they are. -/
theorem uncountableSpec_apply (cs w : List Char) :
    ((uncountableSpec cs).apply w = some w ∧ FoldEq w cs) ∨
      ((uncountableSpec cs).apply w = none ∧ ¬ FoldEq w cs) := by
  by_cases h : FoldEq w cs
  · left
    refine ⟨?_, h⟩
    have hh := (uncountable_hit_iff cs w).mpr h
    have hl := h.length_eq
    have hs : tailSearch [(⟨true, (litAtoms true cs).reverse, [(1, 0, cs.length)]⟩ : TPath)] w =
        some [(0, 0, w.length), (1, 0, w.length)] := by
      simp only [tailSearch, best_singleton, hh, ↓reduceIte, Option.map_some', TPath.capsAt,
        List.length_reverse, litAtoms_length, shiftCaps, List.map_cons, List.map_nil]
      simp [hl]
    have h5 : "${1}".data.length + 1 = 5 := by decide
    simp only [uncountableSpec, Spec.apply, Shape.search, hs, h5, expand_group_one, matchBounds,
      capOf, List.find?, beq_self_eq_true, Option.some.injEq]
    simp [slice]
  · right
    refine ⟨?_, h⟩
    have hh : (⟨true, (litAtoms true cs).reverse, [(1, 0, cs.length)]⟩ : TPath).hit w.reverse
        w.length = false := by
      cases hb : (⟨true, (litAtoms true cs).reverse, [(1, 0, cs.length)]⟩ : TPath).hit w.reverse
        w.length with
      | false => rfl
      | true => exact absurd ((uncountable_hit_iff cs w).mp hb) h
    simp [uncountableSpec, Spec.apply, Shape.search, tailSearch, best_singleton, hh]

/-! ## Characters and case -/

theorem toNat_ofNat_small (n : Nat) (h : n < 55296) : (Char.ofNat n).toNat = n := by
  have hv : n.isValidChar := Or.inl h
  simp only [Char.ofNat, hv, ↓reduceDIte, Char.ofNatAux, Char.toNat]
  show (UInt32.toNat ⟨⟨n, _⟩⟩) = n
  rfl

theorem upperChar_toNat (c : Char) :
    (upperChar c).toNat = if isLower c then c.toNat - 32 else c.toNat := by
  simp only [upperChar]
  split
  · rename_i h
    simp only [isLower, Bool.and_eq_true, decide_eq_true_eq] at h
    exact toNat_ofNat_small _ (by omega)
  · rfl

theorem lowerChar_toNat (c : Char) :
    (lowerChar c).toNat = if isUpper c then c.toNat + 32 else c.toNat := by
  simp only [lowerChar]
  split
  · rename_i h
    simp only [isUpper, Bool.and_eq_true, decide_eq_true_eq] at h
    exact toNat_ofNat_small _ (by omega)
  · rfl

theorem foldKey_toNat (c : Char) :
    (foldKey c).toNat =
      if isUpper c then c.toNat + 32
      else if c.toNat = 0x17F then 115 else if c.toNat = 0x212A then 107 else c.toNat := by
  simp only [foldKey]
  split
  · rename_i h
    simp only [isUpper, Bool.and_eq_true, decide_eq_true_eq] at h
    exact toNat_ofNat_small _ (by omega)
  · split
    · rename_i h; simp only [beq_iff_eq] at h; simp [h]
    · rename_i h
      simp only [beq_iff_eq] at h
      simp only [h, ↓reduceIte]
      split
      · rename_i h2; simp only [beq_iff_eq] at h2; simp [h2]
      · rename_i h2; simp only [beq_iff_eq] at h2; simp [h2]

theorem char_eq_of_toNat (c d : Char) (h : c.toNat = d.toNat) : c = d := by
  rw [← Char.ofNat_toNat c, ← Char.ofNat_toNat d, h]

theorem isLetter_upperChar (c : Char) (h : isLetter c = true) : isLetter (upperChar c) = true := by
  have hu := upperChar_toNat c
  have hn := isLetter_toNat c h
  simp only [isLetter, isLower, isUpper, Bool.or_eq_true, Bool.and_eq_true, decide_eq_true_eq] at *
  split at hu <;> omega

theorem lettersOnly_upperChars (cs : List Char) (h : lettersOnly cs = true) :
    lettersOnly (upperChars cs) = true := by
  simp only [lettersOnly, upperChars, List.all_map, List.all_eq_true, Function.comp_apply] at *
  intro c hc
  exact isLetter_upperChar c (h c hc)

theorem isSeparator_letter (c : Char) (h : isLetter c = true) : isSeparator c = false := by
  simp [isSeparator, h]

theorem titleChars_letters (prev : Char) (cs : List Char) (hp : isLetter prev = true)
    (h : lettersOnly cs = true) : titleChars prev cs = cs := by
  induction cs generalizing prev with
  | nil => rfl
  | cons c cs ih =>
    simp only [lettersOnly, List.all_cons, Bool.and_eq_true] at h
    simp only [titleChars, isSeparator_letter prev hp, Bool.false_eq_true, ↓reduceIte]
    rw [ih c h.1 h.2]

theorem titleChars_word (c : Char) (cs : List Char) (h : lettersOnly (c :: cs) = true) :
    titleChars ' ' (c :: cs) = upperChar c :: cs := by
  simp only [lettersOnly, List.all_cons, Bool.and_eq_true] at h
  have hs : isSeparator ' ' = true := by decide
  simp only [titleChars, hs, ↓reduceIte]
  rw [titleChars_letters c cs h.1 h.2]

theorem lettersOnly_titleChars (cs : List Char) (h : lettersOnly cs = true) :
    lettersOnly (titleChars ' ' cs) = true := by
  cases cs with
  | nil => rfl
  | cons c cs =>
    rw [titleChars_word c cs h]
    simp only [lettersOnly, List.all_cons, Bool.and_eq_true] at h ⊢
    exact ⟨isLetter_upperChar c h.1, h.2⟩

/-! ## C5: uncountable words -/

theorem parse_uncountable_any (cs : List Char) (h : lettersOnly cs = true) :
    Regexp.parse ⟨['^', '(', '?', 'i', ')', '('] ++ cs ++ [')', '$']⟩ =
      .ok (uncountableRe cs) := by
  cases cs with
  | nil =>
    simp [Regexp.parse, parseChars, parseStep, parseStep.parseNormal, PState.init, PState.push,
      isASCII, parseFinish, Frame.close, mkAlt, mkCat, uncountableRe]
  | cons c cs => exact parse_uncountable (c :: cs) h (by simp)

/-- The matcher of an uncountable word made of letters. -/
theorem uncountableMatchers_letters (v : String) (h : lettersOnly v.data = true) :
    uncountableMatchers v = .ok [⟨uncountableRe v.data, "${1}"⟩] := by
  have e : ("^(?i)(" ++ v ++ ")$" : String) =
      ⟨['^', '(', '?', 'i', ')', '('] ++ v.data ++ [')', '$']⟩ := by
    apply String.ext
    simp [String.data_append]
  simp only [uncountableMatchers, e, parse_uncountable_any v.data h]

/-- The three matchers of a pair whose source word is made of letters. -/
theorem irregularMatchers_letters (src dst : String) (h : lettersOnly src.data = true) :
    irregularMatchers src dst =
      .ok [⟨wordRe (upperChars src.data), ToUpper dst⟩, ⟨wordRe (titleChars ' ' src.data), Title dst⟩,
           ⟨wordRe src.data, dst⟩] := by
  have e1 : (ToUpper src ++ "$" : String) = ⟨upperChars src.data ++ ['$']⟩ := by
    apply String.ext; simp [String.data_append, ToUpper]
  have e2 : (Title src ++ "$" : String) = ⟨titleChars ' ' src.data ++ ['$']⟩ := by
    apply String.ext; simp [String.data_append, Title]
  have e3 : (src ++ "$" : String) = ⟨src.data ++ ['$']⟩ := by
    apply String.ext; simp [String.data_append]
  simp only [irregularMatchers, e1, e2, e3, parse_word _ (lettersOnly_upperChars _ h),
    parse_word _ (lettersOnly_titleChars _ h), parse_word _ h]

theorem matchAt_bol_pos (r : Regexp) (p : Nat) (hp : 0 < p) (rest : List Char) :
    (Regexp.cat .bol r).matchAt p rest = none := by
  have : p ≠ 0 := by omega
  simp [Regexp.matchAt, Regexp.run, this]

theorem search_bol_pos (r : Regexp) (rest : List Char) :
    ∀ p, 0 < p → (Regexp.cat .bol r).search p rest = none := by
  induction rest with
  | nil => intro p hp; simp [Regexp.search, matchAt_bol_pos r p hp]
  | cons c cs ih =>
    intro p hp
    simp only [Regexp.search, matchAt_bol_pos r p hp]
    exact ih (p + 1) (by omega)

theorem uncountableRe_spec (cs : List Char) (hne : cs ≠ []) :
    (⟨uncountableRe cs, "${1}"⟩ : inflection).spec = some (uncountableSpec cs) := by
  simp [inflection.spec, uncountableRe_shape cs hne, uncountableSpec]

theorem wordRe_spec (src : List Char) (dst : String) (hne : src ≠ []) :
    (⟨wordRe src, dst⟩ : inflection).spec = some (wordSpec src dst.data) := by
  simp [inflection.spec, wordRe_shape src hne, wordSpec]

/-- The matcher of an uncountable word made of letters leaves every word it
matches as it is, and matches the words equal to it up to case folding. -/
theorem uncountableRe_identity (cs : List Char) (w : String) :
    ((uncountableRe cs).MatchString w = true →
        (uncountableRe cs).ReplaceAllString w "${1}" = w) ∧
      (FoldEq w.data cs → (uncountableRe cs).MatchString w = true) := by
  by_cases hne : cs = []
  · subst hne
    obtain ⟨wd⟩ := w
    cases wd with
    | nil => exact ⟨fun _ => by decide, fun _ => by decide⟩
    | cons c cs =>
      have hm : (uncountableRe []).MatchString ⟨c :: cs⟩ = false := by
        simp only [Regexp.MatchString, uncountableRe, Regexp.search]
        rw [search_bol_pos _ cs 1 (by omega)]
        simp [Regexp.matchAt, Regexp.run, mkCat]
      refine ⟨fun h => by simp [hm] at h, fun h => ?_⟩
      simp [FoldEq] at h
  · have hsp := uncountableRe_spec cs hne
    have hms := inflection.matchString_spec _ _ hsp w
    simp only at hms
    rcases uncountableSpec_apply cs w.data with ⟨h1, h2⟩ | ⟨h1, h2⟩
    · refine ⟨fun _ => ?_, fun _ => by rw [hms, h1]; rfl⟩
      exact inflection.replace_spec _ _ hsp w _ h1
    · refine ⟨fun h => ?_, fun h => absurd h h2⟩
      rw [hms, h1] at h
      simp at h

theorem wordRe_matchString (src : List Char) (hne : src ≠ []) (w : String) :
    (wordRe src).MatchString w = true ↔ src <:+ w.data := by
  have hsp := wordRe_spec src "" hne
  have hms := inflection.matchString_spec _ _ hsp w
  simp only at hms
  rw [hms, wordSpec_apply_isSome]

theorem wordRe_replace (src : List Char) (dst : String) (hne : src ≠ []) (pre : List Char)
    (hd : '$' ∉ dst.data) :
    (wordRe src).ReplaceAllString ⟨pre ++ src⟩ dst = ⟨pre ++ dst.data⟩ :=
  inflection.replace_spec _ _ (wordRe_spec src dst hne) ⟨pre ++ src⟩ _
    (wordSpec_apply_append src dst.data pre hd)

/-- The function `compile` depends on the tables only: compiling the state it left gives
that state again. -/
theorem compile_idempotent (s t : State) (h : compile s = .done t) : compile t = .done t := by
  obtain ⟨u, ip, is, rp, rs, hu, hip, his, hrp, hrs, rfl⟩ := (compile_eq_done s t).mp h
  exact (compile_eq_done _ _).mpr ⟨u, ip, is, rp, rs, hu, hip, his, hrp, hrs, rfl⟩

theorem collect_cons_inv {α : Type} (mk : α → Except ParseError (List inflection)) (x : α)
    (xs : List α) (c : List inflection) (h : collect mk (x :: xs) = .ok c) :
    ∃ a b, mk x = .ok a ∧ collect mk xs = .ok b ∧ c = a ++ b := by
  simp only [collect] at h
  cases hx : mk x with
  | error e => simp [hx] at h
  | ok a =>
    cases hxs : collect mk xs with
    | error e => simp [hx, hxs] at h
    | ok b =>
      simp only [hx, hxs, Except.ok.injEq] at h
      exact ⟨a, b, rfl, rfl, h.symm⟩

theorem collect_uncountable_identity (vs : List String) (c : List inflection)
    (hv : ∀ v ∈ vs, lettersOnly v.data = true) (h : collect uncountableMatchers vs = .ok c) :
    ∀ m ∈ c, m.Identity := by
  induction vs generalizing c with
  | nil =>
    simp only [collect, Except.ok.injEq] at h
    subst h
    simp
  | cons v vs ih =>
    obtain ⟨a, b, ha, hb, rfl⟩ := collect_cons_inv _ _ _ _ h
    rw [uncountableMatchers_letters v (hv v (List.mem_cons_self _ _))] at ha
    simp only [Except.ok.injEq] at ha
    subst ha
    intro m hm
    rcases List.mem_append.mp hm with hm | hm
    · simp only [List.mem_singleton] at hm
      subst hm
      exact fun w => (uncountableRe_identity v.data w).1
    · exact ih b (fun x hx => hv x (List.mem_cons_of_mem _ hx)) hb m hm

theorem applyFirst_identity (l r : List inflection) (m : inflection) (w : String)
    (hl : ∀ x ∈ l, x.Identity) (hm : m.Identity) (hw : m.regexp.MatchString w = true) :
    applyFirst (l ++ m :: r) w = w := by
  induction l with
  | nil => simp [applyFirst, hw, hm w hw]
  | cons x l ih =>
    simp only [List.cons_append, applyFirst]
    split
    · rename_i hx
      exact hl x (List.mem_cons_self _ _) w hx
    · exact ih (fun y hy => hl y (List.mem_cons_of_mem _ hy))

theorem foldEq_of_sameCase (w u : List Char) (hu : lettersOnly u = true)
    (h : List.Forall₂ (fun x c => lowerChar x = lowerChar c) w u) : FoldEq w u := by
  induction h with
  | nil => exact List.Forall₂.nil
  | @cons x c xs cs hxc _ ih =>
    simp only [lettersOnly, List.all_cons, Bool.and_eq_true] at hu
    refine List.Forall₂.cons ?_ (ih hu.2)
    apply char_eq_of_toNat
    have h1 := congrArg Char.toNat hxc
    rw [lowerChar_toNat, lowerChar_toNat] at h1
    rw [foldKey_toNat, foldKey_toNat]
    have hc := isLetter_toNat c hu.1
    simp only [isUpper, Bool.and_eq_true, decide_eq_true_eq] at h1 ⊢
    split_ifs at h1 ⊢ <;> omega

/-- C5 (amended). Uncountable words are fixed points in any letter case: in
every state whose compiled lists are current, for every word `u` of the
uncountable table that consists only of ASCII letters and is preceded in the
table only by words of ASCII letters, and for every string `w` equal to `u`
up to ASCII letter case, `Plural(w) = w` and `Singular(w) = w`. -/
theorem uncountable_fixed_point (s : State) (hs : compile s = .done s)
    (before after : List String) (u : String)
    (htab : s.uncountableInflections = before ++ u :: after)
    (hb : ∀ v ∈ before, lettersOnly v.data = true) (hu : lettersOnly u.data = true)
    (w : String) (hw : List.Forall₂ (fun x c => lowerChar x = lowerChar c) w.data u.data) :
    Plural s w = w ∧ Singular s w = w := by
  obtain ⟨c, ip, is, rp, rs, hc, _, _, _, _, hst⟩ := (compile_eq_done s s).mp hs
  rw [htab] at hc
  obtain ⟨cb, cr, hcb, hcr, rfl⟩ := collect_append_inv _ _ _ _ hc
  obtain ⟨cu, ca, hcu, hca, rfl⟩ := collect_cons_inv _ _ _ _ hcr
  rw [uncountableMatchers_letters u hu] at hcu
  simp only [Except.ok.injEq] at hcu
  subst hcu
  have hid := collect_uncountable_identity before cb hb hcb
  have hm := uncountableRe_identity u.data w
  have hfold := foldEq_of_sameCase w.data u.data hu hw
  have key : ∀ r : List inflection,
      applyFirst (cb ++ (⟨uncountableRe u.data, "${1}"⟩ : inflection) :: r) w = w :=
    fun r => applyFirst_identity cb r _ w hid (fun w' => (uncountableRe_identity u.data w').1)
      (hm.2 hfold)
  have hp : s.compiledPluralMaps =
      cb ++ (⟨uncountableRe u.data, "${1}"⟩ : inflection) :: (ca ++ ip ++ rp) := by
    rw [hst]; simp [List.append_assoc]
  have hsg : s.compiledSingularMaps =
      cb ++ (⟨uncountableRe u.data, "${1}"⟩ : inflection) :: (ca ++ is ++ rs) := by
    rw [hst]; simp [List.append_assoc]
  exact ⟨by rw [Plural, hp]; exact key _, by rw [Singular, hsg]; exact key _⟩

theorem compile_tables (s t : State) (h : compile s = .done t) :
    t.pluralInflections = s.pluralInflections ∧ t.singularInflections = s.singularInflections ∧
      t.irregularInflections = s.irregularInflections ∧
      t.uncountableInflections = s.uncountableInflections := by
  obtain ⟨u, ip, is, rp, rs, _, _, _, _, _, rfl⟩ := (compile_eq_done s t).mp h
  exact ⟨rfl, rfl, rfl, rfl⟩

theorem collect_uncountable_letters (vs : List String)
    (hv : ∀ v ∈ vs, lettersOnly v.data = true) :
    collect uncountableMatchers vs =
      .ok (vs.map fun v => (⟨uncountableRe v.data, "${1}"⟩ : inflection)) := by
  induction vs with
  | nil => rfl
  | cons v vs ih =>
    simp only [collect, uncountableMatchers_letters v (hv v (List.mem_cons_self _ _)),
      ih (fun x hx => hv x (List.mem_cons_of_mem _ hx))]
    rfl

theorem collect_irregular_letters (tab : List Irregular) (src dst : Irregular → String)
    (hv : ∀ v ∈ tab, lettersOnly (src v).data = true) :
    collect (fun v => irregularMatchers (src v) (dst v)) tab =
      .ok (tab.flatMap fun v => wordMatchers (src v) (dst v)) := by
  induction tab with
  | nil => rfl
  | cons v vs ih =>
    simp only [collect, irregularMatchers_letters _ _ (hv v (List.mem_cons_self _ _)),
      ih (fun x hx => hv x (List.mem_cons_of_mem _ hx))]
    rfl

theorem specs_append (a b : List inflection) (x y : List Spec) (ha : specs a = some x)
    (hb : specs b = some y) : specs (a ++ b) = some (x ++ y) := by
  induction a generalizing x with
  | nil =>
    simp only [specs, Option.some.injEq] at ha
    subst ha
    simpa using hb
  | cons m ms ih =>
    simp only [specs, List.cons_append] at ha ⊢
    cases hm : m.spec with
    | none => simp [hm] at ha
    | some sp =>
      cases hms : specs ms with
      | none => simp [hm, hms] at ha
      | some sps =>
        simp only [hm, hms, Option.some.injEq] at ha
        subst ha
        simp [ih sps hms]

theorem specs_uncountable (vs : List String) (hv : ∀ v ∈ vs, v.data ≠ []) :
    specs (vs.map fun v => (⟨uncountableRe v.data, "${1}"⟩ : inflection)) =
      some (vs.map fun v => uncountableSpec v.data) := by
  induction vs with
  | nil => rfl
  | cons v vs ih =>
    simp only [List.map_cons, specs, uncountableRe_spec v.data (hv v (List.mem_cons_self _ _)),
      ih (fun x hx => hv x (List.mem_cons_of_mem _ hx))]

theorem titleChars_ne_nil (prev : Char) (cs : List Char) (h : cs ≠ []) :
    titleChars prev cs ≠ [] := by
  cases cs with
  | nil => exact absurd rfl h
  | cons c cs => simp [titleChars]

theorem specs_wordMatchers (src dst : String) (hne : src.data ≠ []) :
    specs (wordMatchers src dst) = some (wordSpecs src dst) := by
  have h1 : upperChars src.data ≠ [] := by simpa [upperChars] using hne
  have h2 := titleChars_ne_nil ' ' src.data hne
  simp only [wordMatchers, specs, wordRe_spec _ _ h1, wordRe_spec _ _ h2, wordRe_spec _ _ hne,
    wordSpecs]

theorem specs_irregular (tab : List Irregular) (src dst : Irregular → String)
    (hv : ∀ v ∈ tab, (src v).data ≠ []) :
    specs (tab.flatMap fun v => wordMatchers (src v) (dst v)) =
      some ((tab.map fun v => (src v, dst v)).flatMap fun e => wordSpecs e.1 e.2) := by
  induction tab with
  | nil => rfl
  | cons v vs ih =>
    simp only [List.flatMap_cons, List.map_cons]
    exact specs_append _ _ _ _ (specs_wordMatchers _ _ (hv v (List.mem_cons_self _ _)))
      (ih fun x hx => hv x (List.mem_cons_of_mem _ hx))

set_option maxRecDepth 1000000 in
/-- The built-in plural rules compile to matchers described by
`pluralRuleSpecs`. -/
theorem plural_rules_check : regularCheck pluralInflections pluralRuleSpecs = true := by
  decide!

set_option maxRecDepth 1000000 in
/-- The built-in singular rules compile to matchers described by
`singularRuleSpecs`. -/
theorem singular_rules_check : regularCheck singularInflections singularRuleSpecs = true := by
  decide!

theorem regularCheck_sound (rules : List Regular) (plain : List Spec)
    (h : regularCheck rules plain = true) :
    ∃ ms, collect regularMatchers rules.reverse = .ok ms ∧
      specs ms = some (plain.flatMap ruleSpecs) := by
  simp only [regularCheck] at h
  cases hc : collect regularMatchers rules.reverse with
  | error e => simp [hc] at h
  | ok ms =>
    simp only [hc, beq_iff_eq] at h
    exact ⟨ms, rfl, h⟩

theorem plainWord_iff (v : String) : plainWord v = true ↔ lettersOnly v.data = true ∧ v.data ≠ [] := by
  simp [plainWord, List.isEmpty_iff]

/-- The function `compile` on a state with the built-in regular rules and
with uncountable words and irregular pairs made of letters: it returns, and
the compiled lists have the descriptions `describe`. -/
theorem compile_describe (s : State) (hp : s.pluralInflections = pluralInflections)
    (hs : s.singularInflections = singularInflections)
    (hu : ∀ v ∈ s.uncountableInflections, plainWord v = true)
    (hi : ∀ v ∈ s.irregularInflections, plainWord v.singular = true ∧ plainWord v.plural = true) :
    ∃ t, compile s = .done t ∧
      specs t.compiledPluralMaps = some (describe s.uncountableInflections
        (s.irregularInflections.map fun v => (v.singular, v.plural)) pluralRuleSpecs) ∧
      specs t.compiledSingularMaps = some (describe s.uncountableInflections
        (s.irregularInflections.map fun v => (v.plural, v.singular)) singularRuleSpecs) := by
  obtain ⟨rp, hrp, hrps⟩ := regularCheck_sound _ _ plural_rules_check
  obtain ⟨rs, hrs, hrss⟩ := regularCheck_sound _ _ singular_rules_check
  have hu1 := collect_uncountable_letters s.uncountableInflections
    (fun v hv => ((plainWord_iff v).mp (hu v hv)).1)
  have hi1 := collect_irregular_letters s.irregularInflections (fun v => v.singular)
    (fun v => v.plural) (fun v hv => ((plainWord_iff _).mp (hi v hv).1).1)
  have hi2 := collect_irregular_letters s.irregularInflections (fun v => v.plural)
    (fun v => v.singular) (fun v hv => ((plainWord_iff _).mp (hi v hv).2).1)
  have su := specs_uncountable s.uncountableInflections
    (fun v hv => ((plainWord_iff v).mp (hu v hv)).2)
  have si1 := specs_irregular s.irregularInflections (fun v => v.singular) (fun v => v.plural)
    (fun v hv => ((plainWord_iff _).mp (hi v hv).1).2)
  have si2 := specs_irregular s.irregularInflections (fun v => v.plural) (fun v => v.singular)
    (fun v hv => ((plainWord_iff _).mp (hi v hv).2).2)
  refine ⟨_, (compile_eq_done s _).mpr ⟨_, _, _, rp, rs, hu1, hi1, hi2, by rw [hp]; exact hrp,
    by rw [hs]; exact hrs, rfl⟩, ?_, ?_⟩
  · exact specs_append _ _ _ _ (specs_append _ _ _ _ su si1) hrps
  · exact specs_append _ _ _ _ (specs_append _ _ _ _ su si2) hrss

/-- The package initialises: `init` returns, and its compiled lists have the
descriptions `pluralSpecs` and `singularSpecs`. -/
theorem init_describe :
    init = .done init.state ∧ specs init.state.compiledPluralMaps = some pluralSpecs ∧
      specs init.state.compiledSingularMaps = some singularSpecs := by
  obtain ⟨t, ht, h1, h2⟩ := compile_describe builtinState rfl rfl (by decide) (by decide)
  have hi : init = .done t := ht
  rw [hi]
  exact ⟨rfl, h1, h2⟩

/-- The description of the compiled lists of a state whose regular rules
have the descriptions `P` and `S`. -/
theorem compile_describe_rules (s : State) (P S : List Spec)
    (hp : regularCheck s.pluralInflections P = true)
    (hs : regularCheck s.singularInflections S = true)
    (hu : ∀ v ∈ s.uncountableInflections, plainWord v = true)
    (hi : ∀ v ∈ s.irregularInflections, plainWord v.singular = true ∧ plainWord v.plural = true) :
    ∃ t, compile s = .done t ∧
      specs t.compiledPluralMaps = some (describe s.uncountableInflections
        (s.irregularInflections.map fun v => (v.singular, v.plural)) P) ∧
      specs t.compiledSingularMaps = some (describe s.uncountableInflections
        (s.irregularInflections.map fun v => (v.plural, v.singular)) S) := by
  obtain ⟨rp, hrp, hrps⟩ := regularCheck_sound _ _ hp
  obtain ⟨rs, hrs, hrss⟩ := regularCheck_sound _ _ hs
  have hu1 := collect_uncountable_letters s.uncountableInflections
    (fun v hv => ((plainWord_iff v).mp (hu v hv)).1)
  have hi1 := collect_irregular_letters s.irregularInflections (fun v => v.singular)
    (fun v => v.plural) (fun v hv => ((plainWord_iff _).mp (hi v hv).1).1)
  have hi2 := collect_irregular_letters s.irregularInflections (fun v => v.plural)
    (fun v => v.singular) (fun v hv => ((plainWord_iff _).mp (hi v hv).2).1)
  have su := specs_uncountable s.uncountableInflections
    (fun v hv => ((plainWord_iff v).mp (hu v hv)).2)
  have si1 := specs_irregular s.irregularInflections (fun v => v.singular) (fun v => v.plural)
    (fun v hv => ((plainWord_iff _).mp (hi v hv).1).2)
  have si2 := specs_irregular s.irregularInflections (fun v => v.plural) (fun v => v.singular)
    (fun v hv => ((plainWord_iff _).mp (hi v hv).2).2)
  refine ⟨_, (compile_eq_done s _).mpr ⟨_, _, _, rp, rs, hu1, hi1, hi2, hrp, hrs, rfl⟩, ?_, ?_⟩
  · exact specs_append _ _ _ _ (specs_append _ _ _ _ su si1) hrps
  · exact specs_append _ _ _ _ (specs_append _ _ _ _ su si2) hrss

/-- The built-in uncountable words are plain words. -/
theorem uncountable_plain : ∀ v ∈ uncountableInflections, plainWord v = true := by decide

/-- The built-in irregular pairs are pairs of plain words. -/
theorem irregular_plain : ∀ v ∈ irregularInflections,
    plainWord v.singular = true ∧ plainWord v.plural = true := by decide

/-- The descriptions of a table of rules and of a rule appended to it. -/
theorem regularCheck_snoc (rules : List Regular) (plain : List Spec) (v : Regular) (p : Spec)
    (h : regularCheck rules plain = true) (hv : regularCheck [v] [p] = true) :
    regularCheck (rules ++ [v]) (p :: plain) = true := by
  obtain ⟨old, ho, hso⟩ := regularCheck_sound _ _ h
  obtain ⟨n, hn, hsn⟩ := regularCheck_sound _ _ hv
  have hn1 : regularMatchers v = .ok n :=
    (collect_singleton regularMatchers v n).mp (by simpa using hn)
  have hc := (collect_reverse_snoc rules v (n ++ old)).mpr ⟨n, old, hn1, ho, rfl⟩
  have hs := specs_append _ _ _ _ hsn hso
  simp only [regularCheck, hc, hs, List.flatMap_cons, List.flatMap_nil, List.append_nil,
    beq_self_eq_true]

set_option maxRecDepth 1000000 in
/-- The rule `("(bu)s$", "${1}ses")` compiles to the matchers that
`buRuleSpec` describes. -/
theorem bu_rule_check : regularCheck [⟨"(bu)s$", "${1}ses"⟩] [buRuleSpec] = true := by decide!

set_option maxRecDepth 1000000 in
/-- With the rule `("(bu)s$", "${1}ses")` in front of the built-in plural
rules, "bus", "BUS" and "Bus" are rewritten with "ses". -/
theorem bu_rewrites :
    [("bus", "buses"), ("BUS", "BUSES"), ("Bus", "Buses")].all
      (rewrites (describe uncountableInflections
        (irregularInflections.map fun v => (v.singular, v.plural))
        (buRuleSpec :: pluralRuleSpecs))) = true := by decide!

set_option maxRecDepth 1000000 in
/-- With the pair `("fish", "fishes")` after the built-in irregular pairs,
"fish" is still rewritten to itself. -/
theorem fish_rewrites :
    rewrites (describe uncountableInflections
      ((irregularInflections ++ [(⟨"fish", "fishes"⟩ : Irregular)]).map
        fun v => (v.singular, v.plural))
      pluralRuleSpecs) ("fish", "fish") = true := by decide!

/-- The package initialises: `init` returns. -/
theorem init_done : init = .done init.state := init_describe.1

theorem init_current : compile init.state = .done init.state :=
  compile_idempotent builtinState init.state init_done

theorem init_tables :
    init.state.pluralInflections = pluralInflections ∧
      init.state.singularInflections = singularInflections ∧
      init.state.irregularInflections = irregularInflections ∧
      init.state.uncountableInflections = uncountableInflections :=
  compile_tables builtinState init.state init_done

/-- Witness of C5: in the initial state "FISH" and "Series" are fixed points
of `Plural` and `Singular`. -/
theorem uncountable_fixed_point_witness :
    compile init.state = .done init.state ∧
      (Plural init.state "FISH" = "FISH" ∧ Singular init.state "FISH" = "FISH") ∧
      (Plural init.state "Series" = "Series" ∧ Singular init.state "Series" = "Series") :=
  ⟨init_current,
    uncountable_fixed_point init.state init_current
      ["equipment", "information", "rice", "money", "species", "series"]
      ["sheep", "jeans", "police"] "fish" (by rw [init_tables.2.2.2]; rfl) (by decide) (by decide)
      "FISH" (by repeat constructor),
    uncountable_fixed_point init.state init_current
      ["equipment", "information", "rice", "money", "species"]
      ["fish", "sheep", "jeans", "police"] "series" (by rw [init_tables.2.2.2]; rfl) (by decide)
      (by decide) "Series" (by repeat constructor)⟩

set_option maxRecDepth 1000000 in
/-- Counterexample to C5 as stated: with the uncountable table `["b)(c",
"bc"]` the compiled lists are current and "bc" is a word of letters in the
table, yet `Plural("bc") = "b"`: the matcher `^(?i)(b)(c)$` of the entry
before it matches first and keeps only its first group. -/
theorem uncountable_fixed_counterexample :
    ¬ ∀ (s : State), compile s = .done s → ∀ u ∈ s.uncountableInflections,
        lettersOnly u.data = true →
        ∀ w : String, List.Forall₂ (fun x c => lowerChar x = lowerChar c) w.data u.data →
          Plural s w = w ∧ Singular s w = w := by
  intro h
  have hr := Outcome.holds_state _ _ (rewritesAll_sound
    (SetUncountable ⟨[], [], [], [], [], []⟩ ["b)(c", "bc"])
    State.compiledPluralMaps [("bc", "b")] (by decide!))
  have hc := compile_idempotent _ _ hr.1
  have ht := (compile_tables _ _ hr.1).2.2.2
  have := (h _ hc "bc" (by rw [ht]; simp) (by decide) "bc" (by repeat constructor)).1
  have h2 := hr.2 ("bc", "b") (by simp)
  simp only [Plural] at this
  rw [this] at h2
  exact absurd h2 (by decide)

/-! ## C10 at the initial state -/

/-- Witness of C10: after `AddPlural("(bu)s$", "${1}ses")` on the initial
state, "bus", "BUS" and "Bus" become "buses", "BUSES" and "Buses", and the
rule is the last entry of the plural table. -/
theorem add_rule_overrides_witness :
    AddPlural init.state "(bu)s$" "${1}ses" =
        .done (AddPlural init.state "(bu)s$" "${1}ses").state ∧
      (AddPlural init.state "(bu)s$" "${1}ses").state.pluralInflections =
        init.state.pluralInflections ++ [⟨"(bu)s$", "${1}ses"⟩] ∧
      Plural (AddPlural init.state "(bu)s$" "${1}ses").state "bus" = "buses" ∧
      Plural (AddPlural init.state "(bu)s$" "${1}ses").state "BUS" = "BUSES" ∧
      Plural (AddPlural init.state "(bu)s$" "${1}ses").state "Bus" = "Buses" := by
  obtain ⟨t1, t2, t3, t4⟩ := init_tables
  obtain ⟨t, ht, d, -⟩ := compile_describe_rules
    { init.state with pluralInflections := init.state.pluralInflections ++ [⟨"(bu)s$", "${1}ses"⟩] }
    (buRuleSpec :: pluralRuleSpecs) singularRuleSpecs
    (by
      show regularCheck (init.state.pluralInflections ++ [⟨"(bu)s$", "${1}ses"⟩]) _ = true
      rw [t1]; exact regularCheck_snoc _ _ _ _ plural_rules_check bu_rule_check)
    (by
      show regularCheck init.state.singularInflections _ = true
      rw [t2]; exact singular_rules_check)
    (by
      show ∀ v ∈ init.state.uncountableInflections, plainWord v = true
      rw [t4]; exact uncountable_plain)
    (by
      show ∀ v ∈ init.state.irregularInflections, _
      rw [t3]; exact irregular_plain)
  have ho : AddPlural init.state "(bu)s$" "${1}ses" = .done t := ht
  have d1 : specs t.compiledPluralMaps = some (describe uncountableInflections
      (irregularInflections.map fun v => (v.singular, v.plural))
      (buRuleSpec :: pluralRuleSpecs)) := by
    rw [d]
    show some (describe init.state.uncountableInflections
      (init.state.irregularInflections.map _) _) = _
    rw [t3, t4]
  have hr : ∀ e ∈ [("bus", "buses"), ("BUS", "BUSES"), ("Bus", "Buses")],
      applyFirst t.compiledPluralMaps e.1 = e.2 := by
    intro e he
    have := List.all_eq_true.mp bu_rewrites e he
    simp only [rewrites, beq_iff_eq] at this
    rw [applyFirst_eq_specApply _ _ d1, this]
  obtain ⟨_, _, _, _, _, _, _, _, _, _, _, _, _, htab, _, _⟩ :=
    (add_rule_overrides init.state "(bu)s$" "${1}ses").1 t ho
  rw [ho]
  exact ⟨rfl, htab, hr ("bus", "buses") (by simp), hr ("BUS", "BUSES") (by simp),
    hr ("Bus", "Buses") (by simp)⟩

/-! ## C9: registering an irregular pair -/

theorem lettersOnly_of_lowerOnly (cs : List Char) (h : lowerOnly cs = true) :
    lettersOnly cs = true := by
  simp only [lowerOnly, lettersOnly, List.all_eq_true] at *
  intro c hc
  simp [isLetter, h c hc]

theorem uncountableRe_foldEq (cs : List Char) (w : String)
    (h : (uncountableRe cs).MatchString w = true) : FoldEq w.data cs := by
  by_cases hne : cs = []
  · subst hne
    obtain ⟨wd⟩ := w
    cases wd with
    | nil => exact List.Forall₂.nil
    | cons c cs =>
      have hm : (uncountableRe []).MatchString ⟨c :: cs⟩ = false := by
        simp only [Regexp.MatchString, uncountableRe, Regexp.search]
        rw [search_bol_pos _ cs 1 (by omega)]
        simp [Regexp.matchAt, Regexp.run, mkCat]
      simp [hm] at h
  · have hsp := uncountableRe_spec cs hne
    have hms := inflection.matchString_spec _ _ hsp w
    simp only at hms
    rcases uncountableSpec_apply cs w.data with ⟨_, h2⟩ | ⟨h1, _⟩
    · exact h2
    · rw [hms, h1] at h
      simp at h

theorem foldKey_lower (c : Char) (h : isLower c = true) : foldKey c = c := by
  apply char_eq_of_toNat
  rw [foldKey_toNat]
  simp only [isLower, isUpper, Bool.and_eq_true, decide_eq_true_eq] at h ⊢
  split_ifs <;> omega

theorem foldEq_lower (w u : List Char) (hw : lowerOnly w = true) (hu : lowerOnly u = true)
    (h : FoldEq w u) : w = u := by
  induction h with
  | nil => rfl
  | @cons x c xs cs hxc _ ih =>
    simp only [lowerOnly, List.all_cons, Bool.and_eq_true] at hw hu
    rw [foldKey_lower x hw.1, foldKey_lower c hu.1] at hxc
    rw [hxc, ih hw.2 hu.2]

theorem isLower_upperChar (c : Char) (h : isLetter c = true) : isLower (upperChar c) = false := by
  have hu := upperChar_toNat c
  have hn := isLetter_toNat c h
  simp only [isLower, Bool.and_eq_false_imp, decide_eq_true_eq, decide_eq_false_iff_not] at *
  split at hu <;> rename_i hl <;> simp only [Bool.and_eq_true, decide_eq_true_eq] at hl <;> omega

theorem not_suffix_of_upper (src w : List Char) (c : Char) (hc : c ∈ src)
    (hl : isLower c = false) (hw : lowerOnly w = true) : ¬ src <:+ w := by
  intro hs
  have := hs.subset hc
  simp only [lowerOnly, List.all_eq_true] at hw
  rw [hw c this] at hl
  exact absurd hl (by simp)

theorem wordRe_no_match_upper (src : List Char) (w : String) (c : Char) (hc : c ∈ src)
    (hl : isLower c = false) (hw : lowerOnly w.data = true) :
    (wordRe src).MatchString w = false := by
  cases hm : (wordRe src).MatchString w with
  | false => rfl
  | true =>
    have hne : src ≠ [] := List.ne_nil_of_mem hc
    exact absurd ((wordRe_matchString src hne w).mp hm) (not_suffix_of_upper src w.data c hc hl hw)

/-- On a lower-case word the upper-case and title-case matchers of a pair
of words never match. -/
theorem wordMatchers_upper_title (src : String) (hs : lettersOnly src.data = true)
    (hne : src.data ≠ []) (w : String) (hw : lowerOnly w.data = true) :
    (wordRe (upperChars src.data)).MatchString w = false ∧
      (wordRe (titleChars ' ' src.data)).MatchString w = false := by
  obtain ⟨sd⟩ := src
  cases sd with
  | nil => exact absurd rfl hne
  | cons c cs =>
    have hc : isLetter c = true := by
      simp only [lettersOnly, List.all_cons, Bool.and_eq_true] at hs
      exact hs.1
    constructor
    · exact wordRe_no_match_upper _ w (upperChar c) (by simp [upperChars])
        (isLower_upperChar c hc) hw
    · rw [titleChars_word c cs hs]
      exact wordRe_no_match_upper _ w (upperChar c) (by simp) (isLower_upperChar c hc) hw

theorem wordMatchers_no_match (pairs : List (String × String)) (w : String)
    (hw : lowerOnly w.data = true)
    (hp : ∀ e ∈ pairs, lettersOnly e.1.data = true ∧ e.1.data ≠ [])
    (hsuf : ∀ e ∈ pairs, ¬ e.1.data <:+ w.data) :
    ∀ m ∈ pairs.flatMap (fun e => wordMatchers e.1 e.2), m.regexp.MatchString w = false := by
  intro m hm
  obtain ⟨e, he, hme⟩ := List.mem_flatMap.mp hm
  obtain ⟨h1, h2⟩ := wordMatchers_upper_title e.1 (hp e he).1 (hp e he).2 w hw
  simp only [wordMatchers, List.mem_cons, List.mem_singleton, List.not_mem_nil, or_false] at hme
  rcases hme with rfl | rfl | rfl
  · exact h1
  · exact h2
  · cases hmm : (wordRe e.1.data).MatchString w with
    | false => rfl
    | true => exact absurd ((wordRe_matchString _ (hp e he).2 w).mp hmm) (hsuf e he)

theorem uncountable_no_match (vs : List String) (w : String) (hw : lowerOnly w.data = true)
    (hv : ∀ v ∈ vs, lowerOnly v.data = true) (hn : w ∉ vs) :
    ∀ m ∈ vs.map (fun v => (⟨uncountableRe v.data, "${1}"⟩ : inflection)),
      m.regexp.MatchString w = false := by
  intro m hm
  obtain ⟨v, hvm, rfl⟩ := List.mem_map.mp hm
  cases hmm : (uncountableRe v.data).MatchString w with
  | false => rfl
  | true =>
    have := foldEq_lower _ _ hw (hv v hvm) (uncountableRe_foldEq v.data w hmm)
    exact absurd (by rw [show w = v from String.ext this]; exact hvm) hn

/-- The last pair of a list of word pairs rewrites its source word to its
destination word when nothing before it in the compiled list matches. -/
theorem applyFirst_new_pair (before after : List inflection) (src dst : String)
    (hs : lowerOnly src.data = true) (hne : src.data ≠ []) (hd : lowerOnly dst.data = true)
    (hb : ∀ m ∈ before, m.regexp.MatchString src = false) :
    applyFirst (before ++ wordMatchers src dst ++ after) src = dst := by
  obtain ⟨h1, h2⟩ := wordMatchers_upper_title src (lettersOnly_of_lowerOnly _ hs) hne src hs
  have h3 : (wordRe src.data).MatchString src = true :=
    (wordRe_matchString _ hne src).mpr (List.suffix_refl _)
  have hdollar : '$' ∉ dst.data := by
    intro hmem
    simp only [lowerOnly, List.all_eq_true] at hd
    exact absurd (hd _ hmem) (by decide)
  have h4 := wordRe_replace src.data dst hne [] hdollar
  rw [List.append_assoc, applyFirst_append_of_none _ _ _ hb]
  simp only [wordMatchers, List.cons_append, List.nil_append, applyFirst, h1, h2, h3,
    Bool.false_eq_true, ↓reduceIte]
  simpa using h4

/-- C9 (amended). A newly registered irregular pair takes effect unless an
earlier matcher takes the word: starting from the built-in tables, for all
non-empty words `s` and `p` of ASCII lower-case letters, `AddIrregular(s, p)`
returns, and afterwards `Plural(s) = p` when `s` is not an uncountable word
and does not end in the singular of a built-in irregular pair, and
`Singular(p) = s` when `p` is not an uncountable word and does not end in
the plural of a built-in irregular pair. -/
theorem add_irregular_effect (s p : String)
    (hs : lowerOnly s.data = true) (hsne : s.data ≠ [])
    (hp : lowerOnly p.data = true) (hpne : p.data ≠ []) :
    ∃ t, AddIrregular init.state s p = .done t ∧
      (s ∉ uncountableInflections →
        (∀ e ∈ irregularInflections, ¬ e.singular.data <:+ s.data) → Plural t s = p) ∧
      (p ∉ uncountableInflections →
        (∀ e ∈ irregularInflections, ¬ e.plural.data <:+ p.data) → Singular t p = s) := by
  obtain ⟨u, ip, is, rp, rs, hu, hip, his, hrp, hrs, hst⟩ :=
    (compile_eq_done init.state init.state).mp init_current
  obtain ⟨ht1, ht2, ht3, ht4⟩ := init_tables
  rw [ht4, collect_uncountable_letters _ (by decide)] at hu
  rw [ht3,
    collect_irregular_letters _ (fun v => v.singular) (fun v => v.plural) (by decide)] at hip
  rw [ht3,
    collect_irregular_letters _ (fun v => v.plural) (fun v => v.singular) (by decide)] at his
  simp only [Except.ok.injEq] at hu hip his
  subst hu hip his
  have hnewp : collect (fun v : Irregular => irregularMatchers v.singular v.plural)
      (init.state.irregularInflections ++ [⟨s, p⟩]) =
      .ok (irregularInflections.flatMap (fun v => wordMatchers v.singular v.plural) ++
        wordMatchers s p) := by
    rw [ht3]
    apply collect_append
    · exact collect_irregular_letters _ (fun v => v.singular) (fun v => v.plural) (by decide)
    · rw [collect_singleton]
      exact irregularMatchers_letters s p (lettersOnly_of_lowerOnly _ hs)
  have hnews : collect (fun v : Irregular => irregularMatchers v.plural v.singular)
      (init.state.irregularInflections ++ [⟨s, p⟩]) =
      .ok (irregularInflections.flatMap (fun v => wordMatchers v.plural v.singular) ++
        wordMatchers p s) := by
    rw [ht3]
    apply collect_append
    · exact collect_irregular_letters _ (fun v => v.plural) (fun v => v.singular) (by decide)
    · rw [collect_singleton]
      exact irregularMatchers_letters p s (lettersOnly_of_lowerOnly _ hp)
  refine ⟨_, (compile_eq_done _ _).mpr
    ⟨uncountableInflections.map (fun v => (⟨uncountableRe v.data, "${1}"⟩ : inflection)), _, _,
      rp, rs, ?_, hnewp, hnews, hrp, hrs, rfl⟩, ?_, ?_⟩
  · simp only [ht4]
    exact collect_uncountable_letters _ (by decide)
  · intro hun hirr
    simp only [Plural]
    rw [← List.append_assoc]
    apply applyFirst_new_pair _ _ s p hs hsne hp
    intro m hm
    rcases List.mem_append.mp hm with hm | hm
    · exact uncountable_no_match uncountableInflections s hs (by decide) hun m hm
    · have := wordMatchers_no_match (irregularInflections.map fun v => (v.singular, v.plural)) s hs
        (by decide) (by
          intro e he
          obtain ⟨v, hv, rfl⟩ := List.mem_map.mp he
          exact hirr v hv)
      exact this m (by simpa [List.flatMap_map] using hm)
  · intro hun hirr
    simp only [Singular]
    rw [← List.append_assoc]
    apply applyFirst_new_pair _ _ p s hp hpne hs
    intro m hm
    rcases List.mem_append.mp hm with hm | hm
    · exact uncountable_no_match uncountableInflections p hp (by decide) hun m hm
    · have := wordMatchers_no_match (irregularInflections.map fun v => (v.plural, v.singular)) p hp
        (by decide) (by
          intro e he
          obtain ⟨v, hv, rfl⟩ := List.mem_map.mp he
          exact hirr v hv)
      exact this m (by simpa [List.flatMap_map] using hm)

/-- Witness of C9: after `AddIrregular("criterion", "criteria")` on the
initial state, `Plural("criterion") = "criteria"` and `Singular("criteria") =
"criterion"`. -/
theorem add_irregular_effect_witness :
    ∃ t, AddIrregular init.state "criterion" "criteria" = .done t ∧
      Plural t "criterion" = "criteria" ∧ Singular t "criteria" = "criterion" := by
  obtain ⟨t, ht, h1, h2⟩ :=
    add_irregular_effect "criterion" "criteria" (by decide) (by decide) (by decide) (by decide)
  exact ⟨t, ht, h1 (by decide) (by decide), h2 (by decide) (by decide)⟩

/-- Counterexample to C9 as stated: after `AddIrregular("fish", "fishes")`
on the initial state `Plural("fish")` is still "fish", because the
uncountable matcher of "fish" comes first in the compiled list. -/
theorem add_irregular_counterexample :
    (AddIrregular init.state "fish" "fishes").Holds fun t =>
      Plural t "fish" = "fish" ∧ Plural t "fish" ≠ "fishes" := by
  obtain ⟨t1, t2, t3, t4⟩ := init_tables
  obtain ⟨t, ht, d, -⟩ := compile_describe
    { init.state with irregularInflections :=
        init.state.irregularInflections ++ [⟨"fish", "fishes"⟩] }
    t1 t2 (by rw [t4]; exact uncountable_plain)
    (by
      intro v hv
      have hv1 : v ∈ irregularInflections ++ [(⟨"fish", "fishes"⟩ : Irregular)] := by
        rw [← t3]; exact hv
      rcases List.mem_append.mp hv1 with h | h
      · exact irregular_plain v h
      · rw [List.mem_singleton.mp h]; decide)
  have ho : AddIrregular init.state "fish" "fishes" = .done t := ht
  simp only [t3, t4] at d
  have h : Plural t "fish" = "fish" := by
    have := fish_rewrites
    simp only [rewrites, beq_iff_eq] at this
    rw [Plural, applyFirst_eq_specApply _ _ d, this]
  rw [ho]
  exact ⟨h, by rw [h]; decide⟩

/-! ## C6: upper-casing -/

theorem listAgree_length {α : Type} (r : α → α → Bool) (a b : List α)
    (h : listAgree r a b = true) : a.length = b.length := by
  induction a generalizing b with
  | nil => cases b <;> simp_all [listAgree]
  | cons x a ih =>
    cases b with
    | nil => simp [listAgree] at h
    | cons y b =>
      simp only [listAgree, Bool.and_eq_true] at h
      simp [ih b h.2]

theorem acceptsAll_agree (pairs : List (Char × Char)) (as bs : List Atom) (v w : List Char)
    (h : listAgree (Atom.agree pairs) as bs = true) (hr : Related pairs v w) :
    acceptsAll as v = acceptsAll bs w := by
  induction as generalizing bs v w with
  | nil => cases bs <;> simp_all [listAgree, acceptsAll]
  | cons a as ih =>
    cases bs with
    | nil => simp [listAgree] at h
    | cons b bs =>
      simp only [listAgree, Bool.and_eq_true] at h
      cases hr with
      | nil => simp [acceptsAll]
      | @cons c d v w hcd hr =>
        simp only [acceptsAll]
        have hab : a.accepts c = b.accepts d := by
          have := List.all_eq_true.mp h.1 (c, d) hcd
          simpa using this
        rw [hab, ih bs v w h.2 hr]

theorem Related.reverse {pairs : List (Char × Char)} {v w : List Char} (h : Related pairs v w) :
    Related pairs v.reverse w.reverse :=
  List.forall₂_reverse_iff.mpr h

theorem Related.same_length {pairs : List (Char × Char)} {v w : List Char} (h : Related pairs v w) :
    v.length = w.length :=
  List.Forall₂.length_eq h

theorem best_agree (f g : TPath → Bool) (a b : List TPath) (n : Nat)
    (h : List.Forall₂ (fun s t => f s = g t ∧ s.atomsRev.length = t.atomsRev.length ∧
      s.capsAt n = t.capsAt n) a b) :
    (best f a).map (fun t => t.capsAt n) = (best g b).map (fun t => t.capsAt n) ∧
      (best f a).map (fun t => t.atomsRev.length) = (best g b).map (fun t => t.atomsRev.length) := by
  induction h with
  | nil => exact ⟨rfl, rfl⟩
  | @cons s t a b hst _ ih =>
    simp only [best]
    obtain ⟨h1, h2, h3⟩ := hst
    cases ha : best f a with
    | none =>
      cases hb : best g b with
      | none =>
        rw [h1]
        cases g t <;> simp [h2, h3]
      | some y => rw [ha, hb] at ih; simp at ih
    | some x =>
      cases hb : best g b with
      | none => rw [ha, hb] at ih; simp at ih
      | some y =>
        rw [ha, hb] at ih
        simp only [Option.map_some', Option.some.injEq] at ih
        simp only [h1, h2, ih.2]
        by_cases hc : (g t && decide (y.atomsRev.length ≤ t.atomsRev.length)) = true
        · simp [hc, h2, h3]
        · simp [hc, ih.1, ih.2]

theorem listAgree_forall₂ {α : Type} (r : α → α → Bool) (a b : List α)
    (h : listAgree r a b = true) : List.Forall₂ (fun x y => r x y = true) a b := by
  induction a generalizing b with
  | nil => cases b <;> simp_all [listAgree]
  | cons x a ih =>
    cases b with
    | nil => simp [listAgree] at h
    | cons y b =>
      simp only [listAgree, Bool.and_eq_true] at h
      exact List.Forall₂.cons h.1 (ih b h.2)

/-- Agreeing shapes find the same match in related words. -/
theorem Shape.search_agree (pairs : List (Char × Char)) (A B : Shape) (v w : List Char)
    (h : A.agree pairs B = true) (hr : Related pairs v w) : A.search v = B.search w := by
  cases A with
  | tail a =>
    cases B with
    | head b => simp [Shape.agree] at h
    | tail b =>
      simp only [Shape.agree] at h
      simp only [Shape.search, tailSearch, hr.same_length]
      refine (best_agree _ _ a b w.length ?_).1
      refine List.Forall₂.imp ?_ (listAgree_forall₂ _ _ _ h)
      intro s t hst
      simp only [TPath.agree, Bool.and_eq_true, beq_iff_eq] at hst
      obtain ⟨⟨hb, hc⟩, ha⟩ := hst
      have hl := listAgree_length _ _ _ ha
      refine ⟨?_, hl, ?_⟩
      · simp only [TPath.hit, acceptsAll_agree pairs _ _ _ _ ha hr.reverse, hb, hl]
      · simp [TPath.capsAt, hc, hl]
  | head a =>
    cases B with
    | tail b => simp [Shape.agree] at h
    | head b =>
      simp only [Shape.agree] at h
      simp only [Shape.search, headSearch]
      have hf := listAgree_forall₂ _ _ _ h
      clear h
      induction hf with
      | nil => rfl
      | @cons s t a b hst _ ih =>
        simp only [HPath.agree, Bool.and_eq_true, beq_iff_eq] at hst
        have hl := listAgree_length _ _ _ hst.2
        simp only [List.find?, acceptsAll_agree pairs _ _ _ _ hst.2 hr]
        cases acceptsAll t.atoms w with
        | true => simp [hst.1, hl]
        | false => simpa using ih

theorem acceptsAll_dead (alphabet : List Char) (as : List Atom) (w : List Char)
    (h : as.any (Atom.rejectsAll alphabet) = true) (hw : ∀ c ∈ w, c ∈ alphabet) :
    acceptsAll as w = false := by
  induction as generalizing w with
  | nil => simp at h
  | cons a as ih =>
    cases w with
    | nil => rfl
    | cons c cs =>
      simp only [acceptsAll]
      simp only [List.any_cons, Bool.or_eq_true] at h
      rcases h with h | h
      · have := List.all_eq_true.mp h c (hw c (List.mem_cons_self _ _))
        simp only [Bool.not_eq_true'] at this
        simp [this]
      · simp [ih cs h (fun x hx => hw x (List.mem_cons_of_mem _ hx))]

/-- A dead shape matches no word over the alphabet. -/
theorem Shape.search_dead (alphabet : List Char) (sh : Shape) (w : List Char)
    (h : sh.dead alphabet = true) (hw : ∀ c ∈ w, c ∈ alphabet) : sh.search w = none := by
  cases sh with
  | tail ts =>
    simp only [Shape.dead, List.all_eq_true] at h
    simp only [Shape.search, tailSearch]
    rw [best_eq_none]
    · rfl
    · intro t ht
      simp only [TPath.hit]
      rw [acceptsAll_dead alphabet _ _ (h t ht) (by simpa using hw)]
      rfl
  | head hs =>
    simp only [Shape.dead, List.all_eq_true] at h
    simp only [Shape.search, headSearch]
    rw [List.find?_eq_none.mpr]
    · rfl
    · intro t ht
      simp [acceptsAll_dead alphabet _ _ (h t ht) hw]

theorem upperChar_of_not_lower (c : Char) (h : isLower c = false) : upperChar c = c := by
  simp [upperChar, h]

theorem isUpper_upperChar (c : Char) (h : isLower c = true) : isUpper (upperChar c) = true := by
  have hu := upperChar_toNat c
  simp only [h, ↓reduceIte] at hu
  simp only [isLower, isUpper, Bool.and_eq_true, decide_eq_true_eq] at *
  omega

/-- Upper-casing does not create or remove a character that is not a letter. -/
theorem upperChar_beq (c d : Char) (hd : isLetter d = false) : (upperChar c == d) = (c == d) := by
  by_cases h : isLower c = true
  · have h1 : isLetter (upperChar c) = true := by simp [isLetter, isUpper_upperChar c h]
    have h2 : isLetter c = true := by simp [isLetter, h]
    have e1 : (upperChar c == d) = false := by
      rw [beq_eq_false_iff_ne]
      intro e
      rw [e, hd] at h1
      exact absurd h1 (by decide)
    have e2 : (c == d) = false := by
      rw [beq_eq_false_iff_ne]
      intro e
      rw [e, hd] at h2
      exact absurd h2 (by decide)
    rw [e1, e2]
  · rw [upperChar_of_not_lower c (by simpa using h)]

theorem isDigit_upperChar (c : Char) : isDigit (upperChar c) = isDigit c := by
  by_cases h : isLower c = true
  · have h1 := isUpper_upperChar c h
    simp only [isLower, isUpper, isDigit, Bool.and_eq_true, decide_eq_true_eq] at *
    have e1 : (decide (48 ≤ (upperChar c).toNat) && decide ((upperChar c).toNat ≤ 57)) = false := by
      simp only [Bool.and_eq_false_imp, decide_eq_true_eq, decide_eq_false_iff_not]
      omega
    have e2 : (decide (48 ≤ c.toNat) && decide (c.toNat ≤ 57)) = false := by
      simp only [Bool.and_eq_false_imp, decide_eq_true_eq, decide_eq_false_iff_not]
      omega
    rw [e1, e2]
  · rw [upperChar_of_not_lower c (by simpa using h)]

theorem isLetter_upperChar_eq (c : Char) : isLetter (upperChar c) = isLetter c := by
  by_cases h : isLower c = true
  · simp [isLetter, isUpper_upperChar c h, h]
  · rw [upperChar_of_not_lower c (by simpa using h)]

theorem isWordChar_upperChar (c : Char) : isWordChar (upperChar c) = isWordChar c := by
  simp only [isWordChar, isLetter_upperChar_eq, isDigit_upperChar, upperChar_beq c '_' (by decide)]

theorem upperChar_of_digit (c : Char) (h : isDigit c = true) : upperChar c = c := by
  apply upperChar_of_not_lower
  simp only [isLower, isDigit, Bool.and_eq_true, decide_eq_true_eq, Bool.and_eq_false_imp,
    decide_eq_false_iff_not] at *
  omega

theorem nameNum_upper (cs : List Char) (num : Nat) :
    nameNum (upperChars cs) num = nameNum cs num := by
  induction cs generalizing num with
  | nil => rfl
  | cons c cs ih =>
    simp only [upperChars, List.map_cons, nameNum, isDigit_upperChar]
    by_cases h : isDigit c = true
    · rw [upperChar_of_digit c h]
      simp only [upperChars] at ih
      rw [ih]
    · simp [h]

theorem takeWhile_upper (p : Char → Bool) (hp : ∀ c, p (upperChar c) = p c) (cs : List Char) :
    (upperChars cs).takeWhile p = upperChars (cs.takeWhile p) := by
  induction cs with
  | nil => rfl
  | cons c cs ih =>
    simp only [upperChars, List.map_cons, List.takeWhile_cons, hp] at ih ⊢
    cases p c <;> simp [ih]

theorem dropWhile_upper (p : Char → Bool) (hp : ∀ c, p (upperChar c) = p c) (cs : List Char) :
    (upperChars cs).dropWhile p = upperChars (cs.dropWhile p) := by
  induction cs with
  | nil => rfl
  | cons c cs ih =>
    simp only [upperChars, List.map_cons, List.dropWhile_cons, hp] at ih ⊢
    cases p c <;> simp [ih]

/-- A reference in an upper-cased template is the reference of the template,
upper-cased, with the same number. -/
theorem extract_upper (str : List Char) :
    extract (upperChars str) =
      (extract str).map fun e => (upperChars e.1, e.2.1, upperChars e.2.2) := by
  cases str with
  | nil => rfl
  | cons c0 tl =>
    simp only [upperChars, List.map_cons, extract, upperChar_beq c0 '{' (by decide)]
    have hstr : (if (c0 == '{') = true then List.map upperChar tl
        else upperChar c0 :: List.map upperChar tl) =
        upperChars (if (c0 == '{') = true then tl else c0 :: tl) := by
      split <;> rfl
    rw [hstr, takeWhile_upper _ isWordChar_upperChar, dropWhile_upper _ isWordChar_upperChar]
    generalize (if (c0 == '{') = true then tl else c0 :: tl) = str1
    cases hn : str1.takeWhile isWordChar with
    | nil => rfl
    | cons n0 ns =>
      have hnum : (if (upperChar n0 == '0' && !(List.map upperChar ns).isEmpty) = true then none
          else nameNum (upperChar n0 :: List.map upperChar ns) 0) =
          (if (n0 == '0' && !ns.isEmpty) = true then none else nameNum (n0 :: ns) 0) := by
        rw [upperChar_beq n0 '0' (by decide)]
        have := nameNum_upper (n0 :: ns) 0
        simp only [upperChars, List.map_cons] at this
        rw [this]
        cases ns <;> rfl
      simp only [upperChars, List.map_cons, hnum]
      by_cases hb : (c0 == '{') = true
      · simp only [hb, ↓reduceIte]
        cases str1.dropWhile isWordChar with
        | nil => rfl
        | cons c rest =>
          simp only [List.map_cons, upperChar_beq c '}' (by decide)]
          split <;> rfl
      · simp only [hb, ↓reduceIte]
        rfl

theorem slice_upper (src : List Char) (lo hi : Nat) :
    slice (upperChars src) lo hi = upperChars (slice src lo hi) := by
  simp [slice, upperChars, List.map_drop, List.map_take]

/-- Expanding an upper-cased template over an upper-cased word gives the
expansion, upper-cased. -/
theorem expand_upper (src : List Char) (m : Caps) (fuel : Nat) (tmpl : List Char) :
    expand (upperChars src) m fuel (upperChars tmpl) = upperChars (expand src m fuel tmpl) := by
  have hp : ∀ c, (upperChar c != '$') = (c != '$') := by
    intro c
    simp only [bne, upperChar_beq c '$' (by decide)]
  induction fuel generalizing tmpl with
  | zero => rfl
  | succ fuel ih =>
    simp only [expand]
    rw [takeWhile_upper (fun c => c != '$') hp, dropWhile_upper (fun c => c != '$') hp]
    cases tmpl.dropWhile (fun c => c != '$') with
    | nil => rfl
    | cons d after =>
      simp only [upperChars, List.map_cons, List.map_append]
      congr 1
      cases after with
      | nil =>
        have := ih []
        simp only [upperChars, List.map_nil] at this
        simp [this]
        decide
      | cons c t =>
        simp only [List.map_cons, upperChar_beq c '$' (by decide)]
        by_cases hc : (c == '$') = true
        · simp only [hc, ↓reduceIte]
          have := ih t
          simp only [upperChars] at this
          simp [this]
          decide
        · simp only [hc, ↓reduceIte]
          have he := extract_upper (c :: t)
          simp only [upperChars, List.map_cons] at he
          rw [he]
          cases extract (c :: t) with
          | none =>
            have := ih (c :: t)
            simp only [upperChars, List.map_cons] at this
            simp [this]
            decide
          | some e =>
            obtain ⟨name, num, rest⟩ := e
            have := ih rest
            simp only [upperChars] at this
            simp only [Option.map_some', this, List.map_append, Bool.false_eq_true, ↓reduceIte]
            congr 1
            cases num with
            | none => rfl
            | some n =>
              dsimp only
              cases capOf m n with
              | none => rfl
              | some b =>
                obtain ⟨lo, hi⟩ := b
                exact slice_upper src lo hi

theorem Spec.apply_eq_none (sp : Spec) (w : List Char) (h : sp.shape.search w = none) :
    sp.apply w = none := by
  simp [Spec.apply, h]

theorem mem_lowerLetters (c : Char) (h : isLower c = true) : c ∈ lowerLetters := by
  simp only [isLower, Bool.and_eq_true, decide_eq_true_eq] at h
  simp only [lowerLetters, List.mem_map, List.mem_range]
  refine ⟨c.toNat - 97, by omega, ?_⟩
  apply char_eq_of_toNat
  rw [toNat_ofNat_small _ (by omega)]
  omega

theorem related_self (alphabet : List Char) (w : List Char) (hw : ∀ c ∈ w, c ∈ alphabet) :
    Related (selfPairs alphabet) w w := by
  induction w with
  | nil => exact List.Forall₂.nil
  | cons c cs ih =>
    refine List.Forall₂.cons ?_ (ih fun x hx => hw x (List.mem_cons_of_mem _ hx))
    exact List.mem_map.mpr ⟨c, hw c (List.mem_cons_self _ _), rfl⟩

theorem related_upper (w : List Char) (hw : lowerOnly w = true) :
    Related upperPairs (upperChars w) w := by
  induction w with
  | nil => exact List.Forall₂.nil
  | cons c cs ih =>
    simp only [lowerOnly, List.all_cons, Bool.and_eq_true] at hw
    exact List.Forall₂.cons (List.mem_map.mpr ⟨c, mem_lowerLetters c hw.1, rfl⟩) (ih hw.2)

/-- Pruning does not change the result on words over the alphabet. -/
theorem prune_sound (alphabet : List Char) (w : List Char) (hw : ∀ c ∈ w, c ∈ alphabet)
    (sps : List Spec) (prev : Option Spec) (hprev : ∀ p, prev = some p → p.shape.search w = none) :
    specApply (prune alphabet prev sps) w = specApply sps w := by
  induction sps generalizing prev with
  | nil => rfl
  | cons sp sps ih =>
    simp only [prune]
    have keep : specApply (sp :: prune alphabet (some sp) sps) w = specApply (sp :: sps) w := by
      simp only [specApply]
      cases hs : sp.apply w with
      | some r => rfl
      | none =>
        apply ih
        intro p hp
        simp only [Option.some.injEq] at hp
        subst hp
        simp only [Spec.apply] at hs
        cases hq : sp.shape.search w with
        | none => rfl
        | some m => simp [hq] at hs
    by_cases hd : sp.shape.dead alphabet = true
    · simp only [hd, ↓reduceIte]
      rw [ih prev hprev]
      simp only [specApply, Spec.apply_eq_none sp w (Shape.search_dead alphabet _ w hd hw)]
    · simp only [hd, Bool.false_eq_true, ↓reduceIte]
      cases prev with
      | none => exact keep
      | some p =>
        dsimp only
        by_cases ha : sp.shape.agree (selfPairs alphabet) p.shape = true
        · simp only [ha, ↓reduceIte]
          rw [ih (some p) hprev]
          have hq := Shape.search_agree _ _ _ w w ha (related_self alphabet w hw)
          rw [hprev p rfl] at hq
          simp only [specApply, Spec.apply_eq_none sp w hq]
        · simp only [ha, Bool.false_eq_true, ↓reduceIte]
          exact keep

/-- A matcher and its upper-case counterpart rewrite a lower-case word and
its upper-case form alike. -/
theorem Spec.apply_upper (up lo : Spec) (h : up.upperOf lo = true) (w : List Char)
    (hw : lowerOnly w = true) : up.apply (upperChars w) = (lo.apply w).map upperChars := by
  simp only [Spec.upperOf, Bool.and_eq_true, beq_iff_eq] at h
  simp only [Spec.apply, Shape.search_agree _ _ _ _ w h.1 (related_upper w hw), h.2]
  cases lo.shape.search w with
  | none => rfl
  | some m =>
    have hl : (upperChars lo.replace).length = lo.replace.length := by simp [upperChars]
    simp only [Option.map_some', hl, expand_upper, slice_upper, Option.some.injEq]
    simp [upperChars, List.map_drop]

theorem specApply_upper (ups los : List Spec) (h : listAgree Spec.upperOf ups los = true)
    (w : List Char) (hw : lowerOnly w = true) :
    specApply ups (upperChars w) = upperChars (specApply los w) := by
  induction ups generalizing los with
  | nil => cases los <;> simp_all [listAgree, specApply]
  | cons up ups ih =>
    cases los with
    | nil => simp [listAgree] at h
    | cons lo los =>
      simp only [listAgree, Bool.and_eq_true] at h
      simp only [specApply, Spec.apply_upper up lo h.1 w hw]
      cases lo.apply w with
      | none => exact ih los h.2
      | some r => rfl

theorem mem_upperLetters (w : List Char) (hw : lowerOnly w = true) :
    ∀ c ∈ upperChars w, c ∈ upperLetters := by
  intro c hc
  simp only [upperChars, List.mem_map] at hc
  obtain ⟨x, hx, rfl⟩ := hc
  simp only [lowerOnly, List.all_eq_true] at hw
  exact List.mem_map.mpr ⟨x, mem_lowerLetters x (hw x hx), rfl⟩

/-- A list of matchers that passes `upperCheck` commutes with upper-casing on
lower-case words. -/
theorem upperCheck_sound (sps : List Spec) (h : upperCheck sps = true) (w : List Char)
    (hw : lowerOnly w = true) : specApply sps (upperChars w) = upperChars (specApply sps w) := by
  have hl : ∀ c ∈ w, c ∈ lowerLetters := by
    intro c hc
    simp only [lowerOnly, List.all_eq_true] at hw
    exact mem_lowerLetters c (hw c hc)
  rw [← prune_sound upperLetters (upperChars w) (mem_upperLetters w hw) sps none (by simp),
    ← prune_sound lowerLetters w hl sps none (by simp)]
  exact specApply_upper _ _ h w hw

theorem commutesUpper_sound (o : Outcome) (pick : State → List inflection)
    (h : commutesUpper o pick = true) :
    o.Holds fun s => ∀ w : String, lowerOnly w.data = true →
      applyFirst (pick s) (ToUpper w) = ToUpper (applyFirst (pick s) w) := by
  cases o with
  | done s =>
    simp only [commutesUpper] at h
    cases hs : specs (pick s) with
    | none => simp [hs] at h
    | some sps =>
      simp only [hs] at h
      intro w hw
      rw [applyFirst_eq_specApply _ sps hs, applyFirst_eq_specApply _ sps hs]
      simp only [ToUpper]
      rw [upperCheck_sound sps h w.data hw]
  | panic s => simp [commutesUpper] at h
  | unmodelled => simp [commutesUpper] at h

/-! ## C7 and C8: title-casing -/

theorem TPath.hit_blind (t : TPath) (c d : Char) (vr : List Char)
    (h : t.blind c d vr = true) (x : Char) (hx : x = c ∨ x = d) :
    t.hit (vr ++ [x]) (vr.length + 1) =
      (decide (t.atomsRev.length ≤ vr.length) && acceptsAll t.atomsRev vr && !t.bol) := by
  simp only [TPath.hit]
  by_cases h1 : t.atomsRev.length ≤ vr.length
  · rw [acceptsAll_append_of_le _ _ _ h1]
    have e1 : (t.atomsRev.length == vr.length + 1) = false := by
      simp only [beq_eq_false_iff_ne]; omega
    simp [h1, e1]
  · have e0 : acceptsAll t.atomsRev (vr ++ [x]) = false := by
      by_cases h2 : t.atomsRev.length = vr.length + 1
      · simp only [TPath.blind, h2, bne_self_eq_false, Bool.false_or, Bool.and_eq_true,
          Bool.not_eq_true'] at h
        rcases hx with rfl | rfl
        · exact h.1
        · exact h.2
      · exact acceptsAll_false_of_short _ _ (by simp; omega)
    simp [h1, e0]

theorem TPath.capsAt_succ (t : TPath) (n : Nat) (h : t.atomsRev.length ≤ n) :
    t.capsAt (n + 1) = shiftCaps 1 (t.capsAt n) := by
  simp only [TPath.capsAt, shiftCaps, List.map_cons, List.map_map, List.cons.injEq, Prod.mk.injEq,
    true_and]
  refine ⟨⟨by omega, trivial⟩, ?_⟩
  apply List.map_congr_left
  intro e _
  simp only [Function.comp_apply, Prod.mk.injEq, true_and]
  constructor <;> omega

theorem tailSearch_blind (ts : List TPath) (c d : Char) (v : List Char)
    (h : ts.all (fun t => t.blind c d v.reverse) = true) :
    ∃ o : Option Caps, (∀ m, o = some m → ∃ b, capOf m 0 = some b) ∧
      ∀ x, x = c ∨ x = d → tailSearch ts (x :: v) = o.map (shiftCaps 1) := by
  refine ⟨(best (fun t => decide (t.atomsRev.length ≤ v.reverse.length) &&
    acceptsAll t.atomsRev v.reverse && !t.bol) ts).map fun t => t.capsAt v.length, ?_, ?_⟩
  · intro m hm
    simp only [Option.map_eq_some'] at hm
    obtain ⟨t, _, rfl⟩ := hm
    exact ⟨(v.length - t.atomsRev.length, v.length), by simp [TPath.capsAt, capOf]⟩
  · intro x hx
    simp only [tailSearch, List.reverse_cons, List.length_cons]
    have hb : best (fun t => t.hit (v.reverse ++ [x]) (v.length + 1)) ts =
        best (fun t => decide (t.atomsRev.length ≤ v.reverse.length) &&
          acceptsAll t.atomsRev v.reverse && !t.bol) ts := by
      apply best_congr
      intro t ht
      have := TPath.hit_blind t c d v.reverse (List.all_eq_true.mp h t ht) x hx
      simpa using this
    rw [hb]
    cases hbest : best (fun t => decide (t.atomsRev.length ≤ v.reverse.length) &&
        acceptsAll t.atomsRev v.reverse && !t.bol) ts with
    | none => rfl
    | some t =>
      obtain ⟨_, hhit⟩ := best_mem _ _ _ hbest
      simp only [List.length_reverse, Bool.and_eq_true, decide_eq_true_eq] at hhit
      simp only [Option.map_some', Option.some.injEq]
      exact TPath.capsAt_succ t v.length hhit.1.1

/-- A matcher that cannot tell the first letter rewrites the word with
either first letter alike, and leaves the first letter in place. -/
theorem Spec.apply_blind (sp : Spec) (c d : Char) (v : List Char)
    (h : sp.shape.blind c d v = true) :
    ∃ o : Option (List Char), ∀ x, x = c ∨ x = d → sp.apply (x :: v) = o.map fun r => x :: r := by
  obtain ⟨shape, repl⟩ := sp
  cases shape with
  | head hs =>
    refine ⟨none, ?_⟩
    intro x hx
    simp only [Shape.blind, List.all_eq_true] at h
    apply Spec.apply_eq_none
    simp only [Shape.search, headSearch]
    rw [List.find?_eq_none.mpr]
    · rfl
    · intro t ht
      have := h t ht
      simp only [HPath.blind, Bool.and_eq_true, Bool.not_eq_true'] at this
      rcases hx with rfl | rfl
      · simp [this.1]
      · simp [this.2]
  | tail ts =>
    simp only [Shape.blind] at h
    obtain ⟨o, ho, hs⟩ := tailSearch_blind ts c d v h
    refine ⟨o.map fun m => slice v 0 (matchBounds m).1 ++ expand v m (repl.length + 1) repl ++
      v.drop (matchBounds m).2, ?_⟩
    intro x hx
    simp only [Spec.apply, Shape.search, hs x hx]
    cases o with
    | none => rfl
    | some m =>
      obtain ⟨b, hb⟩ := ho m rfl
      have he := expand_shift [x] v m (repl.length + 1) repl
      simp only [List.length_singleton, List.singleton_append] at he
      simp only [Option.map_some', matchBounds_shiftCaps _ _ _ hb, he, Option.some.injEq]
      simp [slice]

/-- Matchers that cannot tell the first letter rewrite the word with either
first letter alike. -/
theorem specApply_blind (sps : List Spec) (c d : Char) (v : List Char)
    (h : ∀ sp ∈ sps, sp.shape.blind c d v = true) :
    ∃ r, ∀ x, x = c ∨ x = d → specApply sps (x :: v) = x :: r := by
  induction sps with
  | nil => exact ⟨v, fun x _ => rfl⟩
  | cons sp sps ih =>
    obtain ⟨o, ho⟩ := Spec.apply_blind sp c d v (h sp (List.mem_cons_self _ _))
    cases o with
    | some r =>
      refine ⟨r, fun x hx => ?_⟩
      simp [specApply, ho x hx]
    | none =>
      obtain ⟨r, hr⟩ := ih fun s hs => h s (List.mem_cons_of_mem _ hs)
      refine ⟨r, fun x hx => ?_⟩
      simp [specApply, ho x hx, hr x hx]

theorem mem_slice (src : List Char) (lo hi : Nat) (x : Char) (h : x ∈ slice src lo hi) :
    x ∈ src :=
  List.mem_of_mem_drop (List.mem_of_mem_take h)

/-- Every character of an expansion comes from the word or from the literal
text of the template. -/
theorem expand_mem (src : List Char) (m : Caps) (fuel : Nat) (tmpl : List Char) (x : Char)
    (hx : x ∈ expand src m fuel tmpl) : x ∈ src ∨ x ∈ expand [] [] fuel tmpl := by
  induction fuel generalizing tmpl with
  | zero => exact Or.inr hx
  | succ fuel ih =>
    simp only [expand] at hx ⊢
    cases hd : tmpl.dropWhile (fun c => c != '$') with
    | nil =>
      rw [hd] at hx
      exact Or.inr hx
    | cons d after =>
      rw [hd] at hx
      simp only [List.mem_append] at hx ⊢
      rcases hx with hx | hx
      · exact Or.inr (Or.inl hx)
      · cases after with
        | nil =>
          simp only [List.mem_cons] at hx ⊢
          rcases hx with hx | hx
          · exact Or.inr (Or.inr (Or.inl hx))
          · rcases ih _ hx with h | h
            · exact Or.inl h
            · exact Or.inr (Or.inr (Or.inr h))
        | cons c t =>
          dsimp only at hx ⊢
          by_cases hc : (c == '$') = true
          · simp only [hc, ↓reduceIte, List.mem_cons] at hx ⊢
            rcases hx with hx | hx
            · exact Or.inr (Or.inr (Or.inl hx))
            · rcases ih _ hx with h | h
              · exact Or.inl h
              · exact Or.inr (Or.inr (Or.inr h))
          · simp only [hc, Bool.false_eq_true, ↓reduceIte] at hx ⊢
            cases he : extract (c :: t) with
            | none =>
              rw [he] at hx
              simp only [List.mem_cons] at hx ⊢
              rcases hx with hx | hx
              · exact Or.inr (Or.inr (Or.inl hx))
              · rcases ih _ hx with h | h
                · exact Or.inl h
                · exact Or.inr (Or.inr (Or.inr h))
            | some e =>
              obtain ⟨name, num, rest⟩ := e
              rw [he] at hx
              simp only [List.mem_append] at hx ⊢
              rcases hx with hx | hx
              · left
                cases num with
                | none => simp at hx
                | some n =>
                  dsimp only at hx
                  cases hcap : capOf m n with
                  | none => simp [hcap] at hx
                  | some b =>
                    obtain ⟨lo, hi⟩ := b
                    simp only [hcap] at hx
                    exact mem_slice _ _ _ _ hx
              · rcases ih _ hx with h | h
                · exact Or.inl h
                · exact Or.inr (Or.inr (Or.inr h))

theorem Spec.apply_letters (sp : Spec) (w r : List Char) (hl : sp.lettersOut = true)
    (hw : lettersOnly w = true) (h : sp.apply w = some r) : lettersOnly r = true := by
  simp only [Spec.apply] at h
  cases hs : sp.shape.search w with
  | none => simp [hs] at h
  | some m =>
    simp only [hs, Option.some.injEq] at h
    subst h
    simp only [lettersOnly, List.all_eq_true, Spec.lettersOut] at *
    intro x hx
    simp only [List.mem_append] at hx
    rcases hx with (hx | hx) | hx
    · exact hw x (mem_slice _ _ _ _ hx)
    · rcases expand_mem _ _ _ _ _ hx with h1 | h1
      · exact hw x h1
      · exact hl x h1
    · exact hw x (List.mem_of_mem_drop hx)

theorem specApply_letters (sps : List Spec) (w : List Char)
    (hl : sps.all Spec.lettersOut = true) (hw : lettersOnly w = true) :
    lettersOnly (specApply sps w) = true := by
  induction sps with
  | nil => exact hw
  | cons sp sps ih =>
    simp only [List.all_cons, Bool.and_eq_true] at hl
    simp only [specApply]
    cases hs : sp.apply w with
    | some r => exact Spec.apply_letters sp w r hl.1 hw hs
    | none => exact ih hl.2

theorem enumAll_mem (as : List Atom) (v : List Char) (h : acceptsExact as v = true)
    (hv : lowerOnly v = true) : v ∈ enumAll as := by
  induction as generalizing v with
  | nil => cases v <;> simp_all [acceptsExact, enumAll]
  | cons a as ih =>
    cases v with
    | nil => simp [acceptsExact] at h
    | cons x v =>
      simp only [acceptsExact, Bool.and_eq_true] at h
      simp only [lowerOnly, List.all_cons, Bool.and_eq_true] at hv
      simp only [enumAll, List.mem_flatMap, List.mem_filter, List.mem_map]
      exact ⟨x, ⟨mem_lowerLetters x hv.1, h.1⟩, v, ih v h.2 hv.2, rfl⟩

theorem enumWord_mem (as : List Atom) (c : Char) (v : List Char)
    (h : acceptsExact as (c :: v) = true ∨ acceptsExact as (upperChar c :: v) = true)
    (hl : lowerOnly (c :: v) = true) : c :: v ∈ enumWord as := by
  simp only [lowerOnly, List.all_cons, Bool.and_eq_true] at hl
  cases as with
  | nil => simp [acceptsExact] at h
  | cons a as =>
    simp only [acceptsExact, Bool.and_eq_true] at h
    simp only [enumWord, List.mem_flatMap, List.mem_filter, List.mem_map, Bool.or_eq_true]
    have hv : acceptsExact as v = true := by
      rcases h with h | h <;> exact h.2
    refine ⟨c, ⟨mem_lowerLetters c hl.1, ?_⟩, v, enumAll_mem as v hv hl.2, rfl⟩
    rcases h with h | h
    · exact Or.inl h.1
    · exact Or.inr h.1

theorem acceptsExact_of_acceptsAll (as : List Atom) (wr : List Char)
    (hl : as.length = wr.length) (h : acceptsAll as wr = true) :
    acceptsExact as.reverse wr.reverse = true := by
  rw [acceptsExact_iff, List.forall₂_reverse_iff]
  have := ((acceptsAll_iff as wr).mp h).2
  rwa [hl, List.take_length] at this

/-- A word whose first letter an end-anchored path can tell is among the
words the path spans. -/
theorem TPath.spanned_of_not_blind (t : TPath) (c : Char) (v : List Char)
    (hl : lowerOnly (c :: v) = true) (h : t.blind c (upperChar c) v.reverse = false) :
    c :: v ∈ enumWord t.atomsRev.reverse := by
  simp only [TPath.blind, Bool.or_eq_false_iff, bne_eq_false_iff_eq, Bool.and_eq_false_imp,
    Bool.not_eq_true', Bool.not_eq_false', List.length_reverse] at h
  obtain ⟨hk, hacc⟩ := h
  apply enumWord_mem _ _ _ _ hl
  by_cases h1 : acceptsAll t.atomsRev (v.reverse ++ [c]) = true
  · left
    have := acceptsExact_of_acceptsAll _ _ (by simp [hk]) h1
    simpa using this
  · right
    have h2 := hacc (by simpa using h1)
    have := acceptsExact_of_acceptsAll _ _ (by simp [hk]) h2
    simpa using this

theorem acceptsExact_take (as : List Atom) (w : List Char) (h : acceptsAll as w = true) :
    acceptsExact as (w.take as.length) = true := by
  rw [acceptsExact_iff]
  exact ((acceptsAll_iff as w).mp h).2

/-- The beginning of a word whose first letter a begin-anchored path can
tell is among the words the path spans. -/
theorem HPath.head_spanned_of_not_blind (h : HPath) (c : Char) (v : List Char)
    (hl : lowerOnly (c :: v) = true) (hne : h.atoms ≠ [])
    (hb : h.blind c (upperChar c) v = false) :
    ∃ p y, v = p ++ y ∧ p.length + 1 = h.atoms.length ∧ c :: p ∈ enumWord h.atoms := by
  simp only [HPath.blind, Bool.and_eq_false_imp, Bool.not_eq_true', Bool.not_eq_false'] at hb
  have key : ∀ x, acceptsAll h.atoms (x :: v) = true →
      ∃ k, k + 1 = h.atoms.length ∧ k ≤ v.length ∧ acceptsExact h.atoms (x :: v.take k) = true := by
    intro x hx
    have h1 := acceptsAll_length _ _ hx
    have h2 := acceptsExact_take _ _ hx
    cases hk : h.atoms.length with
    | zero =>
      exact absurd (List.length_eq_zero.mp hk) hne
    | succ k =>
      rw [hk] at h1 h2
      simp only [List.length_cons] at h1
      exact ⟨k, rfl, by omega, by simpa using h2⟩
  have hlow : ∀ k, lowerOnly (c :: v.take k) = true := by
    intro k
    simp only [lowerOnly, List.all_cons, Bool.and_eq_true, List.all_eq_true] at hl ⊢
    exact ⟨hl.1, fun x hx => hl.2 x (List.mem_of_mem_take hx)⟩
  by_cases h1 : acceptsAll h.atoms (c :: v) = true
  · obtain ⟨k, hk1, hk2, hk3⟩ := key c h1
    exact ⟨v.take k, v.drop k, (List.take_append_drop k v).symm, by simp [hk1, hk2],
      enumWord_mem _ _ _ (Or.inl hk3) (hlow k)⟩
  · obtain ⟨k, hk1, hk2, hk3⟩ := key _ (hb (by simpa using h1))
    exact ⟨v.take k, v.drop k, (List.take_append_drop k v).symm, by simp [hk1, hk2],
      enumWord_mem _ _ _ (Or.inr hk3) (hlow k)⟩

theorem capOf_mem (m : Caps) (n lo hi : Nat) (h : capOf m n = some (lo, hi)) :
    (n, lo, hi) ∈ m := by
  simp only [capOf] at h
  cases hf : m.find? (fun e => e.1 == n) with
  | none => simp [hf] at h
  | some e =>
    simp only [hf, Option.some.injEq] at h
    have h1 := List.find?_some hf
    have h2 := List.mem_of_find?_eq_some hf
    simp only [beq_iff_eq] at h1
    obtain ⟨a, b⟩ := e
    simp only at h h1
    subst h h1
    exact h2

theorem slice_append_left (pre y : List Char) (lo hi : Nat) (h : hi ≤ pre.length) :
    slice (pre ++ y) lo hi = slice pre lo hi := by
  simp only [slice]
  by_cases hlo : lo ≤ pre.length
  · rw [List.drop_append_of_le_length hlo, List.take_append_of_le_length (by simp; omega)]
  · have : hi - lo = 0 := by omega
    simp [this]

theorem expand_prefix (pre y : List Char) (m : Caps) (fuel : Nat) (tmpl : List Char)
    (hm : ∀ e ∈ m, e.2.2 ≤ pre.length) :
    expand (pre ++ y) m fuel tmpl = expand pre m fuel tmpl := by
  induction fuel generalizing tmpl with
  | zero => rfl
  | succ fuel ih =>
    simp only [expand]
    split
    · rfl
    · rename_i after _
      congr 1
      split
      · rw [ih]
      · rename_i c t
        split
        · rw [ih]
        · split
          · rw [ih]
          · rename_i num rest _
            rw [ih]
            congr 1
            cases num with
            | none => rfl
            | some n =>
              dsimp only
              cases hc : capOf m n with
              | none => rfl
              | some b =>
                obtain ⟨lo, hi⟩ := b
                exact slice_append_left pre y lo hi (hm _ (capOf_mem m n lo hi hc))

theorem headSearch_append (hs : List HPath) (pre y : List Char)
    (hk : hs.all (fun h => h.within pre.length) = true) :
    headSearch hs (pre ++ y) = headSearch hs pre := by
  simp only [headSearch]
  congr 1
  induction hs with
  | nil => rfl
  | cons h hs ih =>
    simp only [List.all_cons, Bool.and_eq_true] at hk
    have hw := hk.1
    simp only [HPath.within, Bool.and_eq_true, decide_eq_true_eq] at hw
    simp only [List.find?, acceptsAll_append_of_le _ _ _ hw.1, ih hk.2]

/-- Locality for begin-anchored matchers: a matcher whose paths lie within a
beginning of the word rewrites the word by rewriting that beginning. -/
theorem Spec.apply_head_append (sp : Spec) (hs : List HPath) (hsh : sp.shape = .head hs)
    (pre y : List Char) (hk : hs.all (fun h => h.within pre.length) = true) :
    sp.apply (pre ++ y) = (sp.apply pre).map fun r => r ++ y := by
  simp only [Spec.apply, hsh, Shape.search, headSearch_append hs pre y hk]
  cases hm : headSearch hs pre with
  | none => rfl
  | some m =>
    simp only [headSearch, Option.map_eq_some'] at hm
    obtain ⟨h, hf, rfl⟩ := hm
    have hmem := List.mem_of_find?_eq_some hf
    have hw := List.all_eq_true.mp hk h hmem
    simp only [HPath.within, Bool.and_eq_true, decide_eq_true_eq, List.all_eq_true] at hw
    have hcaps : ∀ e ∈ (0, 0, h.atoms.length) :: h.caps, e.2.2 ≤ pre.length := by
      intro e he
      rcases List.mem_cons.mp he with rfl | he
      · exact hw.1
      · exact hw.2 e he
    simp only [Option.map_some', expand_prefix pre y _ _ _ hcaps, Option.some.injEq]
    have hb : matchBounds ((0, 0, h.atoms.length) :: h.caps) = (0, h.atoms.length) := by
      simp [matchBounds, capOf]
    simp only [hb, slice, List.drop_zero, Nat.sub_zero, List.take_zero, List.nil_append,
      List.drop_append_of_le_length hw.1, List.append_assoc]

/-- A successful `headWalk` relates the rewriting of a word that begins
with `c :: p` and of the same word with the first letter in upper case,
when no end-anchored matcher can tell the first letter. -/
theorem headWalk_sound (c : Char) (p y : List Char) (sps : List Spec) (pend : Option (List Char))
    (hb : ∀ sp ∈ sps, sp.shape.tailBlind c (upperChar c) (p ++ y) = true)
    (h : headWalk c p pend sps = true) :
    (pend = none → ∃ r, specApply sps (c :: (p ++ y)) = c :: r ∧
      specApply sps (upperChar c :: (p ++ y)) = upperChar c :: r) ∧
    (∀ r0, pend = some r0 →
      specApply sps (upperChar c :: (p ++ y)) = upperChar c :: (r0 ++ y)) := by
  induction sps generalizing pend with
  | nil =>
    constructor
    · intro _
      exact ⟨p ++ y, rfl, rfl⟩
    · intro r0 hr
      subst hr
      simp [headWalk] at h
  | cons sp sps ih =>
    have hb2 : ∀ s ∈ sps, s.shape.tailBlind c (upperChar c) (p ++ y) = true :=
      fun s hs => hb s (List.mem_cons_of_mem _ hs)
    have hsp := hb sp (List.mem_cons_self _ _)
    simp only [headWalk] at h
    cases hsh : sp.shape with
    | tail ts =>
      simp only [hsh, Bool.and_eq_true, Option.isNone_iff_eq_none] at h
      obtain ⟨hp, hrest⟩ := h
      subst hp
      refine ⟨fun _ => ?_, fun r0 hr => by simp at hr⟩
      have hblind : sp.shape.blind c (upperChar c) (p ++ y) = true := by
        rw [hsh] at hsp ⊢
        exact hsp
      obtain ⟨o, ho⟩ := Spec.apply_blind sp c (upperChar c) (p ++ y) hblind
      cases o with
      | some r =>
        refine ⟨r, ?_, ?_⟩
        · simp [specApply, ho c (Or.inl rfl)]
        · simp [specApply, ho (upperChar c) (Or.inr rfl)]
      | none =>
        obtain ⟨r, h1, h2⟩ := (ih none hb2 hrest).1 rfl
        refine ⟨r, ?_, ?_⟩
        · simp [specApply, ho c (Or.inl rfl), h1]
        · simp [specApply, ho (upperChar c) (Or.inr rfl), h2]
    | head hs =>
      simp only [hsh, Bool.and_eq_true] at h
      obtain ⟨hin, hm⟩ := h
      have hlo := Spec.apply_head_append sp hs hsh (c :: p) y (by simpa using hin)
      have hup := Spec.apply_head_append sp hs hsh (upperChar c :: p) y (by simpa using hin)
      simp only [List.cons_append] at hlo hup
      cases pend with
      | some r0 =>
        refine ⟨fun hn => by simp at hn, fun r1 hr => ?_⟩
        simp only [Option.some.injEq] at hr
        subst hr
        dsimp only at hm
        cases hu : sp.apply (upperChar c :: p) with
        | some r2 =>
          simp only [hu, beq_iff_eq] at hm
          simp [specApply, hup, hu, hm]
        | none =>
          simp only [hu] at hm
          simp only [specApply, hup, hu, Option.map_none']
          exact (ih (some r0) hb2 hm).2 r0 rfl
      | none =>
        refine ⟨fun _ => ?_, fun r0 hr => by simp at hr⟩
        dsimp only at hm
        cases hl : sp.apply (c :: p) with
        | none =>
          cases hu : sp.apply (upperChar c :: p) with
          | none =>
            simp only [hl, hu] at hm
            obtain ⟨r, h1, h2⟩ := (ih none hb2 hm).1 rfl
            exact ⟨r, by simp [specApply, hlo, hl, h1], by simp [specApply, hup, hu, h2]⟩
          | some r2 => simp [hl, hu] at hm
        | some r1 =>
          cases r1 with
          | nil =>
            cases hu : sp.apply (upperChar c :: p) <;> simp [hl, hu] at hm
          | cons x r =>
            cases hu : sp.apply (upperChar c :: p) with
            | some r2 =>
              simp only [hl, hu, Bool.and_eq_true, beq_iff_eq] at hm
              obtain ⟨rfl, rfl⟩ := hm
              exact ⟨r ++ y, by simp [specApply, hlo, hl], by simp [specApply, hup, hu]⟩
            | none =>
              simp only [hl, hu, Bool.and_eq_true, beq_iff_eq] at hm
              obtain ⟨rfl, hm⟩ := hm
              refine ⟨r ++ y, by simp [specApply, hlo, hl], ?_⟩
              simp only [specApply, hup, hu, Option.map_none']
              exact (ih (some r) hb2 hm).2 r rfl

theorem Shape.blind_of_tail (sh : Shape) (ts : List TPath) (h : sh = .tail ts) (c d : Char)
    (v : List Char) : sh.blind c d v = sh.tailBlind c d v := by
  subst h
  rfl

theorem titleCheck_sound (sps : List Spec) (excl : List String)
    (h : titleCheck sps excl = true) (w : List Char) (hw : lowerOnly w = true) (hne : w ≠ [])
    (hex : String.mk w ∉ excl) :
    specApply sps (titleChars ' ' w) = titleChars ' ' (specApply sps w) := by
  simp only [titleCheck, Bool.and_eq_true] at h
  obtain ⟨⟨⟨hlet, hprop⟩, htail⟩, hhead⟩ := h
  cases w with
  | nil => exact absurd rfl hne
  | cons c v =>
    have hlw := lettersOnly_of_lowerOnly _ hw
    have done : ∀ r, specApply sps (c :: v) = c :: r →
        specApply sps (upperChar c :: v) = upperChar c :: r →
        specApply sps (titleChars ' ' (c :: v)) = titleChars ' ' (specApply sps (c :: v)) := by
      intro r h1 h2
      have hl := specApply_letters sps (c :: v) hlet hlw
      rw [h1] at hl
      rw [titleChars_word c v hlw, h1, titleChars_word c r hl, h2]
    by_cases hT : ∀ sp ∈ sps, sp.shape.tailBlind c (upperChar c) v = true
    · by_cases hH : ∀ sp ∈ sps, sp.shape.blind c (upperChar c) v = true
      · obtain ⟨r, hr⟩ := specApply_blind sps c (upperChar c) v hH
        exact done r (hr c (Or.inl rfl)) (hr _ (Or.inr rfl))
      · simp only [not_forall] at hH
        obtain ⟨sp, hsp, hnb⟩ := hH
        cases hsh : sp.shape with
        | tail ts =>
          rw [Shape.blind_of_tail _ ts hsh] at hnb
          exact absurd (hT sp hsp) hnb
        | head hs =>
          simp only [hsh, Shape.blind, List.all_eq_true, not_forall] at hnb
          obtain ⟨hp, hhp, hnb⟩ := hnb
          have hpr := List.all_eq_true.mp hprop sp hsp
          simp only [hsh, Shape.proper, List.all_eq_true] at hpr
          obtain ⟨p, y, rfl, _, hmem⟩ := HPath.head_spanned_of_not_blind hp c v hw
            (by simpa using hpr hp hhp) (by simpa using hnb)
          have hwalk := List.all_eq_true.mp hhead (c :: p)
            (List.mem_flatMap.mpr ⟨sp, hsp, by
              simp only [hsh, Shape.headSpanned]
              exact List.mem_flatMap.mpr ⟨hp, hhp, hmem⟩⟩)
          obtain ⟨r, h1, h2⟩ := (headWalk_sound c p y sps none hT hwalk).1 rfl
          exact done r h1 h2
    · simp only [not_forall] at hT
      obtain ⟨sp, hsp, hnb⟩ := hT
      cases hsh : sp.shape with
      | head hs => simp [hsh, Shape.tailBlind] at hnb
      | tail ts =>
        simp only [hsh, Shape.tailBlind, List.all_eq_true, not_forall] at hnb
        obtain ⟨t, ht, hnb⟩ := hnb
        have hmem := TPath.spanned_of_not_blind t c v hw (by simpa using hnb)
        have hchk := List.all_eq_true.mp htail (c :: v)
          (List.mem_dedup.mpr (List.mem_flatMap.mpr ⟨sp, hsp, by
            simp only [hsh, Shape.tailSpanned]
            exact List.mem_flatMap.mpr ⟨t, ht, hmem⟩⟩))
        simp only [Bool.or_eq_true, titleHolds, beq_iff_eq] at hchk
        rcases hchk with hchk | hchk
        · exact absurd (List.mem_of_elem_eq_true hchk) hex
        · exact hchk

theorem commutesTitle_sound (o : Outcome) (pick : State → List inflection) (excl : List String)
    (h : commutesTitle o pick excl = true) :
    o.Holds fun s => ∀ w : String, lowerOnly w.data = true → w.data ≠ [] →
      (applyFirst (pick s) (Title w) = Title (applyFirst (pick s) w) ↔ w ∉ excl) := by
  cases o with
  | done s =>
    simp only [commutesTitle] at h
    cases hs : specs (pick s) with
    | none => simp [hs] at h
    | some sps =>
      simp only [hs, Bool.and_eq_true, List.all_eq_true, Bool.not_eq_true', titleHolds,
        beq_eq_false_iff_ne] at h
      intro w hw hne
      rw [applyFirst_eq_specApply _ sps hs, applyFirst_eq_specApply _ sps hs]
      simp only [Title]
      constructor
      · intro heq hin
        exact h.2 w hin (congrArg String.data heq)
      · intro hin
        exact congrArg String.mk (titleCheck_sound sps excl h.1 w.data hw hne hin)
  | panic s => simp [commutesTitle] at h
  | unmodelled => simp [commutesTitle] at h

/-- A list is covered by its runs of `k` items. -/
theorem all_of_allChunk {α : Type} (p : α → Bool) (l : List α) (k n : Nat)
    (hk : l.length ≤ k * n) (h : ∀ i < n, allChunk p l k i = true) : l.all p = true := by
  induction n generalizing l with
  | zero =>
    have : l = [] := List.length_eq_zero.mp (by omega)
    subst this
    rfl
  | succ n ih =>
    rw [← List.take_append_drop k l, List.all_append, Bool.and_eq_true]
    constructor
    · have := h 0 (by omega)
      simpa [allChunk] using this
    · apply ih
      · rw [List.length_drop]
        have : k * (n + 1) = k * n + k := by ring
        omega
      · intro i hi
        have := h (i + 1) (by omega)
        simp only [allChunk] at this ⊢
        rw [List.drop_drop]
        have e : k * i + k = k * (i + 1) := by ring
        rw [← e] at this
        simpa [Nat.add_comm] using this

/-- The compiled plural list of the initial state has the description
`pluralSpecs`. -/
theorem init_pluralSpecs : specs init.state.compiledPluralMaps = some pluralSpecs :=
  init_describe.2.1

/-- The compiled singular list of the initial state has the description
`singularSpecs`. -/
theorem init_singularSpecs : specs init.state.compiledSingularMaps = some singularSpecs :=
  init_describe.2.2

theorem Outcome.Holds.imp {o : Outcome} {p q : State → Prop} (h : o.Holds p)
    (hpq : ∀ s, p s → q s) : o.Holds q := by
  cases o with
  | done s => exact hpq s h
  | panic s => exact h
  | unmodelled => exact h

/-- The test state exists and its compiled lists have the descriptions
`testPluralSpecs` and `testSingularSpecs`. -/
theorem testInit_describe :
    testInit.Holds fun s => specs s.compiledPluralMaps = some testPluralSpecs ∧
      specs s.compiledSingularMaps = some testSingularSpecs := by
  obtain ⟨hd, _, _⟩ := init_describe
  obtain ⟨t1, t2, t3, t4⟩ := init_tables
  obtain ⟨t, ht, h1, h2⟩ := compile_describe
    { init.state with irregularInflections :=
        init.state.irregularInflections ++ [⟨"criterion", "criteria"⟩] }
    t1 t2 (by rw [t4]; decide) (by simp only [t3]; decide)
  have e : testInit = .done t := by
    rw [testInit, hd]
    exact ht
  rw [e]
  simp only [t3, t4] at h1 h2
  exact ⟨h1, h2⟩

/-- The test state exists and its compiled plural list has the description
`testPluralSpecs`. -/
theorem testInit_pluralSpecs :
    testInit.Holds fun s => specs s.compiledPluralMaps = some testPluralSpecs :=
  testInit_describe.imp fun _ h => h.1

/-- The compiled singular list of the test state has the description
`testSingularSpecs`. -/
theorem testInit_singularSpecs :
    testInit.Holds fun s => specs s.compiledSingularMaps = some testSingularSpecs :=
  testInit_describe.imp fun _ h => h.2

/-- In the initial state `Plural` rewrites along `pluralSpecs`. -/
theorem Plural_init (w : String) : Plural init.state w = ⟨specApply pluralSpecs w.data⟩ :=
  applyFirst_eq_specApply _ _ init_pluralSpecs w

/-- In the initial state `Singular` rewrites along `singularSpecs`. -/
theorem Singular_init (w : String) : Singular init.state w = ⟨specApply singularSpecs w.data⟩ :=
  applyFirst_eq_specApply _ _ init_singularSpecs w

/-! ## The scan restricted by the last character -/

theorem Shape.search_of_not_mayEnd (sh : Shape) (x : Char) (r : List Char)
    (h : sh.mayEnd x = false) : sh.search (r.reverse ++ [x]) = none := by
  cases sh with
  | head hs => simp [Shape.mayEnd] at h
  | tail ts =>
    simp only [Shape.mayEnd, List.any_eq_false] at h
    simp only [Shape.search, tailSearch]
    rw [best_eq_none]
    · rfl
    · intro t ht
      have h1 := h t ht
      simp only [TPath.hit, List.reverse_append, List.reverse_cons, List.reverse_nil,
        List.nil_append, List.singleton_append, List.reverse_reverse]
      cases hat : t.atomsRev with
      | nil => simp [hat] at h1
      | cons a as =>
        simp only [hat] at h1
        have h2 : a.accepts x = false := by simpa using h1
        simp [acceptsAll, h2]

theorem specApply_lastFilter (sps : List Spec) (x : Char) (r : List Char) :
    specApply (lastFilter sps x) (r.reverse ++ [x]) = specApply sps (r.reverse ++ [x]) := by
  induction sps with
  | nil => rfl
  | cons sp sps ih =>
    simp only [lastFilter, List.filter_cons]
    cases hm : sp.shape.mayEnd x with
    | true =>
      simp only [↓reduceIte, specApply]
      cases sp.apply (r.reverse ++ [x]) with
      | none => exact ih
      | some y => rfl
    | false =>
      simp only [Bool.false_eq_true, ↓reduceIte, specApply,
        Spec.apply_eq_none sp _ (Shape.search_of_not_mayEnd sp.shape x r hm)]
      exact ih

theorem quickApply_eq (sps : List Spec) (w : List Char) : quickApply sps w = specApply sps w := by
  simp only [quickApply]
  cases hr : w.reverse with
  | nil => rfl
  | cons x r =>
    have hw : w = r.reverse ++ [x] := by
      rw [← List.reverse_reverse w, hr, List.reverse_cons]
    simp only
    rw [hw]
    exact specApply_lastFilter sps x r

theorem rewrites_eq_quick (sps : List Spec) : rewrites sps = rewritesQuick sps := by
  funext e
  simp only [rewrites, rewritesQuick, quickApply_eq]

theorem titleHolds_eq_quick (sps : List Spec) : titleHolds sps = titleHoldsQuick sps := by
  funext w
  simp only [titleHolds, titleHoldsQuick, quickApply_eq]

theorem rewrites_sound (o : Outcome) (pick : State → List inflection) (sps : List Spec)
    (tests : List (String × String)) (hs : o.Holds fun s => specs (pick s) = some sps)
    (h : tests.all (rewrites sps) = true) :
    o.Holds fun s => ∀ e ∈ tests, applyFirst (pick s) e.1 = e.2 := by
  cases o with
  | done s =>
    intro e he
    have := List.all_eq_true.mp h e he
    simp only [rewrites, beq_iff_eq] at this
    rw [applyFirst_eq_specApply _ sps hs, this]
  | panic s => exact hs
  | unmodelled => exact hs

set_option maxRecDepth 1000000 in
/-- C1. With the built-in tables and the test's `AddIrregular("criterion",
"criteria")`, every entry (singular, plural) of the test corpus satisfies
`Plural(singular) = plural`, `Plural(ToUpper(singular)) = ToUpper(plural)`
and `Plural(Title(singular)) = Title(plural)`. -/
theorem plural_test_corpus :
    testInit.Holds fun s => ∀ e ∈ inflections,
      Plural s e.1 = e.2 ∧ Plural s (ToUpper e.1) = ToUpper e.2 ∧
        Plural s (Title e.1) = Title e.2 :=
  caseForms_holds testInit State.compiledPluralMaps inflections
    (rewrites_sound testInit State.compiledPluralMaps testPluralSpecs (caseForms inflections)
      testInit_pluralSpecs
      (all_of_allChunk _ _ 80 2 (by decide!) (fun i hi => by
        rw [rewrites_eq_quick]; interval_cases i <;> decide!)))

set_option maxRecDepth 1000000 in
/-- C2. With the built-in tables and the test's `AddIrregular("criterion",
"criteria")`, every entry (singular, plural) of the test corpus satisfies
`Singular(plural) = singular`, `Singular(ToUpper(plural)) = ToUpper(singular)`
and `Singular(Title(plural)) = Title(singular)`. -/
theorem singular_test_corpus :
    testInit.Holds fun s => ∀ e ∈ inflections,
      Singular s e.2 = e.1 ∧ Singular s (ToUpper e.2) = ToUpper e.1 ∧
        Singular s (Title e.2) = Title e.1 := by
  have h := caseForms_holds testInit State.compiledSingularMaps (swapped inflections)
    (rewrites_sound testInit State.compiledSingularMaps testSingularSpecs
      (caseForms (swapped inflections)) testInit_singularSpecs
      (all_of_allChunk _ _ 80 2 (by decide!) (fun i hi => by
        rw [rewrites_eq_quick]; interval_cases i <;> decide!)))
  cases ht : testInit with
  | done s =>
    rw [ht] at h
    intro e he
    exact h (e.2, e.1) (List.mem_map.mpr ⟨e, he, rfl⟩)
  | panic s => rw [ht] at h; exact h
  | unmodelled => rw [ht] at h; exact h

theorem rewritesEnd_sound (l : List inflection) (sps : List Spec) (hs : specs l = some sps)
    (tests : List (String × String)) (h : tests.all (rewritesEnd sps) = true) :
    ∀ e ∈ tests, ∀ x : String, applyFirst l (x ++ e.1) = x ++ e.2 := by
  intro e he x
  have := List.all_eq_true.mp h e he
  simp only [rewritesEnd, Bool.and_eq_true, beq_iff_eq] at this
  rw [applyFirst_eq_specApply _ sps hs]
  show (⟨specApply sps (x.data ++ e.1.data)⟩ : String) = x ++ e.2
  rw [specApply_append sps x.data e.1.data this.1, this.2]
  rfl

theorem Outcome.holds_of_done (o : Outcome) (s : State) (h : o = .done s) (p : State → Prop)
    (hp : p s) : o.Holds p := by
  subst h
  exact hp

set_option maxRecDepth 1000000 in
/-- C4. Irregular pairs apply to compound words as a suffix and keep the case
form: with the built-in tables, for every string `x` and every built-in
irregular pair `(s, p)`, in lower case, title case and upper case alike,
`Plural(x ++ s) = x ++ p` and `Singular(x ++ p) = x ++ s`; in particular
`Plural("salesperson") = "salespeople"`, `Plural("FancyPerson") =
"FancyPeople"`, `Plural("PERSON") = "PEOPLE"` and `Singular("people") =
"person"`. -/
theorem irregular_suffix :
    init.Holds fun s =>
      (∀ (x : String), ∀ e ∈ irregularInflections,
        Plural s (x ++ e.singular) = x ++ e.plural ∧
        Plural s (x ++ Title e.singular) = x ++ Title e.plural ∧
        Plural s (x ++ ToUpper e.singular) = x ++ ToUpper e.plural ∧
        Singular s (x ++ e.plural) = x ++ e.singular ∧
        Singular s (x ++ Title e.plural) = x ++ Title e.singular ∧
        Singular s (x ++ ToUpper e.plural) = x ++ ToUpper e.singular) ∧
      Plural s "salesperson" = "salespeople" ∧ Plural s "FancyPerson" = "FancyPeople" ∧
      Plural s "PERSON" = "PEOPLE" ∧ Singular s "people" = "person" := by
  have hp := rewritesEnd_sound _ _ init_pluralSpecs (caseForms irregularPairs)
    (all_of_allChunk _ _ 9 2 (by decide!) (fun i hi => by interval_cases i <;> decide!))
  have hs := rewritesEnd_sound _ _ init_singularSpecs (caseForms (swapped irregularPairs))
    (all_of_allChunk _ _ 9 2 (by decide!) (fun i hi => by interval_cases i <;> decide!))
  apply Outcome.holds_of_done init init.state init_done
  have key : ∀ (x : String), ∀ e ∈ irregularInflections,
      Plural init.state (x ++ e.singular) = x ++ e.plural ∧
      Plural init.state (x ++ Title e.singular) = x ++ Title e.plural ∧
      Plural init.state (x ++ ToUpper e.singular) = x ++ ToUpper e.plural ∧
      Singular init.state (x ++ e.plural) = x ++ e.singular ∧
      Singular init.state (x ++ Title e.plural) = x ++ Title e.singular ∧
      Singular init.state (x ++ ToUpper e.plural) = x ++ ToUpper e.singular := by
    intro x e he
    have m1 := caseForms_mem irregularPairs (e.singular, e.plural)
      (List.mem_map.mpr ⟨e, he, rfl⟩)
    have m2 := caseForms_mem (swapped irregularPairs) (e.plural, e.singular)
      (List.mem_map.mpr ⟨(e.singular, e.plural), List.mem_map.mpr ⟨e, he, rfl⟩, rfl⟩)
    exact ⟨hp _ m1.1 x, hp _ m1.2.2 x, hp _ m1.2.1 x, hs _ m2.1 x, hs _ m2.2.2 x,
      hs _ m2.2.1 x⟩
  refine ⟨key, ?_, ?_, ?_, ?_⟩
  · exact (key "sales" ⟨"person", "people"⟩ (by simp [irregularInflections])).1
  · exact (key "Fancy" ⟨"person", "people"⟩ (by simp [irregularInflections])).2.1
  · exact (key "" ⟨"person", "people"⟩ (by simp [irregularInflections])).2.2.1
  · exact (key "" ⟨"person", "people"⟩ (by simp [irregularInflections])).2.2.2.1

theorem specApply_eq_specFirst (sps : List Spec) (w : List Char) :
    specApply sps w = (specFirst sps w).getD w := by
  induction sps with
  | nil => rfl
  | cons sp sps ih =>
    simp only [specApply, specFirst]
    cases sp.apply w with
    | some r => rfl
    | none => exact ih

theorem specFirst_append (a b : List Spec) (w : List Char) :
    specFirst (a ++ b) w =
      match specFirst a w with
      | some r => some r
      | none => specFirst b w := by
  induction a with
  | nil => rfl
  | cons sp a ih =>
    simp only [List.cons_append, specFirst]
    cases sp.apply w with
    | some r => rfl
    | none => exact ih

theorem UpperCommutes.append {a b : List Spec} (ha : UpperCommutes a) (hb : UpperCommutes b) :
    UpperCommutes (a ++ b) := by
  intro w hw
  rw [specFirst_append, specFirst_append, ha w hw, hb w hw]
  cases specFirst a w <;> rfl

theorem UpperCommutes.specApply {l : List Spec} (h : UpperCommutes l) (w : List Char)
    (hw : lowerOnly w = true) : specApply l (upperChars w) = upperChars (specApply l w) := by
  rw [specApply_eq_specFirst, specApply_eq_specFirst, h w hw]
  cases specFirst l w <;> rfl

/-- Pruning does not change the result on words over the alphabet. -/
theorem prune_first (alphabet : List Char) (w : List Char) (hw : ∀ c ∈ w, c ∈ alphabet)
    (sps : List Spec) (prev : Option Spec) (hprev : ∀ p, prev = some p → p.shape.search w = none) :
    specFirst (prune alphabet prev sps) w = specFirst sps w := by
  induction sps generalizing prev with
  | nil => rfl
  | cons sp sps ih =>
    simp only [prune]
    have keep : specFirst (sp :: prune alphabet (some sp) sps) w = specFirst (sp :: sps) w := by
      simp only [specFirst]
      cases hs : sp.apply w with
      | some r => rfl
      | none =>
        apply ih
        intro p hp
        simp only [Option.some.injEq] at hp
        subst hp
        simp only [Spec.apply] at hs
        cases hq : sp.shape.search w with
        | none => rfl
        | some m => simp [hq] at hs
    by_cases hd : sp.shape.dead alphabet = true
    · simp only [hd, ↓reduceIte]
      rw [ih prev hprev]
      simp only [specFirst, Spec.apply_eq_none sp w (Shape.search_dead alphabet _ w hd hw)]
    · simp only [hd, Bool.false_eq_true, ↓reduceIte]
      cases prev with
      | none => exact keep
      | some p =>
        dsimp only
        by_cases ha : sp.shape.agree (selfPairs alphabet) p.shape = true
        · simp only [ha, ↓reduceIte]
          rw [ih (some p) hprev]
          have hq := Shape.search_agree _ _ _ w w ha (related_self alphabet w hw)
          rw [hprev p rfl] at hq
          simp only [specFirst, Spec.apply_eq_none sp w hq]
        · simp only [ha, Bool.false_eq_true, ↓reduceIte]
          exact keep

theorem specFirst_upper (ups los : List Spec) (h : listAgree Spec.upperOf ups los = true)
    (w : List Char) (hw : lowerOnly w = true) :
    specFirst ups (upperChars w) = (specFirst los w).map upperChars := by
  induction ups generalizing los with
  | nil => cases los <;> simp_all [listAgree, specFirst]
  | cons up ups ih =>
    cases los with
    | nil => simp [listAgree] at h
    | cons lo los =>
      simp only [listAgree, Bool.and_eq_true] at h
      simp only [specFirst, Spec.apply_upper up lo h.1 w hw]
      cases lo.apply w with
      | none => exact ih los h.2
      | some r => rfl

/-- A list of matchers that passes `upperCheck` commutes with upper-casing on
lower-case words. -/
theorem upperCheck_first (sps : List Spec) (h : upperCheck sps = true) : UpperCommutes sps := by
  intro w hw
  have hl : ∀ c ∈ w, c ∈ lowerLetters := by
    intro c hc
    simp only [lowerOnly, List.all_eq_true] at hw
    exact mem_lowerLetters c (hw c hc)
  rw [← prune_first upperLetters (upperChars w) (mem_upperLetters w hw) sps none (by simp),
    ← prune_first lowerLetters w hl sps none (by simp)]
  exact specFirst_upper _ _ h w hw

/-- A list commutes with upper-casing when each of its runs of `k` matchers
passes `upperCheck`. -/
theorem upperCommutes_of_chunks (l : List Spec) (k n : Nat) (hk : l.length ≤ k * n)
    (h : ∀ i < n, upperCheck ((l.drop (k * i)).take k) = true) : UpperCommutes l := by
  induction n generalizing l with
  | zero =>
    have : l = [] := List.length_eq_zero.mp (by omega)
    subst this
    intro w _
    rfl
  | succ n ih =>
    rw [← List.take_append_drop k l]
    apply UpperCommutes.append
    · have := h 0 (by omega)
      exact upperCheck_first _ (by simpa using this)
    · apply ih
      · rw [List.length_drop]
        have : k * (n + 1) = k * n + k := by ring
        omega
      · intro i hi
        have := h (i + 1) (by omega)
        rw [List.drop_drop]
        have e : k * i + k = k * (i + 1) := by ring
        rw [← e] at this
        simpa [Nat.add_comm] using this

set_option maxRecDepth 1000000 in
/-- The compiled plural list of the initial state commutes with upper-casing. -/
theorem pluralSpecs_upper : UpperCommutes pluralSpecs := by
  apply UpperCommutes.append
  · apply UpperCommutes.append
    · exact upperCommutes_of_chunks _ 10 1 (by decide!)
        (fun i hi => by interval_cases i; decide!)
    · exact upperCommutes_of_chunks _ 9 2 (by decide!)
        (fun i hi => by interval_cases i <;> decide!)
  · exact upperCommutes_of_chunks _ 9 7 (by decide!)
      (fun i hi => by interval_cases i <;> decide!)

set_option maxRecDepth 1000000 in
/-- The compiled singular list of the initial state commutes with upper-casing. -/
theorem singularSpecs_upper : UpperCommutes singularSpecs := by
  apply UpperCommutes.append
  · apply UpperCommutes.append
    · exact upperCommutes_of_chunks _ 10 1 (by decide!)
        (fun i hi => by interval_cases i; decide!)
    · exact upperCommutes_of_chunks _ 9 2 (by decide!)
        (fun i hi => by interval_cases i <;> decide!)
  · exact upperCommutes_of_chunks _ 12 7 (by decide!)
      (fun i hi => by interval_cases i <;> decide!)

/-- C6. Upper-casing commutes with both operations: with the built-in
tables, for every word `w` of ASCII lower-case letters,
`Plural(ToUpper(w)) = ToUpper(Plural(w))` and
`Singular(ToUpper(w)) = ToUpper(Singular(w))`. -/
theorem upper_commutes (w : String) (hw : lowerOnly w.data = true) :
    Plural init.state (ToUpper w) = ToUpper (Plural init.state w) ∧
      Singular init.state (ToUpper w) = ToUpper (Singular init.state w) := by
  rw [Plural_init, Plural_init, Singular_init, Singular_init]
  simp only [ToUpper]
  rw [pluralSpecs_upper.specApply w.data hw, singularSpecs_upper.specApply w.data hw]
  exact ⟨rfl, rfl⟩

/-- Witness of C6: `Plural("STAR") = ToUpper(Plural("star"))` and
`Singular("WIVES") = ToUpper(Singular("wives"))`. -/
theorem upper_commutes_witness :
    lowerOnly "star".data = true ∧ lowerOnly "wives".data = true ∧
      Plural init.state "STAR" = ToUpper (Plural init.state "star") ∧
      Singular init.state "WIVES" = ToUpper (Singular init.state "wives") :=
  ⟨by decide, by decide, (upper_commutes "star" (by decide)).1,
    (upper_commutes "wives" (by decide)).2⟩

/-- Every item of a list lies in one of its runs of `k` items. -/
theorem exists_chunk_of_mem {α : Type} (l : List α) (k n : Nat) (hk : l.length ≤ k * n)
    (x : α) (hx : x ∈ l) : ∃ i < n, x ∈ (l.drop (k * i)).take k := by
  induction n generalizing l with
  | zero =>
    have : l = [] := List.length_eq_zero.mp (by omega)
    subst this
    simp at hx
  | succ n ih =>
    rw [← List.take_append_drop k l, List.mem_append] at hx
    rcases hx with hx | hx
    · exact ⟨0, by omega, by simpa using hx⟩
    · have hlen : (l.drop k).length ≤ k * n := by
        rw [List.length_drop]
        have : k * (n + 1) = k * n + k := by ring
        omega
      obtain ⟨i, hi, hmem⟩ := ih (l.drop k) hlen hx
      refine ⟨i + 1, by omega, ?_⟩
      rw [List.drop_drop] at hmem
      have e : k * i + k = k * (i + 1) := by ring
      rw [← e]
      simpa [Nat.add_comm] using hmem

theorem titleTail_sound (sps : List Spec) (excl : List String) (part : List Spec) (k n : Nat)
    (hk : part.length ≤ k * n)
    (h : ∀ i < n, titleTail sps excl ((part.drop (k * i)).take k) = true) :
    ∀ sp ∈ part, ∀ w ∈ sp.shape.tailSpanned, String.mk w ∈ excl ∨ titleHolds sps w = true := by
  intro sp hsp w hw
  obtain ⟨i, hi, hmem⟩ := exists_chunk_of_mem part k n hk sp hsp
  have := List.all_eq_true.mp (h i hi) w
    (List.mem_dedup.mpr (List.mem_flatMap.mpr ⟨sp, hmem, hw⟩))
  simp only [Bool.or_eq_true] at this
  rcases this with h1 | h1
  · exact Or.inl (List.mem_of_elem_eq_true h1)
  · exact Or.inr h1

theorem titleTailQuick_sound (sps : List Spec) (excl : List String) (part : List Spec) (k n : Nat)
    (hk : part.length ≤ k * n)
    (h : ∀ i < n, titleTailQuick sps excl ((part.drop (k * i)).take k) = true) :
    ∀ sp ∈ part, ∀ w ∈ sp.shape.tailSpanned, String.mk w ∈ excl ∨ titleHolds sps w = true := by
  intro sp hsp w hw
  obtain ⟨i, hi, hmem⟩ := exists_chunk_of_mem part k n hk sp hsp
  have := List.all_eq_true.mp (h i hi) w (List.mem_flatMap.mpr ⟨sp, hmem, hw⟩)
  simp only [Bool.or_eq_true] at this
  rcases this with h1 | h1
  · exact Or.inl (List.mem_of_elem_eq_true h1)
  · exact Or.inr (by rw [titleHolds_eq_quick]; exact h1)

/-- Rewriting commutes with `Title` on every non-empty lower-case word
outside `excl` when the replacements are made of letters, every word an
end-anchored path can span is outside `excl` or passes, and `headWalk`
succeeds on every beginning a begin-anchored path can span. -/
theorem title_of_checks (sps : List Spec) (excl : List String)
    (hlet : sps.all Spec.lettersOut = true) (hprop : sps.all (fun sp => sp.shape.proper) = true)
    (htail : ∀ sp ∈ sps, ∀ w ∈ sp.shape.tailSpanned,
      String.mk w ∈ excl ∨ titleHolds sps w = true)
    (hhead : titleHead sps = true)
    (w : List Char) (hw : lowerOnly w = true) (hne : w ≠ []) (hex : String.mk w ∉ excl) :
    specApply sps (titleChars ' ' w) = titleChars ' ' (specApply sps w) := by
  cases w with
  | nil => exact absurd rfl hne
  | cons c v =>
    have hlw := lettersOnly_of_lowerOnly _ hw
    have done : ∀ r, specApply sps (c :: v) = c :: r →
        specApply sps (upperChar c :: v) = upperChar c :: r →
        specApply sps (titleChars ' ' (c :: v)) = titleChars ' ' (specApply sps (c :: v)) := by
      intro r h1 h2
      have hl := specApply_letters sps (c :: v) hlet hlw
      rw [h1] at hl
      rw [titleChars_word c v hlw, h1, titleChars_word c r hl, h2]
    by_cases hT : ∀ sp ∈ sps, sp.shape.tailBlind c (upperChar c) v = true
    · by_cases hH : ∀ sp ∈ sps, sp.shape.blind c (upperChar c) v = true
      · obtain ⟨r, hr⟩ := specApply_blind sps c (upperChar c) v hH
        exact done r (hr c (Or.inl rfl)) (hr _ (Or.inr rfl))
      · simp only [not_forall] at hH
        obtain ⟨sp, hsp, hnb⟩ := hH
        cases hsh : sp.shape with
        | tail ts =>
          rw [Shape.blind_of_tail _ ts hsh] at hnb
          exact absurd (hT sp hsp) hnb
        | head hs =>
          simp only [hsh, Shape.blind, List.all_eq_true, not_forall] at hnb
          obtain ⟨hp, hhp, hnb⟩ := hnb
          have hpr := List.all_eq_true.mp hprop sp hsp
          simp only [hsh, Shape.proper, List.all_eq_true] at hpr
          obtain ⟨p, y, rfl, _, hmem⟩ := HPath.head_spanned_of_not_blind hp c v hw
            (by simpa using hpr hp hhp) (by simpa using hnb)
          have hwalk := List.all_eq_true.mp hhead (c :: p)
            (List.mem_flatMap.mpr ⟨sp, hsp, by
              simp only [hsh, Shape.headSpanned]
              exact List.mem_flatMap.mpr ⟨hp, hhp, hmem⟩⟩)
          obtain ⟨r, h1, h2⟩ := (headWalk_sound c p y sps none hT hwalk).1 rfl
          exact done r h1 h2
    · simp only [not_forall] at hT
      obtain ⟨sp, hsp, hnb⟩ := hT
      cases hsh : sp.shape with
      | head hs => simp [hsh, Shape.tailBlind] at hnb
      | tail ts =>
        simp only [hsh, Shape.tailBlind, List.all_eq_true, not_forall] at hnb
        obtain ⟨t, ht, hnb⟩ := hnb
        have hmem := TPath.spanned_of_not_blind t c v hw (by simpa using hnb)
        have hchk := htail sp hsp (c :: v) (by
          simp only [hsh, Shape.tailSpanned]
          exact List.mem_flatMap.mpr ⟨t, ht, hmem⟩)
        rcases hchk with hchk | hchk
        · exact absurd hchk hex
        · simpa [titleHolds] using hchk

theorem mem_describe (unc : List String) (pairs : List (String × String)) (rules : List Spec)
    (P : Spec → Prop) (h1 : ∀ sp ∈ unc.map (fun u => uncountableSpec u.data), P sp)
    (h2 : ∀ sp ∈ pairs.flatMap (fun e => wordSpecs e.1 e.2), P sp)
    (h3 : ∀ sp ∈ rules.flatMap ruleSpecs, P sp) : ∀ sp ∈ describe unc pairs rules, P sp := by
  intro sp hsp
  simp only [describe, List.mem_append] at hsp
  rcases hsp with (h | h) | h
  · exact h1 sp h
  · exact h2 sp h
  · exact h3 sp h

set_option maxHeartbeats 1000000 in
set_option maxRecDepth 1000000 in
/-- Along `pluralSpecs` rewriting commutes with `Title` on every non-empty
lower-case word outside the exceptions. -/
theorem pluralSpecs_title (w : List Char) (hw : lowerOnly w = true) (hne : w ≠ [])
    (hex : String.mk w ∉ pluralTitleExceptions) :
    specApply pluralSpecs (titleChars ' ' w) = titleChars ' ' (specApply pluralSpecs w) := by
  refine title_of_checks pluralSpecs pluralTitleExceptions (by decide!) (by decide!) ?_
    (by decide!) w hw hne hex
  exact mem_describe uncountableInflections irregularPairs pluralRuleSpecs
    (fun sp => ∀ w ∈ sp.shape.tailSpanned,
      String.mk w ∈ pluralTitleExceptions ∨ titleHolds pluralSpecs w = true)
    (titleTailQuick_sound pluralSpecs pluralTitleExceptions
      (uncountableInflections.map fun u => uncountableSpec u.data) 10 1 (by decide!)
      (fun i hi => by interval_cases i; decide!))
    (titleTailQuick_sound pluralSpecs pluralTitleExceptions
      (irregularPairs.flatMap fun e => wordSpecs e.1 e.2) 18 1 (by decide!)
      (fun i hi => by interval_cases i; decide!))
    (titleTailQuick_sound pluralSpecs pluralTitleExceptions (pluralRuleSpecs.flatMap ruleSpecs)
      33 2 (by decide!) (fun i hi => by interval_cases i <;> decide!))

set_option maxHeartbeats 1000000 in
set_option maxRecDepth 1000000 in
/-- Along `singularSpecs` rewriting commutes with `Title` on every non-empty
lower-case word outside the exceptions. -/
theorem singularSpecs_title (w : List Char) (hw : lowerOnly w = true) (hne : w ≠ [])
    (hex : String.mk w ∉ singularTitleExceptions) :
    specApply singularSpecs (titleChars ' ' w) = titleChars ' ' (specApply singularSpecs w) := by
  refine title_of_checks singularSpecs singularTitleExceptions (by decide!) (by decide!) ?_
    (by decide!) w hw hne hex
  exact mem_describe uncountableInflections (swapped irregularPairs) singularRuleSpecs
    (fun sp => ∀ w ∈ sp.shape.tailSpanned,
      String.mk w ∈ singularTitleExceptions ∨ titleHolds singularSpecs w = true)
    (titleTailQuick_sound singularSpecs singularTitleExceptions
      (uncountableInflections.map fun u => uncountableSpec u.data) 10 1 (by decide!)
      (fun i hi => by interval_cases i; decide!))
    (titleTailQuick_sound singularSpecs singularTitleExceptions
      ((swapped irregularPairs).flatMap fun e => wordSpecs e.1 e.2) 18 1 (by decide!)
      (fun i hi => by interval_cases i; decide!))
    (titleTailQuick_sound singularSpecs singularTitleExceptions
      (singularRuleSpecs.flatMap ruleSpecs) 18 5 (by decide!)
      (fun i hi => by interval_cases i <;> decide!))

set_option maxRecDepth 1000000 in
/-- On each of its exceptions `pluralSpecs` does not commute with `Title`. -/
theorem pluralSpecs_title_exceptions :
    pluralTitleExceptions.all (fun w => !titleHolds pluralSpecs w.data) = true := by
  rw [titleHolds_eq_quick]; decide!

set_option maxRecDepth 1000000 in
/-- On each of its exceptions `singularSpecs` does not commute with `Title`. -/
theorem singularSpecs_title_exceptions :
    singularTitleExceptions.all (fun w => !titleHolds singularSpecs w.data) = true := by
  rw [titleHolds_eq_quick]; decide!

/-- C7 (amended). Title-casing commutes with `Plural` except on 33 short
words: with the built-in tables, for every non-empty word `w` of ASCII
lower-case letters, `Plural(Title(w)) = Title(Plural(w))` if and only if `w`
is not a single letter other than "s" and not one of "ay", "ey", "iy", "oy",
"uy", "yy", "ffe", "sis". -/
theorem title_commutes_plural (w : String) (hw : lowerOnly w.data = true) (hne : w.data ≠ []) :
    Plural init.state (Title w) = Title (Plural init.state w) ↔ w ∉ pluralTitleExceptions := by
  rw [Plural_init, Plural_init]
  simp only [Title]
  constructor
  · intro heq hin
    have := List.all_eq_true.mp pluralSpecs_title_exceptions w hin
    simp only [titleHolds, Bool.not_eq_true', beq_eq_false_iff_ne] at this
    exact this (congrArg String.data heq)
  · intro hin
    exact congrArg String.mk (pluralSpecs_title w.data hw hne hin)

/-- Witness of C7: `Plural(Title("star")) = Title(Plural("star"))` and
`Plural(Title("mouse")) = Title(Plural("mouse"))`. -/
theorem title_commutes_plural_witness :
    Plural init.state (Title "star") = Title (Plural init.state "star") ∧
      Plural init.state (Title "mouse") = Title (Plural init.state "mouse") :=
  ⟨(title_commutes_plural "star" (by decide) (by decide)).mpr (by decide),
    (title_commutes_plural "mouse" (by decide) (by decide)).mpr (by decide)⟩

set_option maxRecDepth 1000000 in
/-- Counterexample to C7 as stated: "ay" and "a" are non-empty words of
lower-case letters, yet `Plural("Ay") = "Aies"` while `Title(Plural("ay")) =
"Ays"`, and `Plural("A") = "AS"` while `Title(Plural("a")) = "As"`. -/
theorem title_plural_counterexample :
    (lowerOnly "ay".data = true ∧ Plural init.state (Title "ay") = "Aies" ∧
      Title (Plural init.state "ay") = "Ays" ∧
      Plural init.state (Title "ay") ≠ Title (Plural init.state "ay")) ∧
    (lowerOnly "a".data = true ∧ Plural init.state (Title "a") = "AS" ∧
      Title (Plural init.state "a") = "As" ∧
      Plural init.state (Title "a") ≠ Title (Plural init.state "a")) := by
  have h1 : Plural init.state (Title "ay") = "Aies" := by rw [Plural_init]; decide!
  have h2 : Plural init.state "ay" = "ays" := by rw [Plural_init]; decide!
  have h3 : Plural init.state (Title "a") = "AS" := by rw [Plural_init]; decide!
  have h4 : Plural init.state "a" = "as" := by rw [Plural_init]; decide!
  refine ⟨⟨by decide, h1, ?_, ?_⟩, ⟨by decide, h3, ?_, ?_⟩⟩
  · rw [h2]; decide
  · rw [h1, h2]; decide
  · rw [h4]; decide
  · rw [h3, h4]; decide

/-- C8 (amended). Title-casing commutes with `Singular` except on seven
words: with the built-in tables, for every non-empty word `w` of ASCII
lower-case letters, `Singular(Title(w)) = Title(Singular(w))` if and only if
`w` is not one of "aies", "eies", "iies", "oies", "uies", "yies", "fves". -/
theorem title_commutes_singular (w : String) (hw : lowerOnly w.data = true) (hne : w.data ≠ []) :
    Singular init.state (Title w) = Title (Singular init.state w) ↔
      w ∉ singularTitleExceptions := by
  rw [Singular_init, Singular_init]
  simp only [Title]
  constructor
  · intro heq hin
    have := List.all_eq_true.mp singularSpecs_title_exceptions w hin
    simp only [titleHolds, Bool.not_eq_true', beq_eq_false_iff_ne] at this
    exact this (congrArg String.data heq)
  · intro hin
    exact congrArg String.mk (singularSpecs_title w.data hw hne hin)

/-- Witness of C8: `Singular(Title("stars")) = Title(Singular("stars"))` and
`Singular(Title("analyses")) = Title(Singular("analyses"))`. -/
theorem title_commutes_singular_witness :
    Singular init.state (Title "stars") = Title (Singular init.state "stars") ∧
      Singular init.state (Title "analyses") = Title (Singular init.state "analyses") :=
  ⟨(title_commutes_singular "stars" (by decide) (by decide)).mpr (by decide),
    (title_commutes_singular "analyses" (by decide) (by decide)).mpr (by decide)⟩

set_option maxRecDepth 1000000 in
/-- Counterexample to C8 as stated: "fves" is a non-empty word of lower-case
letters, yet `Singular("Fves") = "Ffe"` while `Title(Singular("fves")) =
"Fve"`. -/
theorem title_singular_counterexample :
    lowerOnly "fves".data = true ∧ Singular init.state (Title "fves") = "Ffe" ∧
      Title (Singular init.state "fves") = "Fve" ∧
      Singular init.state (Title "fves") ≠ Title (Singular init.state "fves") := by
  have h1 : Singular init.state (Title "fves") = "Ffe" := by rw [Singular_init]; decide!
  have h2 : Singular init.state "fves" = "fve" := by rw [Singular_init]; decide!
  refine ⟨by decide, h1, ?_, ?_⟩
  · rw [h2]; decide
  · rw [h1, h2]; decide

/-! ## C11 to C16, C19 and C20: the tables and the compiled lists -/

theorem copy_make {α : Type} (zero : α) (l : List α) : copy (make zero l.length) l = l := by
  simp [copy, make]

theorem collect_isOk {α : Type} (mk : α → Except ParseError (List inflection)) (xs : List α) :
    (∃ c, collect mk xs = .ok c) ↔ xs.all (fun x => isOk (mk x)) = true := by
  induction xs with
  | nil => simp [collect]
  | cons x xs ih =>
    simp only [collect, List.all_cons, Bool.and_eq_true, ← ih]
    cases hx : mk x with
    | error e => simp [isOk]
    | ok a =>
      cases hxs : collect mk xs with
      | error e => simp [isOk]
      | ok b => simp [isOk]

theorem all_reverse_eq {α : Type} (p : α → Bool) (l : List α) :
    l.reverse.all p = l.all p := by
  simp [List.all_eq]

/-- The function `compile` returns exactly when every pattern compiles. -/
theorem compile_done_iff (s : State) : (∃ t, compile s = .done t) ↔ s.valid = true := by
  simp only [compile_eq_done, State.valid, Bool.and_eq_true, ← collect_isOk,
    ← all_reverse_eq _ s.pluralInflections, ← all_reverse_eq _ s.singularInflections]
  constructor
  · rintro ⟨t, u, ip, is, rp, rs, hu, hip, his, hrp, hrs, _⟩
    exact ⟨⟨⟨⟨⟨u, hu⟩, ⟨ip, hip⟩⟩, ⟨is, his⟩⟩, ⟨rp, hrp⟩⟩, ⟨rs, hrs⟩⟩
  · rintro ⟨⟨⟨⟨⟨u, hu⟩, ⟨ip, hip⟩⟩, ⟨is, his⟩⟩, ⟨rp, hrp⟩⟩, ⟨rs, hrs⟩⟩
    exact ⟨_, u, ip, is, rp, rs, hu, hip, his, hrp, hrs, rfl⟩

theorem compile_forgets (s : State) (a b : List inflection) :
    compile { s with compiledPluralMaps := a, compiledSingularMaps := b } = compile s := rfl

theorem compile_current (s t : State) (h : compile s = .done t) : t.current := by
  obtain ⟨h1, h2, h3, h4⟩ := compile_tables s t h
  have := compile_forgets s [] []
  simp only [State.current, h1, h2, h3, h4]
  rw [← h]
  exact this

theorem compileEach_panic_state {α : Type} (mk : α → Except ParseError (List inflection))
    (add : State → List inflection → State)
    (hnil : ∀ s, add s [] = s) (happ : ∀ s a b, add (add s a) b = add s (a ++ b))
    (xs : List α) (s t : State) (h : compileEach mk add xs s = .panic t) :
    ∃ c, t = add s c := by
  induction xs generalizing s with
  | nil => simp [compileEach] at h
  | cons x xs ih =>
    simp only [compileEach] at h
    cases hx : mk x with
    | error e =>
      cases e <;> simp [hx] at h
      exact ⟨[], by rw [hnil, h]⟩
    | ok u =>
      simp only [hx] at h
      obtain ⟨c, hc⟩ := ih _ h
      exact ⟨u ++ c, by rw [hc, happ]⟩

theorem Outcome.andThen_eq_panic {o : Outcome} {f : State → Outcome} {t : State} :
    o.andThen f = .panic t ↔ o = .panic t ∨ ∃ s, o = .done s ∧ f s = .panic t := by
  cases o <;> simp [Outcome.andThen]

/-- Whether it returns or panics, `compile` leaves the four tables as they
were. -/
theorem compile_left_tables (s t : State) (h : compile s = .done t ∨ compile s = .panic t) :
    t.pluralInflections = s.pluralInflections ∧ t.singularInflections = s.singularInflections ∧
      t.irregularInflections = s.irregularInflections ∧
      t.uncountableInflections = s.uncountableInflections := by
  rcases h with h | h
  · exact compile_tables s t h
  · have h1 := compileEach_panic_state uncountableMatchers
      (fun t infs => addSingular (addPlural t infs) infs)
      (by intro s; simp [addPlural, addSingular])
      (by intro s a b; simp [addPlural, addSingular])
    have h2 := fun mk => compileEach_panic_state (α := Irregular) mk addPlural
      (by intro s; simp [addPlural]) (by intro s a b; simp [addPlural])
    have h3 := fun mk => compileEach_panic_state (α := Irregular) mk addSingular
      (by intro s; simp [addSingular]) (by intro s a b; simp [addSingular])
    have h4 := compileEach_panic_state regularMatchers addPlural
      (by intro s; simp [addPlural]) (by intro s a b; simp [addPlural])
    have h5 := compileEach_panic_state regularMatchers addSingular
      (by intro s; simp [addSingular]) (by intro s a b; simp [addSingular])
    have d1 := compileEach_eq_done uncountableMatchers
      (fun t infs => addSingular (addPlural t infs) infs)
      (by intro s; simp [addPlural, addSingular])
      (by intro s a b; simp [addPlural, addSingular])
    have d2 := fun mk => compileEach_eq_done (α := Irregular) mk addPlural
      (by intro s; simp [addPlural]) (by intro s a b; simp [addPlural])
    have d3 := fun mk => compileEach_eq_done (α := Irregular) mk addSingular
      (by intro s; simp [addSingular]) (by intro s a b; simp [addSingular])
    have d4 := compileEach_eq_done regularMatchers addPlural
      (by intro s; simp [addPlural]) (by intro s a b; simp [addPlural])
    simp only [compile, Outcome.andThen_eq_panic, Outcome.andThen_eq_done, d1, d2, d3, d4] at h
    rcases h with h | ⟨s1, ⟨u, _, rfl⟩, h⟩
    · obtain ⟨c, rfl⟩ := h1 _ _ _ h
      simp [addPlural, addSingular]
    rcases h with h | ⟨s2, ⟨ip, _, rfl⟩, h⟩
    · obtain ⟨c, rfl⟩ := h2 _ _ _ _ h
      simp [addPlural, addSingular]
    rcases h with h | ⟨s3, ⟨is, _, rfl⟩, h⟩
    · obtain ⟨c, rfl⟩ := h3 _ _ _ _ h
      simp [addPlural, addSingular]
    rcases h with h | ⟨s4, ⟨rp, _, rfl⟩, h⟩
    · obtain ⟨c, rfl⟩ := h4 _ _ _ h
      simp [addPlural, addSingular]
    · obtain ⟨c, rfl⟩ := h5 _ _ _ h
      simp [addPlural, addSingular]

theorem collect_written {α : Type} (mk : α → Except ParseError (List inflection))
    (wr : α → List (String × String))
    (h : ∀ x l, mk x = .ok l → List.Forall₂ Compiled l (wr x))
    (xs : List α) (c : List inflection) (hc : collect mk xs = .ok c) :
    List.Forall₂ Compiled c (xs.flatMap wr) := by
  induction xs generalizing c with
  | nil =>
    simp only [collect, Except.ok.injEq] at hc
    subst hc
    exact List.Forall₂.nil
  | cons x xs ih =>
    obtain ⟨a, b, ha, hb, rfl⟩ := collect_cons_inv mk x xs c hc
    rw [List.flatMap_cons]
    exact List.rel_append (h x a ha) (ih b hb)

theorem collect_length {α : Type} (mk : α → Except ParseError (List inflection)) (k : Nat)
    (h : ∀ x l, mk x = .ok l → l.length = k)
    (xs : List α) (c : List inflection) (hc : collect mk xs = .ok c) :
    c.length = k * xs.length := by
  induction xs generalizing c with
  | nil =>
    simp only [collect, Except.ok.injEq] at hc
    subst hc
    rfl
  | cons x xs ih =>
    obtain ⟨a, b, ha, hb, rfl⟩ := collect_cons_inv mk x xs c hc
    rw [List.length_append, h x a ha, ih b hb, List.length_cons]
    ring

theorem uncountableMatchers_written (u : String) (l : List inflection)
    (h : uncountableMatchers u = .ok l) : List.Forall₂ Compiled l (writtenUncountable u) := by
  obtain ⟨r, hr, rfl⟩ := (uncountableMatchers_eq_ok u l).mp h
  exact List.Forall₂.cons ⟨hr, rfl⟩ List.Forall₂.nil

theorem irregularMatchers_written (src dst : String) (l : List inflection)
    (h : irregularMatchers src dst = .ok l) : List.Forall₂ Compiled l (writtenWord src dst) := by
  obtain ⟨r1, r2, r3, h1, h2, h3, rfl⟩ := (irregularMatchers_eq_ok src dst l).mp h
  exact List.Forall₂.cons ⟨h1, rfl⟩ (List.Forall₂.cons ⟨h2, rfl⟩
    (List.Forall₂.cons ⟨h3, rfl⟩ List.Forall₂.nil))

theorem regularMatchers_written (v : Regular) (l : List inflection)
    (h : regularMatchers v = .ok l) : List.Forall₂ Compiled l (writtenRule v) := by
  obtain ⟨r1, r2, r3, _, h1, h2, h3, rfl⟩ := (regularMatchers_eq_ok v l).mp h
  exact List.Forall₂.cons ⟨h1, rfl⟩ (List.Forall₂.cons ⟨h2, rfl⟩
    (List.Forall₂.cons ⟨h3, rfl⟩ List.Forall₂.nil))

theorem uncountableMatchers_length (u : String) (l : List inflection)
    (h : uncountableMatchers u = .ok l) : l.length = 1 :=
  (uncountableMatchers_written u l h).length_eq

theorem irregularMatchers_length (src dst : String) (l : List inflection)
    (h : irregularMatchers src dst = .ok l) : l.length = 3 :=
  (irregularMatchers_written src dst l h).length_eq

theorem regularMatchers_length (v : Regular) (l : List inflection)
    (h : regularMatchers v = .ok l) : l.length = 3 :=
  (regularMatchers_written v l h).length_eq

/-- The initial state holds only patterns that compile. -/
theorem init_valid : init.state.valid = true :=
  (compile_done_iff init.state).mp ⟨_, init_current⟩

theorem State.current_iff (s : State) : s.current ↔ compile s = .done s :=
  Iff.rfl

/-- A rule whose `find` does not compile makes `regularMatchers` fail. -/
theorem regularMatchers_invalid (find replace : String)
    (hf : Regexp.parse find = .error .invalid) (hr : asciiString replace = true)
    (hm : Regexp.parse (ToUpper find) ≠ .error .unsupported) :
    regularMatchers ⟨find, replace⟩ = .error .invalid := by
  simp only [regularMatchers, hr, Bool.not_true, Bool.false_eq_true, ↓reduceIte, hf]
  cases h : Regexp.parse (ToUpper find) with
  | ok r => rfl
  | error e =>
    cases e with
    | invalid => rfl
    | unsupported => exact absurd h hm

/-- What `compile` leaves when the rule it compiles first among the plural
rules fails: the uncountable and irregular matchers only. -/
theorem compile_panic_plural (s : State) (v : Regular) (rest : List Regular)
    (u ip is : List inflection)
    (hrev : s.pluralInflections.reverse = v :: rest)
    (hu : collect uncountableMatchers s.uncountableInflections = .ok u)
    (hip : collect (fun v : Irregular => irregularMatchers v.singular v.plural)
      s.irregularInflections = .ok ip)
    (his : collect (fun v : Irregular => irregularMatchers v.plural v.singular)
      s.irregularInflections = .ok is)
    (hv : regularMatchers v = .error .invalid) :
    compile s = .panic { s with compiledPluralMaps := u ++ ip, compiledSingularMaps := u ++ is } := by
  have d1 := compileEach_eq_done uncountableMatchers
    (fun t infs => addSingular (addPlural t infs) infs)
    (by intro s; simp [addPlural, addSingular])
    (by intro s a b; simp [addPlural, addSingular])
  have d2 := fun mk => compileEach_eq_done (α := Irregular) mk addPlural
    (by intro s; simp [addPlural]) (by intro s a b; simp [addPlural])
  have d3 := fun mk => compileEach_eq_done (α := Irregular) mk addSingular
    (by intro s; simp [addSingular]) (by intro s a b; simp [addSingular])
  simp only [compile]
  rw [(d1 _ _ _).mpr ⟨u, hu, rfl⟩]
  simp only [Outcome.andThen, addPlural, addSingular]
  rw [(d2 _ _ _ _).mpr ⟨ip, hip, rfl⟩]
  simp only [Outcome.andThen, addPlural, addSingular]
  rw [(d3 _ _ _ _).mpr ⟨is, his, rfl⟩]
  simp only [Outcome.andThen, addPlural, addSingular, hrev, compileEach, hv, List.nil_append]

/-- C11. Starting from the built-in tables `Plural("fish") = "fish"`; the call
`SetUncountable([])` returns, leaves an empty uncountable table, and after it
`Plural("fish") = "fishes"`. -/
theorem set_uncountable_empty :
    Plural init.state "fish" = "fish" ∧
      ∃ t, SetUncountable init.state [] = .done t ∧ GetUncountable t = [] ∧
        Plural t "fish" = "fishes" := by
  obtain ⟨t1, t2, t3, t4⟩ := init_tables
  obtain ⟨t, ht, h1, _⟩ := compile_describe { init.state with uncountableInflections := [] }
    t1 t2 (by simp) (by simp only [t3]; decide)
  refine ⟨?_, t, ht, ?_, ?_⟩
  · rw [Plural_init]; decide!
  · rw [GetUncountable, copy_make]
    exact (compile_tables _ _ ht).2.2.2
  · simp only [t3] at h1
    rw [Plural, applyFirst_eq_specApply _ _ h1]
    decide!

/-- C12. With the built-in tables the round trip is not the identity:
`Plural("axe") = "axes"` and `Singular("axes") = "axis"`. -/
theorem round_trip_not_identity :
    (∃ w, Singular init.state (Plural init.state w) ≠ w) ∧
      Plural init.state "axe" = "axes" ∧ Singular init.state "axes" = "axis" := by
  refine ⟨⟨"axe", ?_⟩, ?_, ?_⟩
  · rw [Plural_init, Singular_init]; decide!
  · rw [Plural_init]; decide!
  · rw [Singular_init]; decide!

/-- C13. In every state each getter returns the corresponding table: the same
elements in the same order, hence the same length.  The getters read the
state and assign no package variable: they are functions of the state with no
state to return, so the tables, the compiled lists and the later results of
`Plural` and `Singular` are those of the state they were called in. -/
theorem getters_snapshot (s : State) :
    (GetPlural s = s.pluralInflections ∧ (GetPlural s).length = s.pluralInflections.length) ∧
    (GetSingular s = s.singularInflections ∧
      (GetSingular s).length = s.singularInflections.length) ∧
    (GetIrregular s = s.irregularInflections ∧
      (GetIrregular s).length = s.irregularInflections.length) ∧
    (GetUncountable s = s.uncountableInflections ∧
      (GetUncountable s).length = s.uncountableInflections.length) := by
  simp only [GetPlural, GetSingular, GetIrregular, GetUncountable, copy_make, and_self]

/-- C14. Each setter replaces exactly one table.  For every state and every
list `xs`: when every pattern of the tables after the assignment compiles,
`SetPlural(xs)` returns; and whether it returns or panics, it leaves the
plural table equal to `xs` (so `GetPlural()` returns `xs`, of length
`len(xs)`) and the singular, irregular and uncountable tables as they were.
The same holds for `SetSingular`, `SetIrregular` and `SetUncountable` with
their own table. -/
theorem setters_replace_one_table (s : State) :
    (∀ xs, (({ s with pluralInflections := xs } : State).valid = true →
          ∃ t, SetPlural s xs = .done t) ∧
        ∀ t, SetPlural s xs = .done t ∨ SetPlural s xs = .panic t →
          t.pluralInflections = xs ∧ GetPlural t = xs ∧ (GetPlural t).length = xs.length ∧
          t.singularInflections = s.singularInflections ∧
          t.irregularInflections = s.irregularInflections ∧
          t.uncountableInflections = s.uncountableInflections) ∧
    (∀ xs, (({ s with singularInflections := xs } : State).valid = true →
          ∃ t, SetSingular s xs = .done t) ∧
        ∀ t, SetSingular s xs = .done t ∨ SetSingular s xs = .panic t →
          t.singularInflections = xs ∧ GetSingular t = xs ∧ (GetSingular t).length = xs.length ∧
          t.pluralInflections = s.pluralInflections ∧
          t.irregularInflections = s.irregularInflections ∧
          t.uncountableInflections = s.uncountableInflections) ∧
    (∀ xs, (({ s with irregularInflections := xs } : State).valid = true →
          ∃ t, SetIrregular s xs = .done t) ∧
        ∀ t, SetIrregular s xs = .done t ∨ SetIrregular s xs = .panic t →
          t.irregularInflections = xs ∧ GetIrregular t = xs ∧
          (GetIrregular t).length = xs.length ∧
          t.pluralInflections = s.pluralInflections ∧
          t.singularInflections = s.singularInflections ∧
          t.uncountableInflections = s.uncountableInflections) ∧
    (∀ xs, (({ s with uncountableInflections := xs } : State).valid = true →
          ∃ t, SetUncountable s xs = .done t) ∧
        ∀ t, SetUncountable s xs = .done t ∨ SetUncountable s xs = .panic t →
          t.uncountableInflections = xs ∧ GetUncountable t = xs ∧
          (GetUncountable t).length = xs.length ∧
          t.pluralInflections = s.pluralInflections ∧
          t.singularInflections = s.singularInflections ∧
          t.irregularInflections = s.irregularInflections) := by
  refine ⟨fun xs => ⟨(compile_done_iff _).mpr, fun t ht => ?_⟩,
    fun xs => ⟨(compile_done_iff _).mpr, fun t ht => ?_⟩,
    fun xs => ⟨(compile_done_iff _).mpr, fun t ht => ?_⟩,
    fun xs => ⟨(compile_done_iff _).mpr, fun t ht => ?_⟩⟩
  all_goals
    obtain ⟨h1, h2, h3, h4⟩ := compile_left_tables _ t ht
    simp only [GetPlural, GetSingular, GetIrregular, GetUncountable, copy_make, h1, h2, h3, h4,
      and_self]

/-- Witness of C14, from the tests: on the initial state `SetPlural` of a
list of two empty rules returns and leaves a plural table of length 2. -/
theorem setters_replace_one_table_witness :
    ∃ t, SetPlural init.state [⟨"", ""⟩, ⟨"", ""⟩] = .done t ∧
      (GetPlural t).length = 2 := by
  have hi := init_valid
  simp only [State.valid, Bool.and_eq_true] at hi
  have hv : ({ init.state with pluralInflections := [⟨"", ""⟩, ⟨"", ""⟩] } : State).valid
      = true := by
    simp only [State.valid, Bool.and_eq_true]
    exact ⟨⟨⟨⟨hi.1.1.1.1, hi.1.1.1.2⟩, hi.1.1.2⟩, by decide⟩, hi.2⟩
  obtain ⟨t, ht⟩ := ((setters_replace_one_table init.state).1 _).1 hv
  exact ⟨t, ht, (((setters_replace_one_table init.state).1 _).2 t (Or.inl ht)).2.2.1⟩

/-- C15, amended.  For every content of the four tables whose patterns all
compile, `compile` returns, and its plural list is, matcher by matcher, the
compiled form of: the pattern `^(?i)(word)$` with replacement `${1}` for each
uncountable word in table order; then for each irregular pair in table order
`UPPER(singular)$ -> UPPER(plural)`, `Title(singular)$ -> Title(plural)`,
`singular$ -> plural`; then for each plural rule in reverse table order
`ToUpper(find) -> ToUpper(replace)`, `find -> replace`, `(?i)find -> replace`.
Its length is `|uncountables| + 3*|irregulars| + 3*|plural rules|`.  The
singular list is the mirror image. -/
theorem compiled_structure (s : State) (hv : s.valid = true) :
    ∃ t, compile s = .done t ∧
      List.Forall₂ Compiled t.compiledPluralMaps (writtenPlural s) ∧
      t.compiledPluralMaps.length = s.uncountableInflections.length +
        3 * s.irregularInflections.length + 3 * s.pluralInflections.length ∧
      List.Forall₂ Compiled t.compiledSingularMaps (writtenSingular s) ∧
      t.compiledSingularMaps.length = s.uncountableInflections.length +
        3 * s.irregularInflections.length + 3 * s.singularInflections.length := by
  obtain ⟨t, ht⟩ := (compile_done_iff s).mpr hv
  obtain ⟨u, ip, is, rp, rs, hu, hip, his, hrp, hrs, rfl⟩ := (compile_eq_done s t).mp ht
  have wu := collect_written _ writtenUncountable uncountableMatchers_written _ _ hu
  have wip := collect_written _ (fun v : Irregular => writtenWord v.singular v.plural)
    (fun v l h => irregularMatchers_written _ _ l h) _ _ hip
  have wis := collect_written _ (fun v : Irregular => writtenWord v.plural v.singular)
    (fun v l h => irregularMatchers_written _ _ l h) _ _ his
  have wrp := collect_written _ writtenRule regularMatchers_written _ _ hrp
  have wrs := collect_written _ writtenRule regularMatchers_written _ _ hrs
  have lu := collect_length _ 1 uncountableMatchers_length _ _ hu
  have lip := collect_length _ 3 (fun v l h => irregularMatchers_length _ _ l h) _ _ hip
  have lis := collect_length _ 3 (fun v l h => irregularMatchers_length _ _ l h) _ _ his
  have lrp := collect_length _ 3 regularMatchers_length _ _ hrp
  have lrs := collect_length _ 3 regularMatchers_length _ _ hrs
  simp only [List.length_reverse] at lrp lrs
  refine ⟨_, ht, List.rel_append (List.rel_append wu wip) wrp, ?_,
    List.rel_append (List.rel_append wu wis) wrs, ?_⟩
  · simp only [List.length_append, lu, lip, lrp]; ring
  · simp only [List.length_append, lu, lis, lrs]; ring

/-- Witness of C15: the built-in tables compile, to lists of the described
structure. -/
theorem compiled_structure_witness :
    builtinState.valid = true ∧
    ∃ t, compile builtinState = .done t ∧
      List.Forall₂ Compiled t.compiledPluralMaps (writtenPlural builtinState) ∧
      t.compiledPluralMaps.length = 10 + 3 * 6 + 3 * 21 ∧
      List.Forall₂ Compiled t.compiledSingularMaps (writtenSingular builtinState) ∧
      t.compiledSingularMaps.length = 10 + 3 * 6 + 3 * 28 :=
  ⟨(compile_done_iff builtinState).mp ⟨_, init_done⟩,
    compiled_structure builtinState ((compile_done_iff builtinState).mp ⟨_, init_done⟩)⟩

/-- Counterexample to C15 as stated.  With the plural rule `("(", "")` as the
only table entry `compile` panics and leaves an empty plural list, not one of
length 3; with the uncountable word `b)(c` as the only table entry `compile`
returns, and the one matcher of the plural list rewrites "bc" to "b": it is
not an identity matcher. -/
theorem compiled_structure_counterexample :
    compile ⟨[⟨"(", ""⟩], [], [], [], [], []⟩ = .panic ⟨[⟨"(", ""⟩], [], [], [], [], []⟩ ∧
    (∃ t, compile ⟨[], [], [], ["b)(c"], [], []⟩ = .done t ∧ t.compiledPluralMaps.length = 1 ∧
      Plural t "bc" = "b") := by
  constructor
  · decide
  · exact ⟨(compile ⟨[], [], [], ["b)(c"], [], []⟩).state, by decide, by decide, by decide⟩

/-- C16. The compiled lists are always the compilation of the current tables:
after package initialisation, and after every call of `AddPlural`,
`AddSingular`, `AddIrregular`, `AddUncountable`, `SetPlural`, `SetSingular`,
`SetIrregular` or `SetUncountable` that returns, in whatever state it was
made, both compiled lists are what `compile` yields from the four tables
alone; and `compile` does not read the compiled lists it is started with.
`Plural`, `Singular` and the getters assign no package variable. -/
theorem compiled_lists_current :
    init.Holds State.current ∧
    (∀ s find replace t, AddPlural s find replace = .done t → t.current) ∧
    (∀ s find replace t, AddSingular s find replace = .done t → t.current) ∧
    (∀ s singular plural t, AddIrregular s singular plural = .done t → t.current) ∧
    (∀ s value t, AddUncountable s value = .done t → t.current) ∧
    (∀ s xs t, SetPlural s xs = .done t → t.current) ∧
    (∀ s xs t, SetSingular s xs = .done t → t.current) ∧
    (∀ s xs t, SetIrregular s xs = .done t → t.current) ∧
    (∀ s xs t, SetUncountable s xs = .done t → t.current) ∧
    ∀ (s : State) (a b : List inflection),
      compile { s with compiledPluralMaps := a, compiledSingularMaps := b } = compile s := by
  refine ⟨?_, fun s f r t h => compile_current _ t h, fun s f r t h => compile_current _ t h,
    fun s a b t h => compile_current _ t h, fun s v t h => compile_current _ t h,
    fun s xs t h => compile_current _ t h, fun s xs t h => compile_current _ t h,
    fun s xs t h => compile_current _ t h, fun s xs t h => compile_current _ t h,
    compile_forgets⟩
  rw [init_done]
  exact compile_current builtinState _ init_done

/-- Witness of C16: `AddUncountable("deer")` on the initial state returns,
and the state it leaves has current compiled lists. -/
theorem compiled_lists_current_witness :
    ∃ t, AddUncountable init.state "deer" = .done t ∧ t.current := by
  have hi := init_valid
  simp only [State.valid, Bool.and_eq_true] at hi
  have hv : ({ init.state with uncountableInflections :=
      init.state.uncountableInflections ++ ["deer"] } : State).valid = true := by
    simp only [State.valid, Bool.and_eq_true, List.all_append]
    exact ⟨⟨⟨⟨⟨hi.1.1.1.1, by decide⟩, hi.1.1.1.2⟩, hi.1.1.2⟩, hi.1.2⟩, hi.2⟩
  obtain ⟨t, ht⟩ := (compile_done_iff _).mpr hv
  exact ⟨t, ht, compiled_lists_current.2.2.2.2.1 init.state "deer" t ht⟩

/-- On the contents of the tables: in a state whose compiled lists are
current, appending a rule whose three patterns compile to the contents of
the plural table and compiling leaves the other tables and `Singular` as they
were; symmetrically for the singular table and `Plural`. -/
theorem add_rule_frame (s : State) (find replace : String) (hs : s.current)
    (hv : isOk (regularMatchers ⟨find, replace⟩) = true) :
    (∃ t, AddPlural s find replace = .done t ∧
      t.pluralInflections = s.pluralInflections ++ [⟨find, replace⟩] ∧
      t.singularInflections = s.singularInflections ∧
      t.irregularInflections = s.irregularInflections ∧
      t.uncountableInflections = s.uncountableInflections ∧
      ∀ w, Singular t w = Singular s w) ∧
    (∃ t, AddSingular s find replace = .done t ∧
      t.singularInflections = s.singularInflections ++ [⟨find, replace⟩] ∧
      t.pluralInflections = s.pluralInflections ∧
      t.irregularInflections = s.irregularInflections ∧
      t.uncountableInflections = s.uncountableInflections ∧
      ∀ w, Plural t w = Plural s w) := by
  have hs1 : compile s = .done s := hs
  obtain ⟨u, ip, is, rp, rs, hu, hip, his, hrp, hrs, hst⟩ := (compile_eq_done s s).mp hs1
  have hcp : s.compiledPluralMaps = u ++ ip ++ rp := by rw [hst]
  have hcs : s.compiledSingularMaps = u ++ is ++ rs := by rw [hst]
  obtain ⟨n, hn⟩ : ∃ n, regularMatchers ⟨find, replace⟩ = .ok n := by
    cases h : regularMatchers ⟨find, replace⟩ with
    | ok n => exact ⟨n, rfl⟩
    | error e => simp [h, isOk] at hv
  constructor
  · refine ⟨_, (compile_eq_done _ _).mpr ⟨u, ip, is, n ++ rp, rs, hu, hip, his,
      (collect_reverse_snoc _ _ _).mpr ⟨n, rp, hn, hrp, rfl⟩, hrs, rfl⟩, rfl, rfl, rfl, rfl, ?_⟩
    intro w
    simp only [Singular, hcs]
  · refine ⟨_, (compile_eq_done _ _).mpr ⟨u, ip, is, rp, n ++ rs, hu, hip, his, hrp,
      (collect_reverse_snoc _ _ _).mpr ⟨n, rs, hn, hrs, rfl⟩, rfl⟩, rfl, rfl, rfl, rfl, ?_⟩
    intro w
    simp only [Plural, hcp]

/-- C20. In a state whose tables hold only patterns that compile, when
`AddPlural(find, replace)` is called with a `find` that is not a valid
regular expression, the call panics during compilation after the table was
extended: the state left behind has the plural table
`old ++ [(find, replace)]`, the other tables unchanged, and both compiled
lists made of the uncountable and irregular matchers only; it is not the
state from before the call. -/
theorem failed_add_plural (s : State) (find replace : String) (hs : s.valid = true)
    (hf : Regexp.parse find = .error .invalid) (hr : asciiString replace = true)
    (hm : Regexp.parse (ToUpper find) ≠ .error .unsupported) :
    ∃ t u ip is, AddPlural s find replace = .panic t ∧
      collect uncountableMatchers s.uncountableInflections = .ok u ∧
      collect (fun v : Irregular => irregularMatchers v.singular v.plural)
        s.irregularInflections = .ok ip ∧
      collect (fun v : Irregular => irregularMatchers v.plural v.singular)
        s.irregularInflections = .ok is ∧
      t.pluralInflections = s.pluralInflections ++ [⟨find, replace⟩] ∧
      t.singularInflections = s.singularInflections ∧
      t.irregularInflections = s.irregularInflections ∧
      t.uncountableInflections = s.uncountableInflections ∧
      t.compiledPluralMaps = u ++ ip ∧ t.compiledSingularMaps = u ++ is ∧
      t.compiledPluralMaps.length =
        s.uncountableInflections.length + 3 * s.irregularInflections.length ∧
      t.compiledSingularMaps.length =
        s.uncountableInflections.length + 3 * s.irregularInflections.length ∧
      t ≠ s := by
  obtain ⟨t0, ht0⟩ := (compile_done_iff s).mpr hs
  obtain ⟨u, ip, is, rp, rs, hu, hip, his, hrp, hrs, _⟩ := (compile_eq_done s t0).mp ht0
  have hp := compile_panic_plural
    { s with pluralInflections := s.pluralInflections ++ [⟨find, replace⟩] } ⟨find, replace⟩
    s.pluralInflections.reverse u ip is (by simp) hu hip his
    (regularMatchers_invalid find replace hf hr hm)
  have lu := collect_length _ 1 uncountableMatchers_length _ _ hu
  have lip := collect_length _ 3 (fun v l h => irregularMatchers_length _ _ l h) _ _ hip
  have lis := collect_length _ 3 (fun v l h => irregularMatchers_length _ _ l h) _ _ his
  refine ⟨_, u, ip, is, hp, hu, hip, his, rfl, rfl, rfl, rfl, rfl, rfl, ?_, ?_, ?_⟩
  · simp only [List.length_append, lu, lip]; ring
  · simp only [List.length_append, lis, lu]; ring
  · intro h
    have := congrArg (fun x => x.pluralInflections.length) h
    simp at this

/-- Witness of C20: `AddPlural("(", "x")` on the initial state panics and
leaves 22 plural rules and 28 matchers in each compiled list. -/
theorem failed_add_plural_witness :
    ∃ t, AddPlural init.state "(" "x" = .panic t ∧ t.pluralInflections.length = 22 ∧
      t.compiledPluralMaps.length = 28 ∧ t.compiledSingularMaps.length = 28 := by
  obtain ⟨t, u, ip, is, ht, _, _, _, h1, _, _, _, _, _, h2, h3, _⟩ :=
    failed_add_plural init.state "(" "x" init_valid rfl (by decide)
      (by rw [show Regexp.parse (ToUpper "(") = .error .invalid from rfl]; simp)
  obtain ⟨t1, t2, t3, t4⟩ := init_tables
  refine ⟨t, ht, ?_, ?_, ?_⟩
  · rw [h1, t1]; rfl
  · rw [h2, t3, t4]; rfl
  · rw [h3, t3, t4]; rfl

/-! ## C17 and C18: words that do not end in a letter -/

theorem isLetter_foldKey (c : Char) (h : isLetter c = true) : isLetter (foldKey c) = true := by
  have hk := foldKey_toNat c
  simp only [isLetter, isLower, isUpper, Bool.or_eq_true, Bool.and_eq_true, decide_eq_true_eq]
    at h ⊢
  rw [hk]
  split_ifs with h1 h2 h3
  · simp only [isUpper, Bool.and_eq_true, decide_eq_true_eq] at h1; omega
  · omega
  · omega
  · simp only [isUpper, Bool.and_eq_true, decide_eq_true_eq, not_and, not_le] at h1; omega

theorem inRanges_letter (rs : List (Char × Char)) (x : Char)
    (h : rs.all (fun r => (isLower r.1 && isLower r.2) || (isUpper r.1 && isUpper r.2)) = true)
    (hx : inRanges rs x = true) : isLetter x = true := by
  simp only [inRanges, List.any_eq_true, Bool.and_eq_true, decide_eq_true_eq] at hx
  obtain ⟨r, hr, h1, h2⟩ := hx
  have := List.all_eq_true.mp h r hr
  simp only [isLetter, isLower, isUpper, Bool.or_eq_true, Bool.and_eq_true, decide_eq_true_eq]
    at this ⊢
  omega

theorem Atom.letterOnly_accepts (a : Atom) (x : Char) (h : a.letterOnly = true)
    (hx : a.accepts x = true) : isLetter (foldKey x) = true := by
  cases a with
  | lit c fold =>
    simp only [Atom.letterOnly] at h
    cases fold with
    | false =>
      simp only [Atom.accepts, beq_iff_eq] at hx
      rw [hx]; exact h
    | true =>
      simp only [Atom.accepts, beq_iff_eq] at hx
      rw [hx]; exact h
  | cls neg rs fold =>
    cases neg with
    | true => simp [Atom.letterOnly] at h
    | false =>
      simp only [Atom.letterOnly] at h
      cases fold with
      | false =>
        simp only [Atom.accepts, Bool.false_bne] at hx
        exact isLetter_foldKey x (inRanges_letter rs x h hx)
      | true =>
        simp only [Atom.accepts, Bool.false_bne, Bool.or_eq_true] at hx
        rcases hx with (hx | hx) | hx
        · exact isLetter_foldKey x (inRanges_letter rs x h hx)
        · exact inRanges_letter rs _ h hx
        · rw [← isLetter_upperChar_eq]
          exact inRanges_letter rs _ h hx
  | dot => simp [Atom.letterOnly] at h

/-- A shape whose paths all test the last character for a letter matches no
word that is empty or ends otherwise. -/
theorem Shape.search_endsInLetter (sh : Shape) (w : List Char) (h : sh.endsInLetter = true)
    (hw : ∀ c ∈ w.getLast?, isLetter (foldKey c) = false) : sh.search w = none := by
  cases sh with
  | head hs => simp [Shape.endsInLetter] at h
  | tail ts =>
    simp only [Shape.endsInLetter, List.all_eq_true] at h
    simp only [Shape.search, tailSearch]
    rw [best_eq_none]
    · rfl
    · intro t ht
      have h1 := h t ht
      simp only [TPath.hit]
      cases hat : t.atomsRev with
      | nil => simp [hat] at h1
      | cons a as =>
        simp only [hat] at h1
        cases hwr : w.reverse with
        | nil => simp [acceptsAll]
        | cons c cs =>
          have hl : w.getLast? = some c := by
            have : w = cs.reverse ++ [c] := by
              rw [← List.reverse_reverse w, hwr, List.reverse_cons]
            rw [this]; simp
          have hc := hw c (by rw [hl]; rfl)
          have : a.accepts c = false := by
            cases hacc : a.accepts c with
            | false => rfl
            | true => rw [Atom.letterOnly_accepts a c h1 hacc] at hc; exact absurd hc (by simp)
          simp [acceptsAll, this]

theorem spellsAtoms_accepts (as : List Atom) (p w : List Char) (h : spellsAtoms as p = true)
    (hw : acceptsAll as w = true) : (w.take p.length).map foldKey = p := by
  induction as generalizing p w with
  | nil =>
    cases p with
    | nil => simp
    | cons c cs => simp [spellsAtoms] at h
  | cons a as ih =>
    cases p with
    | nil => cases a <;> simp [spellsAtoms] at h
    | cons c cs =>
      cases w with
      | nil => simp [acceptsAll] at hw
      | cons x xs =>
        cases a with
        | lit d fold =>
          simp only [spellsAtoms, Bool.and_eq_true, beq_iff_eq] at h
          simp only [acceptsAll, Bool.and_eq_true] at hw
          have hx : foldKey x = c := by
            cases fold with
            | false =>
              simp only [Atom.accepts, beq_iff_eq] at hw
              rw [hw.1]; exact h.1
            | true =>
              simp only [Atom.accepts, beq_iff_eq] at hw
              rw [hw.1]; exact h.1
          simp [hx, ih cs xs h.2 hw.2]
        | cls neg rs fold => simp [spellsAtoms] at h
        | dot => simp [spellsAtoms] at h

/-- A shape that spells a word at the beginning matches no word that begins
otherwise. -/
theorem Shape.search_spells (sh : Shape) (p w : List Char) (h : sh.spells p = true)
    (hw : (w.take p.length).map foldKey ≠ p) : sh.search w = none := by
  cases sh with
  | tail ts => simp [Shape.spells] at h
  | head hs =>
    simp only [Shape.spells, List.all_eq_true] at h
    simp only [Shape.search, headSearch]
    rw [List.find?_eq_none.mpr]
    · rfl
    · intro t ht hacc
      exact hw (spellsAtoms_accepts _ _ _ (h t ht) hacc)

theorem specApply_of_search_none (sps : List Spec) (w : List Char)
    (h : ∀ sp ∈ sps, sp.shape.search w = none) : specApply sps w = w := by
  induction sps with
  | nil => rfl
  | cons sp sps ih =>
    simp only [specApply, Spec.apply_eq_none sp w (h sp (List.mem_cons_self _ _))]
    exact ih fun x hx => h x (List.mem_cons_of_mem _ hx)

set_option maxRecDepth 1000000 in
theorem pluralSpecs_endsInLetter :
    pluralSpecs.all (fun sp => sp.shape.endsInLetter) = true := by decide!

set_option maxRecDepth 1000000 in
theorem singularSpecs_endsInLetter :
    singularSpecs.all (fun sp => sp.shape.endsInLetter || sp.shape.spells "oxen".data) = true := by
  decide!

/-- C17. With the built-in tables `Plural(w) = w` for every word `w` that is
empty or whose last character is not a letter: neither an ASCII letter nor
one of the two letters, U+017F and U+212A, that case folding equates with
`s` and `k`. -/
theorem plural_needs_letter (w : String)
    (hw : ∀ c ∈ w.data.getLast?, isLetter (foldKey c) = false) : Plural init.state w = w := by
  rw [Plural_init, specApply_of_search_none]
  intro sp hsp
  exact Shape.search_endsInLetter _ _ (List.all_eq_true.mp pluralSpecs_endsInLetter sp hsp) hw

/-- Witness of C17: the empty word, a word ending in a digit and a word
ending in an underscore. -/
theorem plural_needs_letter_witness :
    Plural init.state "" = "" ∧ Plural init.state "bus1" = "bus1" ∧
      Plural init.state "bus_" = "bus_" :=
  ⟨plural_needs_letter "" (by simp), plural_needs_letter "bus1" (by decide),
    plural_needs_letter "bus_" (by decide)⟩

/-- C18, amended.  With the built-in tables `Singular(w) = w` for every word
`w` that is empty or whose last character is not a letter, provided `w` does
not begin with "oxen" in any letter case. -/
theorem singular_needs_letter (w : String)
    (hw : ∀ c ∈ w.data.getLast?, isLetter (foldKey c) = false)
    (hox : (w.data.take 4).map foldKey ≠ "oxen".data) : Singular init.state w = w := by
  rw [Singular_init, specApply_of_search_none]
  intro sp hsp
  have := List.all_eq_true.mp singularSpecs_endsInLetter sp hsp
  simp only [Bool.or_eq_true] at this
  rcases this with h | h
  · exact Shape.search_endsInLetter _ _ h hw
  · exact Shape.search_spells _ _ _ h hox

/-- Witness of C18: the empty word, a word ending in a digit and a word
ending in an underscore. -/
theorem singular_needs_letter_witness :
    Singular init.state "" = "" ∧ Singular init.state "buses1" = "buses1" ∧
      Singular init.state "buses_" = "buses_" :=
  ⟨singular_needs_letter "" (by simp) (by decide),
    singular_needs_letter "buses1" (by decide) (by decide),
    singular_needs_letter "buses_" (by decide) (by decide)⟩

/-- Counterexample to C18 as stated: "oxen1" ends in a digit, and the rule
`^(ox)en`, which has no `$`, rewrites it to "ox1". -/
theorem singular_needs_letter_counterexample :
    Singular init.state "oxen1" = "ox1" ∧ "oxen1".data.getLast? = some '1' ∧
      isLetter '1' = false := by
  refine ⟨?_, by decide, by decide⟩
  rw [Singular_init]; decide!

/-! ## C19: tables of rules that share a backing array -/

theorem take_drop_set_outside {α : Type} (a : List α) (i o n : Nat) (v : α)
    (h : i < o ∨ o + n ≤ i) : ((a.set i v).drop o).take n = (a.drop o).take n := by
  apply List.ext_getElem?
  intro k
  simp only [List.getElem?_take, List.getElem?_drop, List.getElem?_set]
  split
  · split
    · omega
    · rfl
  · rfl

theorem take_drop_set_end {α : Type} (a : List α) (o n : Nat) (v : α) (h : o + n < a.length) :
    ((a.set (o + n) v).drop o).take (n + 1) = (a.drop o).take n ++ [v] := by
  apply List.ext_getElem?
  intro k
  have hl : ((a.drop o).take n).length = n := by simp; omega
  by_cases hk : k < n
  · rw [List.getElem?_append_left (by omega)]
    simp only [List.getElem?_take, List.getElem?_drop, List.getElem?_set]
    simp [hk, show k < n + 1 by omega, show ¬ (o + n = o + k) by omega]
  · rw [List.getElem?_append_right (by omega), hl]
    simp only [List.getElem?_take, List.getElem?_drop, List.getElem?_set]
    by_cases hkn : k = n
    · subst hkn
      simp [h]
    · have : ¬ k < n + 1 := by omega
      simp [this]
      omega

theorem readSlice_length (h : Heap) (s : Slice) (hs : s.fits h = true) :
    (readSlice h s).length = s.len := by
  simp only [Slice.fits, Bool.and_eq_true, decide_eq_true_eq] at hs
  simp only [readSlice, List.length_take, List.length_drop]
  omega

theorem readSlice_fresh (h : Heap) (x : List Regular) (s : Slice) (hs : s.fits h = true) :
    readSlice (h ++ [x]) s = readSlice h s := by
  simp only [Slice.fits, Bool.and_eq_true, decide_eq_true_eq] at hs
  by_cases ha : s.arr < h.length
  · simp only [readSlice, List.getD_eq_getElem?_getD, List.getElem?_append_left ha]
  · have h0 : h.getD s.arr [] = [] := by
      simp only [List.getD_eq_getElem?_getD]
      rw [List.getElem?_eq_none (by omega)]
      rfl
    rw [h0] at hs
    have hl : s.len = 0 := by simp at hs; omega
    simp [readSlice, hl]

theorem heap_getD_set (h : Heap) (i j : Nat) (x : List Regular) :
    (h.set i x).getD j [] = if i = j ∧ i < h.length then x else h.getD j [] := by
  simp only [List.getD_eq_getElem?_getD, List.getElem?_set]
  split
  · rename_i hij
    subst hij
    by_cases hi : i < h.length
    · simp [hi]
    · simp only [hi, ↓reduceIte, and_false]
      rw [List.getElem?_eq_none (by omega)]
  · rename_i hij
    simp [hij]

/-- What `append` does to the slice it extends and to another slice: the
first gains the element at its end; the second keeps its elements when the
slot written is none of them. -/
theorem appendSlice_read (grow : Nat → Nat) (h : Heap) (a b : Slice) (v : Regular)
    (ha : a.fits h = true) (hb : b.fits h = true) (hc : a.clear b = true) :
    readSlice (appendSlice grow h a v).1 (appendSlice grow h a v).2 = readSlice h a ++ [v] ∧
      readSlice (appendSlice grow h a v).1 b = readSlice h b := by
  have hla := readSlice_length h a ha
  simp only [Slice.fits, Bool.and_eq_true, decide_eq_true_eq] at ha
  simp only [appendSlice]
  split
  · rename_i hlt
    have harr : a.arr < h.length := by
      by_contra hn
      have h0 : h.getD a.arr [] = [] := by
        simp only [List.getD_eq_getElem?_getD]
        rw [List.getElem?_eq_none (by omega)]
        rfl
      rw [h0] at ha
      simp at ha
      omega
    constructor
    · simp only [readSlice, heap_getD_set, harr, and_self, ↓reduceIte]
      exact take_drop_set_end _ _ _ _ (by omega)
    · simp only [readSlice, heap_getD_set, harr, and_true]
      split
      · rename_i hab
        simp only [Slice.clear, hlt, hab, beq_self_eq_true, Bool.and_true, Bool.true_and,
          Bool.not_eq_true', Bool.and_eq_false_iff, decide_eq_false_iff_not, decide_eq_true_eq,
          decide_True] at hc
        rw [← hab]
        exact take_drop_set_outside _ _ _ _ _ (by omega)
      · rfl
  · constructor
    · have hR : ∀ R spare : List Regular, R.length = a.len →
          List.take (a.len + 1) (R ++ v :: spare) = R ++ [v] := by
        intro R spare hR
        rw [List.take_append_eq_append_take, List.take_of_length_le (by omega), hR]
        simp
      have := hR (readSlice h a) (make ⟨"", ""⟩ (max (a.len + 1) (grow a.cap) - (a.len + 1))) hla
      simpa [readSlice, List.getD_eq_getElem?_getD] using this
    · exact readSlice_fresh h _ b hb

theorem memCompile_of_done (m : Mem) (t : State) (h : compile m.state = .done t) :
    Mem.compile m = .done (m.put t) := by
  simp [Mem.compile, h]

theorem put_state (m : Mem) (t : State) (h : compile m.state = .done t) : (m.put t).state = t := by
  obtain ⟨h1, h2, h3, h4⟩ := compile_tables _ _ h
  cases t
  simp only [Mem.state, Mem.put] at *
  simp [h1, h2, h3, h4]

/-- C19, amended.  In every state whose compiled lists are current and in
which the slot that `append` to the plural table writes is no element of the
singular table (the plural table has no spare capacity, or the two tables
have different backing arrays, or the slot after the end of the plural table
lies outside the singular table), and for every rule `(find, replace)` whose
three patterns compile, `AddPlural(find, replace)` returns, appends exactly
that rule at the end of the plural table, leaves the singular, irregular and
uncountable tables unchanged, and leaves `Singular(w)` unchanged for every
word `w`; symmetrically for `AddSingular`, the plural table and
`Plural(w)`. -/
theorem add_rule_other_direction (grow : Nat → Nat) (m : Mem) (find replace : String)
    (hp : m.plural.fits m.heap = true) (hq : m.singular.fits m.heap = true)
    (hs : m.state.current) (hv : isOk (regularMatchers ⟨find, replace⟩) = true) :
    (m.plural.clear m.singular = true →
      ∃ t, Mem.AddPlural grow m find replace = .done t ∧
        t.state.pluralInflections = m.state.pluralInflections ++ [⟨find, replace⟩] ∧
        t.state.singularInflections = m.state.singularInflections ∧
        t.state.irregularInflections = m.state.irregularInflections ∧
        t.state.uncountableInflections = m.state.uncountableInflections ∧
        ∀ w, Mem.Singular t w = Mem.Singular m w) ∧
    (m.singular.clear m.plural = true →
      ∃ t, Mem.AddSingular grow m find replace = .done t ∧
        t.state.singularInflections = m.state.singularInflections ++ [⟨find, replace⟩] ∧
        t.state.pluralInflections = m.state.pluralInflections ∧
        t.state.irregularInflections = m.state.irregularInflections ∧
        t.state.uncountableInflections = m.state.uncountableInflections ∧
        ∀ w, Mem.Plural t w = Mem.Plural m w) := by
  obtain ⟨f1, f2⟩ := add_rule_frame m.state find replace hs hv
  constructor
  · intro hc
    obtain ⟨r1, r2⟩ := appendSlice_read grow m.heap m.plural m.singular ⟨find, replace⟩ hp hq hc
    obtain ⟨t, ht, h1, h2, h3, h4, h5⟩ := f1
    have hm : compile ({ m with
        heap := (appendSlice grow m.heap m.plural ⟨find, replace⟩).1,
        plural := (appendSlice grow m.heap m.plural ⟨find, replace⟩).2 } : Mem).state
        = .done t := by
      rw [← ht]
      simp only [Mem.state, r1, r2, AddPlural]
    refine ⟨_, memCompile_of_done _ t hm, ?_⟩
    rw [put_state _ t hm]
    exact ⟨h1, h2, h3, h4, fun w => h5 w⟩
  · intro hc
    obtain ⟨r1, r2⟩ := appendSlice_read grow m.heap m.singular m.plural ⟨find, replace⟩ hq hp hc
    obtain ⟨t, ht, h1, h2, h3, h4, h5⟩ := f2
    have hm : compile ({ m with
        heap := (appendSlice grow m.heap m.singular ⟨find, replace⟩).1,
        singular := (appendSlice grow m.heap m.singular ⟨find, replace⟩).2 } : Mem).state
        = .done t := by
      rw [← ht]
      simp only [Mem.state, r1, r2, AddSingular]
    refine ⟨_, memCompile_of_done _ t hm, ?_⟩
    rw [put_state _ t hm]
    exact ⟨h1, h2, h3, h4, fun w => h5 w⟩

theorem builtin_state : Mem.builtin.state = builtinState := rfl

theorem memInit_done : Mem.init = .done (Mem.builtin.put init.state) :=
  memCompile_of_done _ _ (by rw [builtin_state]; exact init_done)

theorem memInit_state : (Mem.builtin.put init.state).state = init.state :=
  put_state _ _ (by rw [builtin_state]; exact init_done)

/-- A call that assigns the variables `m` and then compiles returns when
`compile` does on their contents, and leaves those contents with the new
compiled lists. -/
theorem memCompile_state (m : Mem) (s t : State) (e : m.state = s) (c : compile s = .done t) :
    Mem.compile m = .done (m.put t) ∧ (m.put t).state = t ∧
      t.pluralInflections = s.pluralInflections ∧
      t.singularInflections = s.singularInflections := by
  subst e
  exact ⟨memCompile_of_done m t c, put_state m t c, (compile_tables _ _ c).1,
    (compile_tables _ _ c).2.1⟩

set_option maxRecDepth 1000000 in
theorem shared_rules_check :
    regularCheck [⟨"s$", ""⟩] [sRuleSpec] = true ∧
      regularCheck [⟨"s$", ""⟩, ⟨"x$", "y"⟩] [xRuleSpec, sRuleSpec] = true ∧
      regularCheck [⟨"s$", ""⟩, ⟨"(ss)$", "${1}"⟩] [ssRuleSpec, sRuleSpec] = true := by
  decide!

set_option maxRecDepth 1000000 in
theorem shared_glass :
    specApply (describe uncountableInflections
        (irregularInflections.map fun v => (v.plural, v.singular)) [ssRuleSpec, sRuleSpec])
        "glass".data = "glass".data ∧
      specApply (describe uncountableInflections
        (irregularInflections.map fun v => (v.plural, v.singular)) [xRuleSpec, sRuleSpec])
        "glass".data = "glas".data := by
  decide!

/-- Counterexample to C19 as stated.  After `init`, the calls
`rules := GetSingular()`, `SetSingular(rules[:2])` and `SetPlural(rules[:1])`
return and leave current compiled lists; the singular table is the first two
elements of the array of `rules` and the plural table is the first, with
spare capacity.  `AddPlural("x$", "y")` then writes its rule in place, over
the second singular rule `("(ss)$", "${1}")`: the singular table is changed
and `Singular("glass")`, which was "glass", is "glas". -/
theorem add_rule_other_direction_counterexample :
    ∃ m0 rules m1 m2 m3 m4,
      Mem.init = .done m0 ∧ Mem.GetSingular m0 = (rules, m1) ∧
      Mem.SetSingular m1 (rules.slice 0 2) = .done m2 ∧
      Mem.SetPlural m2 (rules.slice 0 1) = .done m3 ∧
      m3.state.current ∧ isOk (regularMatchers ⟨"x$", "y"⟩) = true ∧
      Mem.AddPlural (fun c => 2 * c) m3 "x$" "y" = .done m4 ∧
      m3.state.pluralInflections = [⟨"s$", ""⟩] ∧
      m4.state.pluralInflections = [⟨"s$", ""⟩, ⟨"x$", "y"⟩] ∧
      m3.state.singularInflections = [⟨"s$", ""⟩, ⟨"(ss)$", "${1}"⟩] ∧
      m4.state.singularInflections = [⟨"s$", ""⟩, ⟨"x$", "y"⟩] ∧
      m4.state.singularInflections ≠ m3.state.singularInflections ∧
      Mem.Singular m3 "glass" = "glass" ∧ Mem.Singular m4 "glass" = "glas" := by
  have hu := uncountable_plain
  have hi := irregular_plain
  -- `SetSingular(rules[:2])`: the singular table is the first two built-in rules
  obtain ⟨t2, c2, -, -⟩ := compile_describe_rules
    ⟨pluralInflections, [⟨"s$", ""⟩, ⟨"(ss)$", "${1}"⟩], irregularInflections,
      uncountableInflections, init.state.compiledPluralMaps, init.state.compiledSingularMaps⟩
    pluralRuleSpecs [ssRuleSpec, sRuleSpec] plural_rules_check shared_rules_check.2.2 hu hi
  obtain ⟨k2, -, -, -⟩ := memCompile_state
    { (Mem.GetSingular (Mem.builtin.put init.state)).2 with
      singular := (Mem.GetSingular (Mem.builtin.put init.state)).1.slice 0 2 } _ t2 rfl c2
  -- `SetPlural(rules[:1])`: the plural table is the first of them
  obtain ⟨t3, c3, -, d3⟩ := compile_describe_rules
    ⟨[⟨"s$", ""⟩], [⟨"s$", ""⟩, ⟨"(ss)$", "${1}"⟩], irregularInflections,
      uncountableInflections, t2.compiledPluralMaps, t2.compiledSingularMaps⟩
    [sRuleSpec] [ssRuleSpec, sRuleSpec] shared_rules_check.1 shared_rules_check.2.2 hu hi
  obtain ⟨k3, s3, p3, q3⟩ := memCompile_state
    { (({ (Mem.GetSingular (Mem.builtin.put init.state)).2 with
      singular := (Mem.GetSingular (Mem.builtin.put init.state)).1.slice 0 2 } : Mem).put t2) with
      plural := (Mem.GetSingular (Mem.builtin.put init.state)).1.slice 0 1 } _ t3 rfl c3
  -- `AddPlural("x$", "y")`: the slot after the plural table is the second singular rule
  obtain ⟨t4, c4, -, d4⟩ := compile_describe_rules
    ⟨[⟨"s$", ""⟩, ⟨"x$", "y"⟩], [⟨"s$", ""⟩, ⟨"x$", "y"⟩], irregularInflections,
      uncountableInflections, t3.compiledPluralMaps, t3.compiledSingularMaps⟩
    [xRuleSpec, sRuleSpec] [xRuleSpec, sRuleSpec] shared_rules_check.2.1
    shared_rules_check.2.1 hu hi
  obtain ⟨k4, s4, p4, q4⟩ := memCompile_state
    { (({ (({ (Mem.GetSingular (Mem.builtin.put init.state)).2 with
      singular := (Mem.GetSingular (Mem.builtin.put init.state)).1.slice 0 2 } : Mem).put t2) with
      plural := (Mem.GetSingular (Mem.builtin.put init.state)).1.slice 0 1 } : Mem).put t3) with
      heap := (appendSlice (fun c => 2 * c)
        (Mem.GetSingular (Mem.builtin.put init.state)).2.heap
        ((Mem.GetSingular (Mem.builtin.put init.state)).1.slice 0 1) ⟨"x$", "y"⟩).1,
      plural := (appendSlice (fun c => 2 * c)
        (Mem.GetSingular (Mem.builtin.put init.state)).2.heap
        ((Mem.GetSingular (Mem.builtin.put init.state)).1.slice 0 1) ⟨"x$", "y"⟩).2 } _ t4 rfl c4
  have g3 : Singular t3 "glass" = "glass" :=
    (applyFirst_eq_specApply _ _ d3 "glass").trans (congrArg String.mk shared_glass.1)
  have g4 : Singular t4 "glass" = "glas" :=
    (applyFirst_eq_specApply _ _ d4 "glass").trans (congrArg String.mk shared_glass.2)
  exact ⟨_, _, _, _, _, _, memInit_done, rfl, k2, k3,
    Eq.mpr (congrArg State.current s3) (compile_current _ t3 c3),
    (regularCheck_sound _ _ shared_rules_check.2.1 |>.elim fun ms h => by
      obtain ⟨n, old, hn, -, -⟩ := (collect_reverse_snoc [⟨"s$", ""⟩] ⟨"x$", "y"⟩ ms).mp h.1
      simp [isOk, hn]), k4,
    (congrArg State.pluralInflections s3).trans p3,
    (congrArg State.pluralInflections s4).trans p4,
    (congrArg State.singularInflections s3).trans q3,
    (congrArg State.singularInflections s4).trans q4,
    fun h => (show ([⟨"s$", ""⟩, ⟨"x$", "y"⟩] : List Regular) ≠
        [⟨"s$", ""⟩, ⟨"(ss)$", "${1}"⟩] by decide)
      ((((congrArg State.singularInflections s4).trans q4).symm.trans h).trans
        ((congrArg State.singularInflections s3).trans q3)),
    (congrArg (fun s => Singular s "glass") s3).trans g3,
    (congrArg (fun s => Singular s "glass") s4).trans g4⟩

/-- Witness of C19: after `init` each table of rules has no spare capacity,
and the rule `("x$", "y")` is added to the plural table without a change to
the singular table or to `Singular`. -/
theorem add_rule_other_direction_witness :
    ∃ m t, Mem.init = .done m ∧
      Mem.AddPlural (fun c => 2 * c) m "x$" "y" = .done t ∧
      t.state.pluralInflections = m.state.pluralInflections ++ [⟨"x$", "y"⟩] ∧
      t.state.singularInflections = m.state.singularInflections ∧
      ∀ w, Mem.Singular t w = Mem.Singular m w := by
  have hcur : (Mem.builtin.put init.state).state.current :=
    Eq.mpr (congrArg State.current memInit_state)
      (compile_current builtinState init.state init_done)
  have hv : isOk (regularMatchers ⟨"x$", "y"⟩) = true :=
    regularCheck_sound _ _ shared_rules_check.2.1 |>.elim fun ms h => by
      obtain ⟨n, old, hn, -, -⟩ := (collect_reverse_snoc [⟨"s$", ""⟩] ⟨"x$", "y"⟩ ms).mp h.1
      simp [isOk, hn]
  obtain ⟨t, ht, h1, h2, _, _, h5⟩ :=
    (add_rule_other_direction (fun c => 2 * c) (Mem.builtin.put init.state) "x$" "y"
      rfl rfl hcur hv).1 rfl
  exact ⟨_, t, memInit_done, ht, h1, h2, h5⟩

end Inflection
